import Mathlib

/-!
Verification of the priorities-document core of obsidian-project-control
(src/main.ts), shallowly embedded over `List Char`.

Raw document text is a `List Char`; a line is a `List Char` containing no
newline character.  JavaScript regular expressions that the source applies
per line (the `m`/`gm` patterns) are embedded as executable functions on
lines; `String.prototype.split('\n')`, `indexOf`, `slice` correspond to
`splitLines`, explicit scans and `take`/`drop`.  JavaScript whitespace
(`\s`, `trim`) is modelled by its ASCII fragment, which is the fragment the
program's data exercises.
-/

/-- ASCII whitespace, the fragment of JavaScript `\s` and `trim` relevant here. -/
def isWsChar (c : Char) : Bool :=
  c = ' ' || c = '\t' || c = '\n' || c = '\r' || c = '\x0b' || c = '\x0c'

/-- Drop a maximal run of trailing whitespace. Returns a prefix of the input. -/
def dropTrailingWs : List Char → List Char
  | [] => []
  | c :: cs =>
    let r := dropTrailingWs cs
    if r.isEmpty && isWsChar c then [] else c :: r

/-- JavaScript `String.prototype.trim` (ASCII fragment). -/
def trimChars (l : List Char) : List Char :=
  dropTrailingWs (l.dropWhile isWsChar)

/-- JavaScript `String.prototype.split(sep)` for a one-character separator. -/
def splitOnChar (sep : Char) : List Char → List (List Char)
  | [] => [[]]
  | c :: cs =>
    if c = sep then [] :: splitOnChar sep cs
    else
      match splitOnChar sep cs with
      | [] => [[c]]
      | l :: ls => (c :: l) :: ls

/-- JavaScript `content.split('\n')`. -/
def splitLines : List Char → List (List Char) := splitOnChar '\n'

/-- JavaScript `lines.join` with a newline separator. -/
def joinLines : List (List Char) → List Char
  | [] => []
  | [l] => l
  | l :: ls => l ++ '\n' :: joinLines ls

/-- The text before the first newline. -/
def headLine (l : List Char) : List Char := l.takeWhile (· ≠ '\n')

/-- Does `pat` occur at the very start of `s`? -/
def startsWith : List Char → List Char → Bool
  | [], _ => true
  | _ :: _, [] => false
  | p :: ps, c :: cs => p = c && startsWith ps cs

/-- Does `pat` occur as a contiguous substring of `s`? -/
def containsSub (pat : List Char) : List Char → Bool
  | [] => startsWith pat []
  | s@(_ :: cs) => startsWith pat s || containsSub pat cs

/-- Does the string contain two adjacent opening brackets, the token that
starts a wiki link? -/
def hasLL (l : List Char) : Bool := containsSub ['[', '['] l

/-- JavaScript `line.substring(0, line.indexOf('[['))`: the characters
strictly before the first occurrence of two adjacent opening brackets
(the entire line when there is none). -/
def beforeLL : List Char → List Char
  | '[' :: '[' :: _ => []
  | c :: cs => c :: beforeLL cs
  | [] => []

/-- JavaScript `beforeLink.replace(skipDashRe, '')` for the pattern that
strips one leading dash together with the whitespace run after it. -/
def stripDash : List Char → List Char
  | '-' :: rest => rest.dropWhile isWsChar
  | l => l

/- ### The data model (src/main.ts lines 63-83) -/

/-- One reference line of the priorities document (`PriorityEntry`).  The
`project` and `frontmatter` fields of the source are memoised lookups of
`projectName` against the vault and are not part of the document state. -/
structure PriorityEntry where
  projectName : List Char
  emoji : List Char
  displayAlias : Option (List Char)
deriving DecidableEq, Repr

/-- A named group of entries under a `###` header. -/
structure PrioritySubsection where
  name : List Char
  entries : List PriorityEntry
deriving DecidableEq, Repr

/-- `SectionItem`: a top-level entry or a subsection. -/
inductive SectionItem where
  | subItem (s : PrioritySubsection)
  | entryItem (e : PriorityEntry)
deriving DecidableEq, Repr

/-- `PrioritySection`: a `##` section with its ordered items. -/
structure PrioritySection where
  name : List Char
  orderedItems : List SectionItem
deriving DecidableEq, Repr

/-- `DashboardData`: the parsed document plus the derived unlisted set
(projects reduced to their names). -/
structure DashboardData where
  sections : List PrioritySection
  unlisted : List (List Char)
deriving DecidableEq, Repr

/- ### The parser (parsePrioritiesFile, src/main.ts lines 946-1046) -/

/-- JavaScript character class for the dot of a non-multiline regex:
everything except line terminators. -/
def dotOk (c : Char) : Bool := c ≠ '\n' && c ≠ '\r'

/-- Match of a line against the section-header pattern (two hash marks,
a space, then at least one character up to the end of the line). -/
def matchSectionHeader : List Char → Option (List Char)
  | '#' :: '#' :: ' ' :: rest =>
    if rest ≠ [] && rest.all dotOk then some rest else none
  | _ => none

/-- Match of a line against the subsection-header pattern (three hash
marks, a space, then at least one character up to the end of the line). -/
def matchSubsectionHeader : List Char → Option (List Char)
  | '#' :: '#' :: '#' :: ' ' :: rest =>
    if rest ≠ [] && rest.all dotOk then some rest else none
  | _ => none

/-- Character admitted inside the project-name group of the link pattern:
anything but a closing bracket or a pipe. -/
def linkNameChar (c : Char) : Bool := c ≠ ']' && c ≠ '|'

/-- Character admitted inside the alias group of the link pattern:
anything but a closing bracket. -/
def linkAliasChar (c : Char) : Bool := c ≠ ']'

/-- Match of the wiki-link pattern anchored at the start of `l`:
two opening brackets, a non-empty name, optionally a pipe and a non-empty
alias, then two closing brackets. -/
def matchLinkAt (l : List Char) : Option (List Char × Option (List Char)) :=
  match l with
  | '[' :: '[' :: rest =>
    let name := rest.takeWhile linkNameChar
    let rest2 := rest.dropWhile linkNameChar
    if name.isEmpty then none
    else
      match rest2 with
      | '|' :: r3 =>
        let al := r3.takeWhile linkAliasChar
        let r4 := r3.dropWhile linkAliasChar
        match r4 with
        | ']' :: ']' :: _ => if al.isEmpty then none else some (name, some al)
        | _ => none
      | ']' :: ']' :: _ => some (name, none)
      | _ => none
  | _ => none

/-- Leftmost match of the wiki-link pattern anywhere in the line
(JavaScript `line.match(linkRegex)`). -/
def findLink : List Char → Option (List Char × Option (List Char))
  | [] => none
  | l@(_ :: cs) =>
    match matchLinkAt l with
    | some r => some r
    | none => findLink cs

/-- The emoji text derived from the line itself: everything before the
opening brackets, with a leading list marker stripped, trimmed. -/
def lineEmoji (line : List Char) : List Char :=
  trimChars (stripDash (beforeLL line))

/-- An attribute lookup: the `emoji` frontmatter value of the named
project, when the project exists and carries one. -/
def EmojiLookup : Type := List Char → Option (List Char)

/-- The entry parsed from a line containing a link: the frontmatter emoji
overrides the line-derived prefix unless it is absent or empty. -/
def lineEntry (fe : EmojiLookup) (line : List Char) : Option PriorityEntry :=
  match findLink line with
  | none => none
  | some (pn, al) =>
    let emojiPart := lineEmoji line
    let emoji :=
      match fe pn with
      | some e => if e.isEmpty then emojiPart else e
      | none => emojiPart
    some ⟨pn, emoji, al⟩

/-- Is this line the delimiter that halts parsing (trims to three dashes)? -/
def isStopLine (l : List Char) : Bool := trimChars l = ['-', '-', '-']

/-- Parser state: sections already closed, the open section (name and
items so far), the open subsection, and the set of project names seen. -/
structure ParseState where
  closed : List PrioritySection
  cur : Option (List Char × List SectionItem)
  curSub : Option PrioritySubsection
  found : List (List Char)
deriving DecidableEq, Repr

/-- The open subsection flushed to an item list. -/
def flushSub : Option PrioritySubsection → List SectionItem
  | none => []
  | some s => [.subItem s]

/-- The open section closed into a completed `PrioritySection`
(with its open subsection flushed first). -/
def closeCur (cur : Option (List Char × List SectionItem))
    (curSub : Option PrioritySubsection) : List PrioritySection :=
  match cur with
  | none => []
  | some (n, items) => [⟨n, items ++ flushSub curSub⟩]

/-- One parser step on a line that is not the stop delimiter, mirroring
the body of the scan loop of parsePrioritiesFile. -/
def parseStepCore (fe : EmojiLookup) (st : ParseState) (line : List Char) : ParseState :=
  match matchSectionHeader line with
  | some name =>
    { closed := st.closed ++ closeCur st.cur st.curSub
      cur := some (name, [])
      curSub := none
      found := st.found }
  | none =>
  match matchSubsectionHeader line with
  | some name =>
    match st.cur with
    | none => st
    | some (n, items) =>
      { st with cur := some (n, items ++ flushSub st.curSub), curSub := some ⟨name, []⟩ }
  | none =>
  match lineEntry fe line, st.cur with
  | some e, some (n, items) =>
    match st.curSub with
    | some s =>
      { st with curSub := some ⟨s.name, s.entries ++ [e]⟩, found := st.found ++ [e.projectName] }
    | none =>
      { st with cur := some (n, items ++ [.entryItem e]), found := st.found ++ [e.projectName] }
  | _, _ => st

/-- The parser run without the stop rule (used to state what "the items
derived from a list of lines" are). -/
def parseNoStop (fe : EmojiLookup) : List (List Char) → ParseState → ParseState
  | [], st => st
  | l :: ls, st => parseNoStop fe ls (parseStepCore fe st l)

/-- The parser scan loop: process lines in order, halting permanently at
the first stop delimiter. -/
def parseLines (fe : EmojiLookup) : List (List Char) → ParseState → ParseState
  | [], st => st
  | l :: ls, st =>
    if isStopLine l then st else parseLines fe ls (parseStepCore fe st l)

/-- The final flush at end of input: the still-open subsection is flushed
into its section; the sections array already holds the open section. -/
def finalizeParse (st : ParseState) : List PrioritySection :=
  st.closed ++ closeCur st.cur st.curSub

/-- The initial parser state. -/
def initState : ParseState := ⟨[], none, none, []⟩

/-- parsePrioritiesFile, document part: sections parsed from raw text. -/
def parseSections (fe : EmojiLookup) (text : List Char) : List PrioritySection :=
  finalizeParse (parseLines fe (splitLines text) initState)

/-- parsePrioritiesFile, bookkeeping part: project names found during the scan. -/
def parseFound (fe : EmojiLookup) (text : List Char) : List (List Char) :=
  (parseLines fe (splitLines text) initState).found

/-- parsePrioritiesFile: sections plus the derived unlisted set, the
tagged projects never seen during the scan. -/
def parsePrioritiesFile (fe : EmojiLookup) (tagged : List (List Char))
    (text : List Char) : DashboardData :=
  ⟨parseSections fe text, tagged.filter (fun p => ¬ (parseFound fe text).contains p)⟩

/- ### The serializer (writePrioritiesFile, src/main.ts lines 1048-1091) -/

/-- formatPriorityEntry: one canonical entry line. -/
def formatPriorityEntry (e : PriorityEntry) : List Char :=
  let emojiPart := if e.emoji.isEmpty then [] else e.emoji ++ [' ']
  let linkPart :=
    match e.displayAlias with
    | some a => '[' :: '[' :: (e.projectName ++ '|' :: a ++ [']', ']'])
    | none => '[' :: '[' :: (e.projectName ++ [']', ']'])
  '-' :: ' ' :: (emojiPart ++ linkPart)

/-- The lines emitted for one section item. -/
def itemLines : SectionItem → List (List Char)
  | .subItem s => ('#' :: '#' :: '#' :: ' ' :: s.name) :: s.entries.map formatPriorityEntry
  | .entryItem e => [formatPriorityEntry e]

/-- The lines emitted for one section: its header, its items, one blank line. -/
def sectionLines (s : PrioritySection) : List (List Char) :=
  ('#' :: '#' :: ' ' :: s.name) :: ((s.orderedItems.map itemLines).flatten ++ [[]])

/-- The rebuilt modeled region, as lines. -/
def writeLines (sections : List PrioritySection) : List (List Char) :=
  (sections.map sectionLines).flatten

/-- JavaScript `currentContent.substring(currentContent.indexOf('\n---'))`
(empty when the pattern never occurs): the preserved trailing region. -/
def suffixFrom : List Char → List Char
  | l@('\n' :: '-' :: '-' :: '-' :: _) => l
  | _ :: cs => suffixFrom cs
  | [] => []

/-- writePrioritiesFile: rebuild the modeled region from the sections and
append the preserved trailing region of the current content. -/
def writePrioritiesFile (data : DashboardData) (currentContent : List Char) : List Char :=
  joinLines (writeLines data.sections) ++ suffixFrom currentContent

example : splitLines "a\nb".data = ["a".data, "b".data] := by decide
example : joinLines ["a".data, "b".data] = "a\nb".data := by decide
example : isStopLine "  ---  ".data = true := by decide
example : isStopLine "---x".data = false := by decide
example : findLink "- x [[A|b]] z".data = some ("A".data, some "b".data) := by decide
example : lineEmoji "- 😀 [[A]]".data = "😀".data := by decide
example :
    parseSections (fun _ => none) "## T\n- [[B]]\n---\n## U".data =
      [⟨"T".data, [.entryItem ⟨"B".data, [], none⟩]⟩] := by decide
example :
    writePrioritiesFile ⟨[⟨"T".data, [.entryItem ⟨"B".data, [], none⟩]⟩], []⟩
      "x\n---\nnotes".data = "## T\n- [[B]]\n\n---\nnotes".data := by decide

/- ### Raw-text write paths (src/main.ts lines 365-420, 458-537) -/

/-- Does this line match the removal pattern for a plain link to the
project: it contains the project link with no alias? -/
def hasPlainLink (pn : List Char) (l : List Char) : Bool :=
  containsSub ('[' :: '[' :: (pn ++ [']', ']'])) l

/-- Tail check after the opening of an aliased link: a non-empty run of
non-bracket characters followed by two closing brackets. -/
def aliasTailOk (r : List Char) : Bool :=
  let a := r.takeWhile linkAliasChar
  let r2 := r.dropWhile linkAliasChar
  !a.isEmpty &&
    match r2 with
    | ']' :: ']' :: _ => true
    | _ => false

/-- Does this line match the removal pattern for an aliased link to the
project: the opening, the name, a pipe, a non-empty alias, the closing? -/
def hasAliasLink (pn : List Char) : List Char → Bool
  | [] => false
  | l@(_ :: cs) =>
    (startsWith ('[' :: '[' :: (pn ++ ['|'])) l &&
      aliasTailOk (l.drop (pn.length + 3))) ||
    hasAliasLink pn cs

/-- Does the line contain a link to the project in either form?  This is
the per-line reading of the two removal patterns of removeFromPriorities
and of the single project-line pattern of moveProjectInPriorities. -/
def lineHasLink (pn : List Char) (l : List Char) : Bool :=
  hasPlainLink pn l || hasAliasLink pn l

/-- One line after the line-wise removal replace: a line matching the
project-link pattern is replaced by the empty string. -/
def blankLink (pn : List Char) (l : List Char) : List Char :=
  if lineHasLink pn l then [] else l

/-- Scan for the newline-run replace: `k` is the length of the pending
newline run; a maximal run of `k` newlines is emitted as `min k 2` of them. -/
def collapseNlAux : Nat → List Char → List Char
  | k, [] => List.replicate (min k 2) '\n'
  | k, '\n' :: rest => collapseNlAux (k + 1) rest
  | k, c :: rest => List.replicate (min k 2) '\n' ++ c :: collapseNlAux 0 rest

/-- JavaScript `content.replace(tripleNewlineRe, doubleNewline)`: each
maximal run of three or more newlines collapses to two. -/
def collapseNewlines (l : List Char) : List Char := collapseNlAux 0 l

/-- removeFromPriorities (src/main.ts lines 365-385), text transformation:
blank every line containing a link to the project, then clean up runs of
blank lines. -/
def removeFromPriorities (pn : List Char) (content : List Char) : List Char :=
  collapseNewlines (joinLines ((splitLines content).map (blankLink pn)))

/-- Last index at which three consecutive dashes start
(JavaScript `content.lastIndexOf(dashes)`). -/
def lastIdxDashes (content : List Char) : Option Nat :=
  ((List.range content.length).filter
    (fun i => startsWith ['-', '-', '-'] (content.drop i))).getLast?

/-- The section header line for a named section. -/
def headerLine (sectionName : List Char) : List Char :=
  '#' :: '#' :: ' ' :: sectionName

/-- Insert a new line immediately after the first occurrence of the given
line (the line-level reading of slicing at the header match index). -/
def insertAfterFirst (header newLine : List Char) (ls : List (List Char)) :
    List (List Char) :=
  ls.takeWhile (· ≠ header) ++ header :: newLine :: (ls.dropWhile (· ≠ header)).tail

/-- addToPriorities (src/main.ts lines 393-420): insert an entry line
after the section header when present, otherwise create the section just
before the last dash delimiter; when that too is absent (or at index 0),
leave the content unchanged. -/
def addToPriorities (pn : List Char) (sectionName : List Char)
    (emoji : Option (List Char)) (content : List Char) : List Char :=
  let emojiPart := match emoji with | some e => e ++ [' '] | none => []
  let newEntry := '-' :: ' ' :: (emojiPart ++ '[' :: '[' :: (pn ++ [']', ']']))
  let ls := splitLines content
  if ls.contains (headerLine sectionName) then
    joinLines (insertAfterFirst (headerLine sectionName) newEntry ls)
  else
    match lastIdxDashes content with
    | some i =>
      if i > 0 then
        content.take i ++ (headerLine sectionName ++ '\n' :: newEntry ++ ['\n', '\n'])
          ++ content.drop i
      else content
    | none => content

/-- moveProjectInPriorities (src/main.ts lines 458-504): extract the first
line containing the project link, remove all such lines, clean blank runs,
and re-insert the extracted line after the target section header (creating
the section before the last dash delimiter, or at the end, when absent). -/
def moveProjectInPriorities (pn : List Char) (targetSection : List Char)
    (content : List Char) : List Char :=
  match (splitLines content).find? (lineHasLink pn) with
  | none => addToPriorities pn targetSection none content
  | some projectLine =>
    let c1 := removeFromPriorities pn content
    let ls := splitLines c1
    if ls.contains (headerLine targetSection) then
      joinLines (insertAfterFirst (headerLine targetSection) projectLine ls)
    else
      match lastIdxDashes c1 with
      | some i =>
        if i > 0 then
          c1.take i ++ (headerLine targetSection ++ '\n' :: projectLine ++ ['\n', '\n'])
            ++ c1.drop i
        else c1 ++ ('\n' :: headerLine targetSection ++ '\n' :: projectLine ++ ['\n'])
      | none => c1 ++ ('\n' :: headerLine targetSection ++ '\n' :: projectLine ++ ['\n'])

/-- getStatusSection (src/main.ts lines 509-517). -/
def getStatusSection (status : List Char) : Option (List Char) :=
  if status = "active".data then some "Active".data
  else if status = "coming-soon".data then some "Coming Soon".data
  else if status = "deferred".data then some "Deferred Effort".data
  else if status = "on-hold".data then some "On Hold".data
  else none

/-- syncProjectStatusToPriorities (src/main.ts lines 527-537), as the
transformation it applies to the priorities text. -/
def syncProjectStatusToPriorities (pn : List Char) (newStatus : List Char)
    (content : List Char) : List Char :=
  if newStatus = "complete".data then removeFromPriorities pn content
  else
    match getStatusSection newStatus with
    | some targetSection => moveProjectInPriorities pn targetSection content
    | none => content

/- ### In-memory model operations (src/main.ts lines 539-591, 1587-1602) -/

/-- Find and remove the first entry with the given name from an entry
list (the findIndex plus splice step). -/
def findRemoveByName (pn : List Char) :
    List PriorityEntry → Option (PriorityEntry × List PriorityEntry)
  | [] => none
  | e :: es =>
    if e.projectName = pn then some (e, es)
    else (findRemoveByName pn es).map (fun p => (p.1, e :: p.2))

/-- Find and remove the first item occurrence of an entry with the given
name, scanning items in order and looking inside subsections. -/
def findRemoveInItems (pn : List Char) :
    List SectionItem → Option (PriorityEntry × List SectionItem)
  | [] => none
  | .entryItem e :: rest =>
    if e.projectName = pn then some (e, rest)
    else (findRemoveInItems pn rest).map (fun p => (p.1, .entryItem e :: p.2))
  | .subItem s :: rest =>
    match findRemoveByName pn s.entries with
    | some (e, es') => some (e, .subItem ⟨s.name, es'⟩ :: rest)
    | none => (findRemoveInItems pn rest).map (fun p => (p.1, .subItem s :: p.2))

/-- Is this item a subsection with the given name? -/
def isSubNamed (g : List Char) : SectionItem → Bool
  | .subItem s => s.name = g
  | .entryItem _ => false

/-- Is this item a subsection? -/
def isSubItem : SectionItem → Bool
  | .subItem _ => true
  | .entryItem _ => false

/-- Push the entry onto the entry list of the first subsection with the
given name. -/
def pushIntoFirstSubNamed (g : List Char) (e : PriorityEntry) :
    List SectionItem → List SectionItem
  | [] => []
  | it :: rest =>
    match it with
    | .subItem s =>
      if s.name = g then .subItem ⟨s.name, s.entries ++ [e]⟩ :: rest
      else it :: pushIntoFirstSubNamed g e rest
    | .entryItem _ => it :: pushIntoFirstSubNamed g e rest

/-- Re-place a removed entry inside its original section, following the
placement step of moveProjectToSubsection.  The group dispatch is the
JavaScript truthiness test `if (targetGroup)`: a null group and an empty
group name both take the insert-before-first-subsection branch. -/
def placeEntry (items : List SectionItem) (e : PriorityEntry)
    (targetGroup : Option (List Char)) : List SectionItem :=
  match targetGroup with
  | some g =>
    if g.isEmpty then
      items.takeWhile (fun it => ¬ isSubItem it) ++
        .entryItem e :: items.dropWhile (fun it => ¬ isSubItem it)
    else if items.any (isSubNamed g) then pushIntoFirstSubNamed g e items
    else items ++ [.entryItem e]
  | none =>
    items.takeWhile (fun it => ¬ isSubItem it) ++
      .entryItem e :: items.dropWhile (fun it => ¬ isSubItem it)

/-- moveProjectToSubsection (src/main.ts lines 539-591), document part:
locate the first entry with the project name, remove it, and re-place it
in its original section according to the target group. -/
def moveProjectToSubsection (pn : List Char) (targetGroup : Option (List Char)) :
    List PrioritySection → List PrioritySection
  | [] => []
  | sec :: rest =>
    match findRemoveInItems pn sec.orderedItems with
    | some (e, items') => ⟨sec.name, placeEntry items' e targetGroup⟩ :: rest
    | none => sec :: moveProjectToSubsection pn targetGroup rest

/-- Find and remove the first occurrence of the entry itself (by value)
from an entry list (the indexOf plus splice step). -/
def eraseFirstEntry (e : PriorityEntry) : List PriorityEntry → List PriorityEntry
  | [] => []
  | e' :: es => if e' = e then es else e' :: eraseFirstEntry e es

/-- The scan loop of removeEntryFromSection over the item list. -/
def removeEntryItems (e : PriorityEntry) : List SectionItem → List SectionItem
  | [] => []
  | .entryItem e' :: rest =>
    if e' = e then rest else .entryItem e' :: removeEntryItems e rest
  | .subItem s :: rest =>
    if s.entries.contains e then .subItem ⟨s.name, eraseFirstEntry e s.entries⟩ :: rest
    else .subItem s :: removeEntryItems e rest

/-- removeEntryFromSection (src/main.ts lines 1587-1602). -/
def removeEntryFromSection (s : PrioritySection) (e : PriorityEntry) : PrioritySection :=
  ⟨s.name, removeEntryItems e s.orderedItems⟩

/- ### Path utilities (src/main.ts lines 37-54) -/

/-- One character of the backslash-to-slash replace. -/
def backslashToSlash (c : Char) : Char := if c = '\\' then '/' else c

/-- Remove the maximal run of trailing slashes. -/
def stripTrailingSlashes (l : List Char) : List Char :=
  ((l.reverse).dropWhile (· = '/')).reverse

/-- Scan for the slash-run replace: the flag records whether the previous
character was a slash already emitted. -/
def collapseSlAux : Bool → List Char → List Char
  | _, [] => []
  | prev, '/' :: rest =>
    if prev then collapseSlAux true rest else '/' :: collapseSlAux true rest
  | _, c :: rest => c :: collapseSlAux false rest

/-- Collapse every run of slashes to a single slash. -/
def collapseSlashes (l : List Char) : List Char := collapseSlAux false l

/-- normalizePath (src/main.ts lines 37-41). -/
def normalizePath (p : List Char) : List Char :=
  if p.isEmpty then []
  else collapseSlashes (stripTrailingSlashes (p.map backslashToSlash))

/-- getProjectNameFromPath (src/main.ts lines 43-54). -/
def getProjectNameFromPath (fullPath projectFolder : List Char) : Option (List Char) :=
  let normalizedPath := normalizePath fullPath
  let normalizedProjectFolder := normalizePath projectFolder
  if normalizedProjectFolder.isEmpty ||
      ¬ startsWith (normalizedProjectFolder ++ ['/']) normalizedPath then none
  else
    let relativePath := normalizedPath.drop (normalizedProjectFolder.length + 1)
    let projectName := (splitOnChar '/' relativePath).headD []
    if projectName.isEmpty then none else some projectName

/- ### The dashboard write queue (enqueueWrite, src/main.ts lines 1216-1221) -/

/-- An observable event of the queue: the job with the given index starts,
or settles (successfully or with a failure). -/
inductive QueueEvent where
  | jobStart (n : Nat)
  | jobSettle (n : Nat)
deriving DecidableEq, Repr

/-- A queued job over document state `σ`: it transforms the state and
reports success or failure. -/
def QueueJob (σ : Type) : Type := σ → σ × Bool

/-- The settled value of the promise chain: resulting state, whether the
chain is fulfilled, and the trace of events so far. -/
structure ChainState (σ : Type) where
  state : σ
  fulfilled : Bool
  trace : List QueueEvent

/-- Promise.then with a job: the job runs only when the chain before it is
fulfilled; a rejected chain passes its rejection through. -/
def thenJob {σ : Type} (p : ChainState σ) (n : Nat) (j : QueueJob σ) : ChainState σ :=
  if p.fulfilled then
    let r := j p.state
    ⟨r.1, r.2, p.trace ++ [.jobStart n, .jobSettle n]⟩
  else p

/-- Promise.catch with the notification handler: a rejection is consumed
and the chain becomes fulfilled again; the state is untouched. -/
def catchNotify {σ : Type} (p : ChainState σ) : ChainState σ :=
  if p.fulfilled then p else ⟨p.state, true, p.trace⟩

/-- enqueueWrite: the new chain is the old chain, then the job, then the
catch handler. -/
def enqueueWrite {σ : Type} (p : ChainState σ) (n : Nat) (j : QueueJob σ) : ChainState σ :=
  catchNotify (thenJob p n j)

/-- The queue after enqueueing a list of jobs onto a fresh fulfilled chain. -/
def runQueue {σ : Type} (jobs : List (QueueJob σ)) (s0 : σ) : ChainState σ :=
  (jobs.enum.foldl (fun p ji => enqueueWrite p ji.1 ji.2) ⟨s0, true, []⟩)

example : normalizePath "10 - Project//a\\b/".data = "10 - Project/a/b".data := by decide
example : getProjectNameFromPath "10 - Project/Alpha/note.md".data "10 - Project".data
    = some "Alpha".data := by decide
example : removeFromPriorities "A".data "## S\n- [[A]]\n- [[B]]".data
    = "## S\n\n- [[B]]".data := by decide
example : syncProjectStatusToPriorities "A".data "on-hold".data
    "## Active\n- 🎯 [[A]]\n## On Hold\n---\nnotes".data
    = "## Active\n\n## On Hold\n- 🎯 [[A]]\n---\nnotes".data := by decide

/- ### Queue lemmas and claim C4 -/

/-- The expected first-in-first-out trace of `k` jobs starting at index `n`:
each job settles before the next one starts. -/
def fifoTrace : Nat → Nat → List QueueEvent
  | _, 0 => []
  | n, k + 1 => .jobStart n :: .jobSettle n :: fifoTrace (n + 1) k

theorem enqueueWrite_fulfilled {σ : Type} (p : ChainState σ) (n : Nat) (j : QueueJob σ)
    (h : p.fulfilled = true) :
    enqueueWrite p n j =
      ⟨(j p.state).1, true, p.trace ++ [.jobStart n, .jobSettle n]⟩ := by
  unfold enqueueWrite thenJob catchNotify
  rw [h]
  simp only [if_true]
  cases hb : (j p.state).2 <;> simp

theorem runQueue_aux {σ : Type} (jobs : List (QueueJob σ)) :
    ∀ (n : Nat) (p : ChainState σ), p.fulfilled = true →
      (List.enumFrom n jobs).foldl (fun q ji => enqueueWrite q ji.1 ji.2) p =
        ⟨jobs.foldl (fun s j => (j s).1) p.state, true,
          p.trace ++ fifoTrace n jobs.length⟩ := by
  induction jobs with
  | nil =>
    intro n p h
    simp [fifoTrace]
    cases p
    simp_all
  | cons j rest ih =>
    intro n p h
    have step := enqueueWrite_fulfilled p n j h
    simp only [List.enumFrom, List.foldl_cons, step]
    rw [ih (n + 1) _ rfl]
    simp [fifoTrace, List.length_cons]

/-- Claim C4: jobs enqueued by enqueueWrite execute strictly one after
another in queue order, every enqueued job runs even when earlier jobs
failed, the chain ends fulfilled, and the final document state is the
in-order composition of the jobs' transformations (no update is lost). -/
theorem writeQueue_fifo_and_lossless {σ : Type} (jobs : List (QueueJob σ)) (s0 : σ) :
    (runQueue jobs s0).trace = fifoTrace 0 jobs.length ∧
    (runQueue jobs s0).fulfilled = true ∧
    (runQueue jobs s0).state = jobs.foldl (fun s j => (j s).1) s0 := by
  unfold runQueue
  rw [show (List.enum jobs) = List.enumFrom 0 jobs from rfl]
  rw [runQueue_aux jobs 0 ⟨s0, true, []⟩ rfl]
  exact ⟨rfl, rfl, rfl⟩

/- ### Path lemmas and claims C10, C9 -/

theorem collapseSlAux_subset (l : List Char) :
    ∀ (b : Bool) (c : Char), c ∈ collapseSlAux b l → c ∈ l := by
  induction l with
  | nil => intro b c h; simp [collapseSlAux] at h
  | cons a rest ih =>
    intro b c h
    by_cases ha : a = '/'
    · subst ha
      simp only [collapseSlAux] at h
      cases b with
      | true =>
        simp only [if_true] at h
        exact List.mem_cons_of_mem _ (ih true c h)
      | false =>
        simp only [Bool.false_eq_true, if_false] at h
        rcases List.mem_cons.mp h with h1 | h2
        · exact h1 ▸ List.mem_cons_self _ _
        · exact List.mem_cons_of_mem _ (ih true c h2)
    · simp only [collapseSlAux, ha] at h
      rcases List.mem_cons.mp h with h1 | h2
      · exact h1 ▸ List.mem_cons_self _ _
      · exact List.mem_cons_of_mem _ (ih false c h2)

theorem collapseSlAux_true_head (l : List Char) :
    ∀ c cs, collapseSlAux true l = c :: cs → c ≠ '/' := by
  induction l with
  | nil => intro c cs h; simp [collapseSlAux] at h
  | cons a rest ih =>
    intro c cs h
    by_cases ha : a = '/'
    · subst ha
      simp only [collapseSlAux, if_true] at h
      exact ih c cs h
    · simp only [collapseSlAux, ha] at h
      injection h with h1 _
      rw [← h1]
      exact ha

theorem collapseSlAux_noDouble (l : List Char) :
    ∀ b, containsSub ['/', '/'] (collapseSlAux b l) = false := by
  induction l with
  | nil => intro b; simp [collapseSlAux, containsSub, startsWith]
  | cons a rest ih =>
    intro b
    by_cases ha : a = '/'
    · subst ha
      simp only [collapseSlAux]
      cases b with
      | true => simpa using ih true
      | false =>
        simp only [Bool.false_eq_true, if_false, containsSub, startsWith]
        rw [ih true]
        simp only [Bool.or_false]
        cases h : collapseSlAux true rest with
        | nil => simp [startsWith]
        | cons c cs =>
          have hc := collapseSlAux_true_head rest c cs h
          simp [startsWith, Ne.symm hc]
    · simp only [collapseSlAux, ha, containsSub, startsWith]
      rw [ih false]
      simp [Ne.symm ha]

theorem collapseSlAux_ne_nil (l : List Char) (b : Bool)
    (h : ∃ c ∈ l, c ≠ '/') : collapseSlAux b l ≠ [] := by
  induction l generalizing b with
  | nil => rcases h with ⟨c, hc, _⟩; cases hc
  | cons a rest ih =>
    by_cases ha : a = '/'
    · subst ha
      rcases h with ⟨c, hc, hcne⟩
      rcases List.mem_cons.mp hc with h1 | h2
      · exact absurd h1 hcne
      · simp only [collapseSlAux]
        cases b with
        | true => exact ih true ⟨c, h2, hcne⟩
        | false => simp
    · simp [collapseSlAux, ha]

theorem getLast?_cons_ne (a : Char) (l : List Char) (hl : l ≠ []) :
    (a :: l).getLast? = l.getLast? := by
  cases l with
  | nil => exact absurd rfl hl
  | cons b bs => exact List.getLast?_cons_cons

theorem collapseSlAux_getLast (l : List Char) :
    ∀ b, l.getLast? ≠ some '/' → (collapseSlAux b l).getLast? ≠ some '/' := by
  induction l with
  | nil => intro b _; simp [collapseSlAux]
  | cons a rest ih =>
    intro b hlast
    cases hr : rest with
    | nil =>
      subst hr
      by_cases ha : a = '/'
      · subst ha; simp at hlast
      · have hx : collapseSlAux b [a] = [a] := by simp [collapseSlAux, ha]
        rw [hx]
        intro hcontra
        simp at hcontra
        exact ha hcontra
    | cons r0 rtail =>
      have hrne : rest ≠ [] := by rw [hr]; simp
      rw [← hr] at *
      have hlast' : rest.getLast? ≠ some '/' := by
        rwa [getLast?_cons_ne a rest hrne] at hlast
      by_cases ha : a = '/'
      · subst ha
        simp only [collapseSlAux]
        cases b with
        | true => exact ih true hlast'
        | false =>
          simp only [Bool.false_eq_true, if_false]
          have hex : ∃ c ∈ rest, c ≠ '/' := by
            refine ⟨rest.getLast hrne, List.getLast_mem hrne, fun hc => ?_⟩
            exact hlast' (by rw [List.getLast?_eq_getLast_of_ne_nil hrne, hc])
          have hne : collapseSlAux true rest ≠ [] := collapseSlAux_ne_nil rest true hex
          rw [getLast?_cons_ne _ _ hne]
          exact ih true hlast'
      · simp only [collapseSlAux, ha]
        by_cases hres : collapseSlAux false rest = []
        · rw [hres]
          simp only [List.getLast?_singleton]
          intro hcontra
          exact ha (by injection hcontra)
        · rw [getLast?_cons_ne _ _ hres]
          exact ih false hlast'

theorem map_backslash_id (l : List Char) (h : ∀ c ∈ l, c ≠ '\\') :
    l.map backslashToSlash = l := by
  induction l with
  | nil => rfl
  | cons a rest ih =>
    simp only [List.map_cons]
    rw [ih (fun c hc => h c (List.mem_cons_of_mem _ hc))]
    have ha := h a (List.mem_cons_self _ _)
    simp [backslashToSlash, ha]

theorem dropWhile_slash_id (x : List Char) (h : ∀ a, x.head? = some a → a ≠ '/') :
    x.dropWhile (· = '/') = x := by
  cases x with
  | nil => rfl
  | cons a rest =>
    have ha := h a rfl
    rw [List.dropWhile_cons]
    simp [ha]

theorem head?_dropWhile_slash (x : List Char) :
    ∀ a, (x.dropWhile (· = '/')).head? = some a → a ≠ '/' := by
  induction x with
  | nil => intro a h; exact absurd h (by simp)
  | cons b rest ih =>
    intro a h
    by_cases hb : b = '/'
    · rw [List.dropWhile_cons] at h
      simp only [hb, decide_True, if_true] at h
      exact ih a h
    · rw [List.dropWhile_cons] at h
      simp only [hb, decide_False, Bool.false_eq_true, if_false, List.head?_cons,
        Option.some.injEq] at h
      rw [← h]
      exact hb

theorem stripTrailingSlashes_id (l : List Char) (h : l.getLast? ≠ some '/') :
    stripTrailingSlashes l = l := by
  unfold stripTrailingSlashes
  rw [dropWhile_slash_id]
  · exact List.reverse_reverse l
  · intro a ha hcontra
    subst hcontra
    apply h
    rw [← List.head?_reverse]
    exact ha

theorem collapseSlAux_id (l : List Char) (h : containsSub ['/', '/'] l = false) :
    collapseSlAux false l = l ∧
      (∀ c cs, l = c :: cs → c ≠ '/' → collapseSlAux true l = l) := by
  induction l with
  | nil => exact ⟨rfl, fun c cs hc => by cases hc⟩
  | cons a rest ih =>
    have hrest : containsSub ['/', '/'] rest = false := by
      have hh := h
      simp only [containsSub, Bool.or_eq_false_iff] at hh
      exact hh.2
    constructor
    · by_cases ha : a = '/'
      · subst ha
        simp only [collapseSlAux, Bool.false_eq_true, if_false]
        cases hr : rest with
        | nil => simp [collapseSlAux]
        | cons b bs =>
          have hb : b ≠ '/' := by
            intro hbe
            subst hbe
            subst hr
            simp [containsSub, startsWith] at h
          rw [← hr]
          rw [(ih hrest).2 b bs hr hb]
      · simp only [collapseSlAux, ha]
        rw [(ih hrest).1]
    · intro c cs hc hcne
      have ha : a = c := by injection hc with h1 _
      subst ha
      simp only [collapseSlAux, hcne, Bool.false_eq_true, if_false]
      rw [(ih hrest).1]

/-- The three normal-form properties of normalizePath output. -/
theorem normalizePath_shape (p : List Char) :
    (∀ c ∈ normalizePath p, c ≠ '\\') ∧
    (normalizePath p).getLast? ≠ some '/' ∧
    containsSub ['/', '/'] (normalizePath p) = false := by
  unfold normalizePath
  by_cases hp : p.isEmpty
  · simp [hp, containsSub, startsWith]
  · simp only [hp, Bool.false_eq_true, if_false]
    refine ⟨?_, ?_, ?_⟩
    · intro c hc
      have h1 : c ∈ stripTrailingSlashes (p.map backslashToSlash) :=
        collapseSlAux_subset _ false c hc
      have h2 : c ∈ p.map backslashToSlash := by
        unfold stripTrailingSlashes at h1
        have h1' : c ∈ (p.map backslashToSlash).reverse.dropWhile (fun x => decide (x = '/')) := by
          simpa using h1
        have hsub := (List.dropWhile_sublist (p := fun x => decide (x = '/'))
          (l := (p.map backslashToSlash).reverse)).subset h1'
        simpa using hsub
      rcases List.mem_map.mp h2 with ⟨d, _, hd⟩
      intro hcc
      subst hcc
      unfold backslashToSlash at hd
      split at hd
      · exact absurd hd (by decide)
      · exact absurd hd (by assumption)
    · apply collapseSlAux_getLast
      unfold stripTrailingSlashes
      rw [List.getLast?_reverse]
      intro hc
      exact head?_dropWhile_slash _ '/' hc rfl
    · exact collapseSlAux_noDouble _ false

theorem normalizePath_not_empty (q : List Char) (h : ¬ q.isEmpty = true) :
    normalizePath q = collapseSlashes (stripTrailingSlashes (q.map backslashToSlash)) := by
  unfold normalizePath
  rw [if_neg h]

/-- Claim C10: normalizePath is idempotent and its output contains no
backslash, no trailing slash, and no run of consecutive slashes. -/
theorem normalizePath_idem_shape (p : List Char) :
    normalizePath (normalizePath p) = normalizePath p ∧
    (∀ c ∈ normalizePath p, c ≠ '\\') ∧
    (normalizePath p).getLast? ≠ some '/' ∧
    containsSub ['/', '/'] (normalizePath p) = false := by
  obtain ⟨h1, h2, h3⟩ := normalizePath_shape p
  refine ⟨?_, h1, h2, h3⟩
  by_cases hn : (normalizePath p).isEmpty = true
  · have hnil : normalizePath p = [] := by
      cases hnp : normalizePath p
      · rfl
      · rw [hnp] at hn; simp at hn
    rw [hnil]
    rfl
  · rw [normalizePath_not_empty _ hn]
    rw [map_backslash_id _ h1, stripTrailingSlashes_id _ h2]
    exact (collapseSlAux_id _ h3).1

theorem splitOnChar_ne_nil (sep : Char) (x : List Char) : splitOnChar sep x ≠ [] := by
  cases x with
  | nil => simp [splitOnChar]
  | cons c cs =>
    simp only [splitOnChar]
    by_cases hc : c = sep
    · simp [hc]
    · simp only [hc, Bool.false_eq_true, if_false]
      cases splitOnChar sep cs <;> simp

theorem splitOnChar_headD (x : List Char) :
    (splitOnChar '/' x).headD [] = x.takeWhile (· ≠ '/') := by
  induction x with
  | nil => rfl
  | cons c cs ih =>
    simp only [splitOnChar, List.takeWhile_cons]
    by_cases hc : c = '/'
    · simp [hc]
    · simp only [hc, Bool.false_eq_true, if_false]
      cases hs : splitOnChar '/' cs with
      | nil => exact absurd hs (splitOnChar_ne_nil '/' cs)
      | cons l ls =>
        rw [hs] at ih
        simp only [List.headD_cons] at ih
        simp [hc, ih]

/-- Claim C9: getProjectNameFromPath returns nothing when the project
folder normalizes to the empty path or the normalized path does not
strictly extend the normalized folder followed by a slash; any returned
name is the non-empty first path segment after the folder. -/
theorem getProjectNameFromPath_spec (fullPath projectFolder : List Char) :
    (normalizePath projectFolder = [] →
      getProjectNameFromPath fullPath projectFolder = none) ∧
    (startsWith (normalizePath projectFolder ++ ['/']) (normalizePath fullPath) = false →
      getProjectNameFromPath fullPath projectFolder = none) ∧
    (∀ r, getProjectNameFromPath fullPath projectFolder = some r →
      r ≠ [] ∧
      startsWith (normalizePath projectFolder ++ ['/']) (normalizePath fullPath) = true ∧
      r = ((normalizePath fullPath).drop ((normalizePath projectFolder).length + 1)).takeWhile
            (· ≠ '/')) := by
  refine ⟨?_, ?_, ?_⟩
  · intro h
    simp only [getProjectNameFromPath]
    rw [h]
    simp
  · intro h
    simp only [getProjectNameFromPath]
    simp [h]
  · intro r h
    simp only [getProjectNameFromPath] at h
    split at h
    · exact absurd h (by simp)
    · rename_i hcond
      rw [splitOnChar_headD] at h
      split at h
      · exact absurd h (by simp)
      · rename_i hne
        have hr : ((normalizePath fullPath).drop
            ((normalizePath projectFolder).length + 1)).takeWhile (· ≠ '/') = r := by
          injection h
        refine ⟨?_, ?_, hr.symm⟩
        · intro hrnil
          rw [hrnil] at hr
          rw [hr] at hne
          simp at hne
        · have hcond2 := hcond
          simp only [Bool.or_eq_true, decide_eq_true_eq] at hcond2
          push_neg at hcond2
          exact hcond2.2

/- ### Model-operation lemmas and claims C8, C5 -/

/-- Does the item hold this entry (the entry itself, or inside its
subsection's list)? -/
def itemContainsEntry (e : PriorityEntry) : SectionItem → Bool
  | .entryItem e' => e' = e
  | .subItem s => s.entries.contains e

/-- Does any item of the list hold this entry? -/
def itemsContainEntry (e : PriorityEntry) (items : List SectionItem) : Bool :=
  items.any (itemContainsEntry e)

/-- What remains of the single affected item after the removal: a removed
top-level entry disappears; a subsection loses the first occurrence. -/
def removeOneFromItem (e : PriorityEntry) : SectionItem → List SectionItem
  | .entryItem _ => []
  | .subItem s => [.subItem ⟨s.name, eraseFirstEntry e s.entries⟩]

theorem removeEntryItems_not_found (e : PriorityEntry) (items : List SectionItem)
    (h : itemsContainEntry e items = false) : removeEntryItems e items = items := by
  induction items with
  | nil => rfl
  | cons it rest ih =>
    simp only [itemsContainEntry, List.any_cons, Bool.or_eq_false_iff] at h
    obtain ⟨h1, h2⟩ := h
    cases it with
    | entryItem e' =>
      simp only [itemContainsEntry, decide_eq_false_iff_not] at h1
      simp only [removeEntryItems, h1, Bool.false_eq_true, if_false]
      rw [ih h2]
    | subItem s =>
      simp only [itemContainsEntry] at h1
      simp only [removeEntryItems, h1, Bool.false_eq_true, if_false]
      rw [ih h2]

theorem removeEntryItems_found (e : PriorityEntry) :
    ∀ (pre : List SectionItem) (it : SectionItem) (post : List SectionItem),
      itemsContainEntry e pre = false → itemContainsEntry e it = true →
      removeEntryItems e (pre ++ it :: post) = pre ++ (removeOneFromItem e it ++ post) := by
  intro pre
  induction pre with
  | nil =>
    intro it post _ hit
    cases it with
    | entryItem e' =>
      simp only [itemContainsEntry, decide_eq_true_eq] at hit
      simp [removeEntryItems, hit, removeOneFromItem]
    | subItem s =>
      simp only [itemContainsEntry] at hit
      simp only [List.nil_append, removeEntryItems, hit, if_true, removeOneFromItem]
      rfl
  | cons p pre' ih =>
    intro it post hpre hit
    simp only [itemsContainEntry, List.any_cons, Bool.or_eq_false_iff] at hpre
    obtain ⟨h1, h2⟩ := hpre
    cases p with
    | entryItem e' =>
      simp only [itemContainsEntry, decide_eq_false_iff_not] at h1
      simp only [List.cons_append, removeEntryItems, h1, Bool.false_eq_true, if_false]
      show SectionItem.entryItem e' :: removeEntryItems e (pre' ++ it :: post) = _
      rw [ih it post h2 hit]
    | subItem s =>
      simp only [itemContainsEntry] at h1
      simp only [List.cons_append, removeEntryItems, h1, Bool.false_eq_true, if_false]
      show SectionItem.subItem s :: removeEntryItems e (pre' ++ it :: post) = _
      rw [ih it post h2 hit]

/-- Claim C8: removeEntryFromSection removes at most one occurrence, the
first found scanning the items in order (inside a subsection, the first
occurrence of its entry list), leaves every other item unchanged, and
leaves the section untouched when the entry occurs nowhere in it. -/
theorem removeEntryFromSection_spec (s : PrioritySection) (e : PriorityEntry) :
    (itemsContainEntry e s.orderedItems = false → removeEntryFromSection s e = s) ∧
    (removeEntryFromSection s e).name = s.name ∧
    (∀ pre it post, s.orderedItems = pre ++ it :: post →
      itemsContainEntry e pre = false → itemContainsEntry e it = true →
      (removeEntryFromSection s e).orderedItems =
        pre ++ (removeOneFromItem e it ++ post)) := by
  refine ⟨?_, rfl, ?_⟩
  · intro h
    unfold removeEntryFromSection
    rw [removeEntryItems_not_found e _ h]
  · intro pre it post hsplit hpre hit
    unfold removeEntryFromSection
    simp only
    rw [hsplit]
    exact removeEntryItems_found e pre it post hpre hit

theorem removeEntryFromSection_spec_witness :
    (removeEntryFromSection
        ⟨"Active".data,
          [.entryItem ⟨"B".data, [], none⟩, .entryItem ⟨"A".data, [], none⟩,
           .entryItem ⟨"A".data, [], none⟩]⟩
        ⟨"A".data, [], none⟩).orderedItems =
      [SectionItem.entryItem ⟨"B".data, [], none⟩] ++
        (removeOneFromItem ⟨"A".data, [], none⟩ (.entryItem ⟨"A".data, [], none⟩) ++
          [.entryItem ⟨"A".data, [], none⟩]) :=
  (removeEntryFromSection_spec
      ⟨"Active".data,
        [.entryItem ⟨"B".data, [], none⟩, .entryItem ⟨"A".data, [], none⟩,
         .entryItem ⟨"A".data, [], none⟩]⟩
      ⟨"A".data, [], none⟩).2.2
    [SectionItem.entryItem ⟨"B".data, [], none⟩] (.entryItem ⟨"A".data, [], none⟩)
    [.entryItem ⟨"A".data, [], none⟩] (by decide) (by decide) (by decide)

/-- Does the item hold an entry with this project name? -/
def itemHasEntryName (pn : List Char) : SectionItem → Bool
  | .entryItem e => e.projectName = pn
  | .subItem s => s.entries.any (fun x => x.projectName = pn)

/-- Does the section hold an entry with this project name anywhere? -/
def sectionHasEntryName (pn : List Char) (sec : PrioritySection) : Bool :=
  sec.orderedItems.any (itemHasEntryName pn)

/-- Remove the first entry with the given name from an entry list. -/
def removeFirstNamed (pn : List Char) : List PriorityEntry → List PriorityEntry
  | [] => []
  | e :: es => if e.projectName = pn then es else e :: removeFirstNamed pn es

/-- What remains of the single affected item after a removal by name. -/
def removeNamedOne (pn : List Char) : SectionItem → List SectionItem
  | .entryItem _ => []
  | .subItem s => [.subItem ⟨s.name, removeFirstNamed pn s.entries⟩]

theorem findRemoveByName_some (pn : List Char) (es : List PriorityEntry) :
    ∀ e es', findRemoveByName pn es = some (e, es') →
      e.projectName = pn ∧ es' = removeFirstNamed pn es ∧
        es.any (fun x => x.projectName = pn) = true := by
  induction es with
  | nil => intro e es' h; cases h
  | cons e0 rest ih =>
    intro e es' h
    by_cases h0 : e0.projectName = pn
    · simp only [findRemoveByName, h0, if_true] at h
      obtain ⟨he, hes⟩ := Prod.mk.injEq .. ▸ (Option.some.injEq _ _).mp h
      subst he; subst hes
      refine ⟨h0, ?_, ?_⟩
      · simp [removeFirstNamed, h0]
      · simp [h0]
    · simp only [findRemoveByName, h0, Bool.false_eq_true, if_false] at h
      cases hrec : findRemoveByName pn rest with
      | none => rw [hrec] at h; cases h
      | some p =>
        rw [hrec] at h
        simp only [Option.map_some'] at h
        obtain ⟨he, hes⟩ := Prod.mk.injEq .. ▸ (Option.some.injEq _ _).mp h
        obtain ⟨h1, h2, h3⟩ := ih p.1 p.2 (by rw [hrec])
        subst he
        refine ⟨h1, ?_, ?_⟩
        · rw [← hes, h2]
          simp [removeFirstNamed, h0]
        · simp [h3]

theorem findRemoveByName_none (pn : List Char) (es : List PriorityEntry)
    (h : findRemoveByName pn es = none) :
    es.any (fun x => x.projectName = pn) = false := by
  induction es with
  | nil => simp
  | cons e0 rest ih =>
    by_cases h0 : e0.projectName = pn
    · simp [findRemoveByName, h0] at h
    · simp only [findRemoveByName, h0, Bool.false_eq_true, if_false] at h
      cases hrec : findRemoveByName pn rest with
      | none => simp [h0, ih hrec]
      | some p => rw [hrec] at h; cases h

theorem findRemoveInItems_none (pn : List Char) (items : List SectionItem)
    (h : findRemoveInItems pn items = none) :
    items.any (itemHasEntryName pn) = false := by
  induction items with
  | nil => simp
  | cons it rest ih =>
    cases it with
    | entryItem e0 =>
      by_cases h0 : e0.projectName = pn
      · simp [findRemoveInItems, h0] at h
      · simp only [findRemoveInItems, h0, Bool.false_eq_true, if_false] at h
        cases hrec : findRemoveInItems pn rest with
        | none => simp [itemHasEntryName, h0, ih hrec]
        | some p => rw [hrec] at h; cases h
    | subItem s =>
      cases hb : findRemoveByName pn s.entries with
      | some p => simp [findRemoveInItems, hb] at h
      | none =>
        simp only [findRemoveInItems, hb] at h
        cases hrec : findRemoveInItems pn rest with
        | none =>
          simp [itemHasEntryName, findRemoveByName_none pn s.entries hb, ih hrec]
        | some p => rw [hrec] at h; cases h

theorem findRemoveInItems_some (pn : List Char) :
    ∀ (items : List SectionItem) e items'',
      findRemoveInItems pn items = some (e, items'') →
      e.projectName = pn ∧
      ∃ ipre it ipost, items = ipre ++ it :: ipost ∧
        ipre.any (itemHasEntryName pn) = false ∧ itemHasEntryName pn it = true ∧
        items'' = ipre ++ (removeNamedOne pn it ++ ipost) := by
  intro items
  induction items with
  | nil => intro e items'' h; cases h
  | cons it rest ih =>
    intro e items'' h
    cases it with
    | entryItem e0 =>
      by_cases h0 : e0.projectName = pn
      · simp only [findRemoveInItems, h0, if_true] at h
        obtain ⟨he, hes⟩ := Prod.mk.injEq .. ▸ (Option.some.injEq _ _).mp h
        subst he
        refine ⟨h0, [], .entryItem e0, rest, rfl, by simp, by simp [itemHasEntryName, h0], ?_⟩
        rw [← hes]
        simp [removeNamedOne]
      · simp only [findRemoveInItems, h0, Bool.false_eq_true, if_false] at h
        cases hrec : findRemoveInItems pn rest with
        | none => rw [hrec] at h; cases h
        | some p =>
          rw [hrec] at h
          simp only [Option.map_some'] at h
          obtain ⟨he, hes⟩ := Prod.mk.injEq .. ▸ (Option.some.injEq _ _).mp h
          obtain ⟨hname, ipre, itx, ipost, hsplit, hpre, hit, hrem⟩ :=
            ih p.1 p.2 (by rw [hrec])
          subst he
          refine ⟨hname, .entryItem e0 :: ipre, itx, ipost, by rw [hsplit]; rfl, ?_, hit, ?_⟩
          · simp [itemHasEntryName, h0, hpre]
          · rw [← hes, hrem]
            simp
    | subItem s =>
      cases hb : findRemoveByName pn s.entries with
      | some p =>
        simp only [findRemoveInItems, hb] at h
        obtain ⟨he, hes⟩ := Prod.mk.injEq .. ▸ (Option.some.injEq _ _).mp h
        obtain ⟨h1, h2, h3⟩ := findRemoveByName_some pn s.entries p.1 p.2 (by rw [hb])
        subst he
        refine ⟨h1, [], .subItem s, rest, rfl, by simp, by simp [itemHasEntryName, h3], ?_⟩
        rw [← hes]
        simp [removeNamedOne, h2]
      | none =>
        simp only [findRemoveInItems, hb] at h
        cases hrec : findRemoveInItems pn rest with
        | none => rw [hrec] at h; cases h
        | some p =>
          rw [hrec] at h
          simp only [Option.map_some'] at h
          obtain ⟨he, hes⟩ := Prod.mk.injEq .. ▸ (Option.some.injEq _ _).mp h
          obtain ⟨hname, ipre, itx, ipost, hsplit, hpre, hit, hrem⟩ :=
            ih p.1 p.2 (by rw [hrec])
          subst he
          refine ⟨hname, .subItem s :: ipre, itx, ipost, by rw [hsplit]; rfl, ?_, hit, ?_⟩
          · simp [itemHasEntryName, findRemoveByName_none pn s.entries hb, hpre]
          · rw [← hes, hrem]
            simp

theorem dropWhile_head_false {α : Type} (p : α → Bool) :
    ∀ (l : List α) x xs, l.dropWhile p = x :: xs → p x = false := by
  intro l
  induction l with
  | nil => intro x xs h; cases h
  | cons a as ih =>
    intro x xs h
    rw [List.dropWhile_cons] at h
    by_cases ha : p a = true
    · rw [if_pos ha] at h
      exact ih x xs h
    · rw [if_neg ha] at h
      injection h with h1 _
      rw [← h1]
      exact Bool.not_eq_true _ ▸ ha

theorem pushIntoFirstSubNamed_spec (g : List Char) (e : PriorityEntry) :
    ∀ items : List SectionItem, items.any (isSubNamed g) = true →
      ∃ ipre s ipost, items = ipre ++ .subItem s :: ipost ∧
        ipre.any (isSubNamed g) = false ∧ s.name = g ∧
        pushIntoFirstSubNamed g e items =
          ipre ++ .subItem ⟨s.name, s.entries ++ [e]⟩ :: ipost := by
  intro items
  induction items with
  | nil => intro h; simp at h
  | cons it rest ih =>
    intro h
    cases it with
    | subItem s =>
      by_cases hs : s.name = g
      · exact ⟨[], s, rest, rfl, by simp, hs, by simp [pushIntoFirstSubNamed, hs]⟩
      · have hrest : rest.any (isSubNamed g) = true := by
          simpa [isSubNamed, hs] using h
        obtain ⟨ipre, s', ipost, hsplit, hpre, hname, hpush⟩ := ih hrest
        refine ⟨.subItem s :: ipre, s', ipost, by rw [hsplit]; rfl, ?_, hname, ?_⟩
        · simp [isSubNamed, hs, hpre]
        · simp only [pushIntoFirstSubNamed, hs, Bool.false_eq_true, if_false]
          rw [hpush]
          rfl
    | entryItem e0 =>
      have hrest : rest.any (isSubNamed g) = true := by
        simpa [isSubNamed] using h
      obtain ⟨ipre, s', ipost, hsplit, hpre, hname, hpush⟩ := ih hrest
      refine ⟨.entryItem e0 :: ipre, s', ipost, by rw [hsplit]; rfl, ?_, hname, ?_⟩
      · simp [isSubNamed, hpre]
      · simp only [pushIntoFirstSubNamed]
        rw [hpush]
        rfl

/-- Claim C5, amended: moveProjectToSubsection on a document holding an
entry with the project name removes the first such entry from its
container (within the first section holding one) and re-places it inside
that same section.  The group dispatch is the source's truthiness test:
for a non-null, non-empty target name the entry goes into the first
subsection with that name (appended at its end), or is appended at the
top level when no such subsection exists there; for a null target, and
likewise for an empty target name, it is inserted as a top-level item
immediately before the first subsection (or at the end when the section
has none). -/
theorem moveProjectToSubsection_spec (doc : List PrioritySection) (pn : List Char)
    (tg : Option (List Char)) :
    (doc.any (sectionHasEntryName pn) = true →
      ∃ pre sec post e items',
        doc = pre ++ sec :: post ∧
        pre.any (sectionHasEntryName pn) = false ∧
        findRemoveInItems pn sec.orderedItems = some (e, items') ∧
        moveProjectToSubsection pn tg doc =
          pre ++ ⟨sec.name, placeEntry items' e tg⟩ :: post) ∧
    (∀ items e' items'', findRemoveInItems pn items = some (e', items'') →
      e'.projectName = pn ∧
      ∃ ipre it ipost, items = ipre ++ it :: ipost ∧
        ipre.any (itemHasEntryName pn) = false ∧ itemHasEntryName pn it = true ∧
        items'' = ipre ++ (removeNamedOne pn it ++ ipost)) ∧
    (∀ (items : List SectionItem) e g, g ≠ [] → items.any (isSubNamed g) = false →
      placeEntry items e (some g) = items ++ [.entryItem e]) ∧
    (∀ (items : List SectionItem) e g, g ≠ [] → items.any (isSubNamed g) = true →
      ∃ ipre s ipost, items = ipre ++ .subItem s :: ipost ∧
        ipre.any (isSubNamed g) = false ∧ s.name = g ∧
        placeEntry items e (some g) =
          ipre ++ .subItem ⟨s.name, s.entries ++ [e]⟩ :: ipost) ∧
    (∀ (items : List SectionItem) e tg2, tg2 = none ∨ tg2 = some ([] : List Char) →
      ∃ tpre tpost, items = tpre ++ tpost ∧
      (∀ it ∈ tpre, isSubItem it = false) ∧
      (tpost = [] ∨ ∃ s' tpost', tpost = .subItem s' :: tpost') ∧
      placeEntry items e tg2 = tpre ++ .entryItem e :: tpost) := by
  refine ⟨?_, fun items e' items'' h => findRemoveInItems_some pn items e' items'' h,
    ?_, ?_, ?_⟩
  · induction doc with
    | nil => intro h; simp at h
    | cons sec rest ih =>
      intro h
      cases hf : findRemoveInItems pn sec.orderedItems with
      | some p =>
        refine ⟨[], sec, rest, p.1, p.2, rfl, by simp, by rw [hf], ?_⟩
        simp only [moveProjectToSubsection, hf]
        rfl
      | none =>
        have hsec : sectionHasEntryName pn sec = false :=
          findRemoveInItems_none pn sec.orderedItems hf
        have hrest : rest.any (sectionHasEntryName pn) = true := by
          simpa [hsec] using h
        obtain ⟨pre, sec', post, e, items', hsplit, hpre, hfind, hmove⟩ := ih hrest
        refine ⟨sec :: pre, sec', post, e, items', by rw [hsplit]; rfl, ?_, hfind, ?_⟩
        · simp [hsec, hpre]
        · simp only [moveProjectToSubsection, hf]
          rw [hmove]
          rfl
  · intro items e g hg h
    have hge : g.isEmpty = false := by
      cases g with
      | nil => exact absurd rfl hg
      | cons a as => rfl
    simp [placeEntry, hge, h]
  · intro items e g hg h
    have hge : g.isEmpty = false := by
      cases g with
      | nil => exact absurd rfl hg
      | cons a as => rfl
    have := pushIntoFirstSubNamed_spec g e items h
    simpa [placeEntry, hge, h] using this
  · intro items e tg2 htg
    have hpl : placeEntry items e tg2 =
        items.takeWhile (fun it => ¬ isSubItem it) ++
          .entryItem e :: items.dropWhile (fun it => ¬ isSubItem it) := by
      rcases htg with h | h
      · rw [h]
        rfl
      · rw [h]
        rfl
    refine ⟨items.takeWhile (fun it => ¬ isSubItem it),
      items.dropWhile (fun it => ¬ isSubItem it),
      (List.takeWhile_append_dropWhile _ _).symm, ?_, ?_, hpl⟩
    · intro it hit
      have := List.mem_takeWhile_imp hit
      simpa using this
    · cases hd : items.dropWhile (fun it => ¬ isSubItem it) with
      | nil => exact Or.inl rfl
      | cons x xs =>
        right
        have hx := dropWhile_head_false _ items x xs hd
        cases x with
        | subItem s' => exact ⟨s', xs, rfl⟩
        | entryItem e0 => simp [isSubItem] at hx

/-- Claim C5, counterexample to the claim as stated: at the empty (but
non-null) target group name the source's `if (targetGroup)` is falsy, so
the entry is inserted before the first subsection; the claim's non-null
branch instead demands the top-level fallback append at the end of the
section, which is a different item order. -/
theorem moveProjectToSubsection_spec_counterexample :
    moveProjectToSubsection "A".data (some [])
        [⟨"S".data, [.entryItem ⟨"A".data, [], none⟩, .subItem ⟨"G".data, []⟩]⟩] ≠
      [⟨"S".data, [.subItem ⟨"G".data, []⟩, .entryItem ⟨"A".data, [], none⟩]⟩] := by
  decide

theorem moveProjectToSubsection_spec_witness :
    ∃ pre sec post e items',
      [(⟨"Active".data, [.entryItem ⟨"Alpha".data, [], none⟩]⟩ : PrioritySection)] =
        pre ++ sec :: post ∧
      pre.any (sectionHasEntryName "Alpha".data) = false ∧
      findRemoveInItems "Alpha".data sec.orderedItems = some (e, items') ∧
      moveProjectToSubsection "Alpha".data (some "Foundation".data)
          [⟨"Active".data, [.entryItem ⟨"Alpha".data, [], none⟩]⟩] =
        pre ++ ⟨sec.name, placeEntry items' e (some "Foundation".data)⟩ :: post :=
  (moveProjectToSubsection_spec
      [⟨"Active".data, [.entryItem ⟨"Alpha".data, [], none⟩]⟩]
      "Alpha".data (some "Foundation".data)).1 (by decide)

theorem getProjectNameFromPath_spec_witness :
    "Alpha".data ≠ [] ∧
    startsWith (normalizePath "10 - Project".data ++ ['/'])
      (normalizePath "10 - Project/Alpha/note.md".data) = true ∧
    "Alpha".data = ((normalizePath "10 - Project/Alpha/note.md".data).drop
      ((normalizePath "10 - Project".data).length + 1)).takeWhile (· ≠ '/') :=
  (getProjectNameFromPath_spec "10 - Project/Alpha/note.md".data "10 - Project".data).2.2
    "Alpha".data (by decide)

/- ### Line-splitting foundations -/

theorem splitLines_ne_nil (x : List Char) : splitLines x ≠ [] :=
  splitOnChar_ne_nil '\n' x

theorem splitLines_no_newline (x : List Char) :
    ∀ l ∈ splitLines x, '\n' ∉ l := by
  induction x with
  | nil =>
    intro l hl
    simp only [splitLines, splitOnChar, List.mem_singleton] at hl
    simp [hl]
  | cons c cs ih =>
    intro l hl
    by_cases hc : c = '\n'
    · simp only [splitLines, splitOnChar, hc, if_true] at hl
      rcases List.mem_cons.mp hl with h1 | h2
      · simp [h1]
      · exact ih l h2
    · simp only [splitLines, splitOnChar, hc, Bool.false_eq_true, if_false] at hl
      cases hs : splitOnChar '\n' cs with
      | nil => exact absurd hs (splitOnChar_ne_nil '\n' cs)
      | cons hd tl =>
        rw [hs] at hl
        rcases List.mem_cons.mp hl with h1 | h2
        · subst h1
          intro hmem
          rcases List.mem_cons.mp hmem with h3 | h4
          · exact hc h3.symm
          · have hhd : hd ∈ splitOnChar '\n' cs := by
              rw [hs]; exact List.mem_cons_self _ _
            exact ih hd hhd h4
        · have hltl : l ∈ splitOnChar '\n' cs := by
            rw [hs]; exact List.mem_cons_of_mem _ h2
          exact ih l hltl
  
theorem joinLines_cons_cons (c : Char) (h : List Char) (t : List (List Char)) :
    joinLines ((c :: h) :: t) = c :: joinLines (h :: t) := by
  cases t <;> rfl

theorem joinLines_nil_cons (h : List Char) (t : List (List Char)) :
    joinLines ([] :: h :: t) = '\n' :: joinLines (h :: t) := rfl

theorem joinLines_splitLines (x : List Char) : joinLines (splitLines x) = x := by
  induction x with
  | nil => rfl
  | cons c cs ih =>
    by_cases hc : c = '\n'
    · subst hc
      simp only [splitLines, splitOnChar, if_true]
      cases hs : splitOnChar '\n' cs with
      | nil => exact absurd hs (splitOnChar_ne_nil '\n' cs)
      | cons hd tl =>
        rw [← hs]
        show joinLines ([] :: splitOnChar '\n' cs) = '\n' :: cs
        rw [hs, joinLines_nil_cons, ← hs]
        show '\n' :: joinLines (splitLines cs) = '\n' :: cs
        rw [ih]
    · simp only [splitLines, splitOnChar, hc, Bool.false_eq_true, if_false]
      cases hs : splitOnChar '\n' cs with
      | nil => exact absurd hs (splitOnChar_ne_nil '\n' cs)
      | cons hd tl =>
        rw [joinLines_cons_cons, ← hs]
        show c :: joinLines (splitLines cs) = c :: cs
        rw [ih]

theorem splitLines_single (l : List Char) (h : '\n' ∉ l) : splitLines l = [l] := by
  induction l with
  | nil => rfl
  | cons c cs ih =>
    have hc : c ≠ '\n' := fun hcc => h (hcc ▸ List.mem_cons_self _ _)
    have hih : splitOnChar '\n' cs = [cs] := ih (fun hm => h (List.mem_cons_of_mem _ hm))
    simp only [splitLines, splitOnChar, hc, Bool.false_eq_true, if_false, hih]

theorem splitLines_append_newline (a b : List Char) (h : '\n' ∉ a) :
    splitLines (a ++ '\n' :: b) = a :: splitLines b := by
  induction a with
  | nil => simp [splitLines, splitOnChar]
  | cons c cs ih =>
    have hc : c ≠ '\n' := fun hcc => h (hcc ▸ List.mem_cons_self _ _)
    have hih : splitOnChar '\n' (cs.append ('\n' :: b)) = cs :: splitOnChar '\n' b :=
      ih (fun hm => h (List.mem_cons_of_mem _ hm))
    simp only [List.cons_append, splitLines, splitOnChar, hc, Bool.false_eq_true, if_false, hih]

theorem splitLines_joinLines (ls : List (List Char)) (hnl : ∀ l ∈ ls, '\n' ∉ l)
    (hne : ls ≠ []) : splitLines (joinLines ls) = ls := by
  induction ls with
  | nil => exact absurd rfl hne
  | cons l rest ih =>
    cases rest with
    | nil =>
      show splitLines (joinLines [l]) = [l]
      exact splitLines_single l (hnl l (List.mem_cons_self _ _))
    | cons l2 rest2 =>
      show splitLines (l ++ '\n' :: joinLines (l2 :: rest2)) = l :: l2 :: rest2
      rw [splitLines_append_newline _ _ (hnl l (List.mem_cons_self _ _))]
      rw [ih (fun x hx => hnl x (List.mem_cons_of_mem _ hx)) (by simp)]

theorem splitLines_join_append (ls : List (List Char)) (b : List Char)
    (hnl : ∀ l ∈ ls, '\n' ∉ l) (hne : ls ≠ []) :
    splitLines (joinLines ls ++ '\n' :: b) = ls ++ splitLines b := by
  induction ls with
  | nil => exact absurd rfl hne
  | cons l rest ih =>
    cases rest with
    | nil =>
      show splitLines (l ++ '\n' :: b) = l :: splitLines b
      exact splitLines_append_newline _ _ (hnl l (List.mem_cons_self _ _))
    | cons l2 rest2 =>
      have : joinLines (l :: l2 :: rest2) ++ '\n' :: b =
          l ++ '\n' :: (joinLines (l2 :: rest2) ++ '\n' :: b) := by
        show (l ++ '\n' :: joinLines (l2 :: rest2)) ++ '\n' :: b = _
        simp
      rw [this]
      rw [splitLines_append_newline _ _ (hnl l (List.mem_cons_self _ _))]
      rw [ih (fun x hx => hnl x (List.mem_cons_of_mem _ hx)) (by simp)]
      rfl

/- ### Parser scan lemmas and claim C7 -/

theorem parseLines_eq_takeWhile (fe : EmojiLookup) :
    ∀ (ls : List (List Char)) (st : ParseState),
      parseLines fe ls st =
        parseNoStop fe (ls.takeWhile (fun l => ¬ isStopLine l)) st := by
  intro ls
  induction ls with
  | nil => intro st; rfl
  | cons l rest ih =>
    intro st
    by_cases hl : isStopLine l = true
    · simp [parseLines, parseNoStop, hl, List.takeWhile_cons]
    · simp only [Bool.not_eq_true] at hl
      simp [parseLines, parseNoStop, hl, List.takeWhile_cons]
      simpa using ih (parseStepCore fe st l)

/-- A fixed empty attribute lookup used for concrete evaluations. -/
def emptyLookup : EmojiLookup := fun _ => none

/-- Claim C7, amended: the parsed document is exactly what the scan
derives from the lines strictly before the first line whose trimmed
content is three dashes; nothing at or after that line contributes. -/
theorem parser_stops_at_delimiter (fe : EmojiLookup) (text : List Char) :
    parseSections fe text =
      finalizeParse (parseNoStop fe
        ((splitLines text).takeWhile (fun l => ¬ isStopLine l)) initState) := by
  unfold parseSections
  rw [parseLines_eq_takeWhile]

/-- Claim C7, counterexample to the claim as stated: on the text whose
first line is a space followed by three dashes, no line is exactly three
dashes, so the claim as stated demands that the section on the second
line be parsed; the parser instead stops at the first line (its trim is
the delimiter) and yields no sections. -/
theorem parser_stops_at_delimiter_counterexample :
    parseSections emptyLookup " ---\n## S".data ≠
      finalizeParse (parseNoStop emptyLookup
        ((splitLines " ---\n## S".data).takeWhile (fun l => l ≠ ['-', '-', '-']))
        initState) := by
  decide

/- ### Trailing-region lemmas and claim C2 -/

theorem startsWith_append (p : List Char) :
    ∀ a b, startsWith p a = true → startsWith p (a ++ b) = true := by
  induction p with
  | nil => intro a b _; rfl
  | cons x xs ih =>
    intro a b h
    cases a with
    | nil => cases h
    | cons c cs =>
      simp only [startsWith, Bool.and_eq_true] at h
      simp only [List.cons_append, startsWith, Bool.and_eq_true]
      exact ⟨h.1, ih cs b h.2⟩

/-- The trailing region as claim C2 words it: everything from the first
line that is exactly the three-dash delimiter onward. -/
def claimTrailingRegion (content : List Char) : List Char :=
  joinLines ((splitLines content).dropWhile (fun l => l ≠ ['-', '-', '-']))

/-- Claim C2, amended: the region the serializer preserves byte-identically
is the substring of the input starting at its first occurrence of a newline
followed by three dashes; the output of writePrioritiesFile always ends
with exactly that region. -/
theorem writePrioritiesFile_trailing (data : DashboardData) (content : List Char) :
    (∃ pre, content = pre ++ suffixFrom content ∧
      containsSub ['\n', '-', '-', '-'] pre = false) ∧
    (suffixFrom content = [] ∨ ∃ r, suffixFrom content = '\n' :: '-' :: '-' :: '-' :: r) ∧
    (∃ pre, writePrioritiesFile data content = pre ++ suffixFrom content) := by
  refine ⟨?_, ?_, joinLines (writeLines data.sections), rfl⟩
  · induction content with
    | nil => exact ⟨[], rfl, rfl⟩
    | cons c cs ih =>
      by_cases hm : startsWith ['\n', '-', '-', '-'] (c :: cs) = true
      · obtain ⟨r, hr⟩ : ∃ r, c :: cs = '\n' :: '-' :: '-' :: '-' :: r := by
          cases cs with
          | nil => simp [startsWith] at hm
          | cons c1 cs1 =>
            cases cs1 with
            | nil => simp [startsWith] at hm
            | cons c2 cs2 =>
              cases cs2 with
              | nil => simp [startsWith] at hm
              | cons c3 cs3 =>
                simp only [startsWith, Bool.and_eq_true, decide_eq_true_eq] at hm
                obtain ⟨h0, h1, h2, h3, _⟩ := hm
                exact ⟨cs3, by rw [← h0, ← h1, ← h2, ← h3]⟩
        rw [hr]
        refine ⟨[], ?_, rfl⟩
        rw [show suffixFrom ('\n' :: '-' :: '-' :: '-' :: r) =
          '\n' :: '-' :: '-' :: '-' :: r from rfl]
        rfl
      · have hstep : suffixFrom (c :: cs) = suffixFrom cs := by
          cases c1 : c :: cs with
          | nil => cases c1
          | cons a as =>
            rw [← c1]
            by_cases hc : c = '\n'
            · subst hc
              cases cs with
              | nil => rfl
              | cons d ds =>
                by_cases hd : d = '-'
                · subst hd
                  cases ds with
                  | nil => rfl
                  | cons e es =>
                    by_cases he : e = '-'
                    · subst he
                      cases es with
                      | nil => rfl
                      | cons f fs =>
                        by_cases hf : f = '-'
                        · subst hf
                          exact absurd (by simp [startsWith]) hm
                        · simp [suffixFrom, hf]
                    · simp [suffixFrom, he]
                · simp [suffixFrom, hd]
            · simp [suffixFrom, hc]
        rw [hstep]
        obtain ⟨pre, hpre, hcont⟩ := ih
        refine ⟨c :: pre, by rw [List.cons_append, ← hpre], ?_⟩
        simp only [containsSub, Bool.or_eq_false_iff]
        refine ⟨?_, hcont⟩
        by_cases hs : startsWith ['\n', '-', '-', '-'] (c :: pre) = true
        · have := startsWith_append _ (c :: pre) (suffixFrom cs) hs
          rw [show (c :: pre) ++ suffixFrom cs = c :: (pre ++ suffixFrom cs) from rfl] at this
          rw [← hpre] at this
          exact absurd this hm
        · simpa using hs
  · cases content with
    | nil => exact Or.inl rfl
    | cons c cs =>
      clear data
      induction (c :: cs) with
      | nil => exact Or.inl rfl
      | cons a as ih =>
        by_cases hm : startsWith ['\n', '-', '-', '-'] (a :: as) = true
        · right
          cases as with
          | nil => simp [startsWith] at hm
          | cons c1 cs1 =>
            cases cs1 with
            | nil => simp [startsWith] at hm
            | cons c2 cs2 =>
              cases cs2 with
              | nil => simp [startsWith] at hm
              | cons c3 cs3 =>
                simp only [startsWith, Bool.and_eq_true, decide_eq_true_eq] at hm
                obtain ⟨h0, h1, h2, h3, _⟩ := hm
                subst h0; subst h1; subst h2; subst h3
                exact ⟨cs3, rfl⟩
        · have hstep : suffixFrom (a :: as) = suffixFrom as := by
            by_cases hc : a = '\n'
            · subst hc
              cases as with
              | nil => rfl
              | cons d ds =>
                by_cases hd : d = '-'
                · subst hd
                  cases ds with
                  | nil => rfl
                  | cons e es =>
                    by_cases he : e = '-'
                    · subst he
                      cases es with
                      | nil => rfl
                      | cons f fs =>
                        by_cases hf : f = '-'
                        · subst hf
                          exact absurd (by simp [startsWith]) hm
                        · simp [suffixFrom, hf]
                    · simp [suffixFrom, he]
                · simp [suffixFrom, hd]
            · simp [suffixFrom, hc]
          rw [hstep]
          exact ih

/-- Claim C2, counterexample to the claim as stated: removeFromPriorities
is a write path that deletes a line inside the trailing region (the text
from the first three-dash delimiter line onward is not byte-identical
afterwards). -/
theorem trailing_region_altered_counterexample :
    claimTrailingRegion (removeFromPriorities "A".data "## S\n---\nx [[A]] y".data) ≠
      claimTrailingRegion "## S\n---\nx [[A]] y".data := by
  decide

/- ### Trim lemmas -/

theorem dropTrailingWs_decomp (y : List Char) :
    ∃ w, y = dropTrailingWs y ++ w ∧ w.all isWsChar = true := by
  induction y with
  | nil => exact ⟨[], rfl, rfl⟩
  | cons c cs ih =>
    obtain ⟨w, hw, hws⟩ := ih
    by_cases hg : (dropTrailingWs cs).isEmpty = true ∧ isWsChar c = true
    · refine ⟨c :: w, ?_, ?_⟩
      · have hnil : dropTrailingWs cs = [] := by
          cases h : dropTrailingWs cs
          · rfl
          · rw [h] at hg; simp at hg
        have : dropTrailingWs (c :: cs) = [] := by
          simp only [dropTrailingWs, hg.1, hg.2]
          rfl
        rw [this]
        rw [hnil] at hw
        simpa using hw
      · simp [hg.2, hws]
    · refine ⟨w, ?_, hws⟩
      have : dropTrailingWs (c :: cs) = c :: dropTrailingWs cs := by
        simp only [dropTrailingWs]
        rw [if_neg]
        intro hcontra
        simp only [Bool.and_eq_true] at hcontra
        exact hg hcontra
      rw [this, List.cons_append, ← hw]

theorem dropTrailingWs_last (y : List Char) :
    ∀ c, (dropTrailingWs y).getLast? = some c → isWsChar c = false := by
  induction y with
  | nil => intro c h; cases h
  | cons a as ih =>
    intro c h
    by_cases hg : (dropTrailingWs as).isEmpty = true ∧ isWsChar a = true
    · rw [show dropTrailingWs (a :: as) = [] by
        simp only [dropTrailingWs, hg.1, hg.2]; rfl] at h
      cases h
    · rw [show dropTrailingWs (a :: as) = a :: dropTrailingWs as by
        simp only [dropTrailingWs]
        rw [if_neg]
        intro hcontra
        simp only [Bool.and_eq_true] at hcontra
        exact hg hcontra] at h
      cases hd : dropTrailingWs as with
      | nil =>
        have hac : a = c := by rw [hd] at h; simpa using h
        rw [← hac]
        have hemp : (dropTrailingWs as).isEmpty = true := by rw [hd]; rfl
        by_cases hwa : isWsChar a = true
        · exact absurd ⟨hemp, hwa⟩ hg
        · simpa using hwa
      | cons d ds =>
        rw [hd] at h
        rw [getLast?_cons_ne a (d :: ds) (by simp)] at h
        rw [← hd] at h
        exact ih c h

theorem dropTrailingWs_id (y : List Char)
    (h : ∀ c, y.getLast? = some c → isWsChar c = false) : dropTrailingWs y = y := by
  induction y with
  | nil => rfl
  | cons a as ih =>
    by_cases has : as = []
    · subst has
      have ha := h a rfl
      simp [dropTrailingWs, ha]
    · have hlast : ∀ c, as.getLast? = some c → isWsChar c = false := by
        intro c hc
        apply h
        rw [getLast?_cons_ne a as has]
        exact hc
      have hih := ih hlast
      show (if ((dropTrailingWs as).isEmpty && isWsChar a) = true then []
        else a :: dropTrailingWs as) = a :: as
      rw [hih]
      have hne : as.isEmpty = false := by
        cases as
        · exact absurd rfl has
        · rfl
      simp [hne]

theorem dropWhile_ws_id (y : List Char)
    (h : ∀ c, y.head? = some c → isWsChar c = false) : y.dropWhile isWsChar = y := by
  cases y with
  | nil => rfl
  | cons a as =>
    have ha := h a rfl
    rw [List.dropWhile_cons, ha]
    simp

theorem trimChars_head (y : List Char) :
    ∀ c r, trimChars y = c :: r → isWsChar c = false := by
  intro c r h
  unfold trimChars at h
  obtain ⟨w, hw, _⟩ := dropTrailingWs_decomp (y.dropWhile isWsChar)
  have hhead : (y.dropWhile isWsChar).head? = some c := by
    rw [hw, h]
    rfl
  cases hd : y.dropWhile isWsChar with
  | nil => rw [hd] at hhead; cases hhead
  | cons x xs =>
    rw [hd] at hhead
    have hx := dropWhile_head_false isWsChar y x xs hd
    injection hhead with hxc
    rw [← hxc]
    exact hx

theorem trimChars_idem (y : List Char) : trimChars (trimChars y) = trimChars y := by
  cases ht : trimChars y with
  | nil => rfl
  | cons c r =>
    unfold trimChars
    rw [← ht]
    rw [dropWhile_ws_id (trimChars y) (by
      intro c' hc'
      rw [ht] at hc'
      injection hc' with h1
      rw [← h1]
      exact trimChars_head y c r ht)]
    apply dropTrailingWs_id
    intro c' hc'
    unfold trimChars at hc'
    exact dropTrailingWs_last _ c' hc'

theorem dropTrailingWs_append_ws (y w : List Char) (hw : w.all isWsChar = true) :
    dropTrailingWs (y ++ w) = dropTrailingWs y := by
  induction y with
  | nil =>
    simp only [List.nil_append]
    induction w with
    | nil => rfl
    | cons a as ih =>
      simp only [List.all_cons, Bool.and_eq_true] at hw
      simp [dropTrailingWs, ih hw.2, hw.1]
  | cons a as ih =>
    have ih2 : dropTrailingWs (as.append w) = dropTrailingWs as := ih
    simp only [List.cons_append, dropTrailingWs, ih2]

/- ### Substring lemmas -/

theorem containsSub_cons (pat : List Char) (c : Char) (cs : List Char) :
    containsSub pat (c :: cs) = (startsWith pat (c :: cs) || containsSub pat cs) := rfl

theorem containsSub_nil_pat (b : List Char) : containsSub [] b = true := by
  cases b with
  | nil => rfl
  | cons c cs => simp [containsSub, startsWith]

theorem containsSub_append_right (pat a b : List Char) (h : containsSub pat b = true) :
    containsSub pat (a ++ b) = true := by
  induction a with
  | nil => exact h
  | cons c cs ih =>
    rw [List.cons_append, containsSub_cons]
    rw [ih]
    simp

theorem containsSub_append_left (pat a b : List Char) (h : containsSub pat a = true) :
    containsSub pat (a ++ b) = true := by
  induction a with
  | nil =>
    cases pat with
    | nil => exact containsSub_nil_pat b
    | cons p ps => simp [containsSub, startsWith] at h
  | cons c cs ih =>
    rw [containsSub_cons] at h
    rcases Bool.or_eq_true_iff.mp h with h1 | h2
    · have h1' := startsWith_append pat (c :: cs) b h1
      rw [List.cons_append] at h1'
      rw [List.cons_append, containsSub_cons, h1']
      simp
    · rw [List.cons_append, containsSub_cons, ih h2]
      simp

theorem mem_of_containsSub_char (c : Char) (l : List Char)
    (h : containsSub [c] l = true) : c ∈ l := by
  induction l with
  | nil => simp [containsSub, startsWith] at h
  | cons a as ih =>
    rw [containsSub_cons] at h
    rcases Bool.or_eq_true_iff.mp h with h1 | h2
    · simp only [startsWith, Bool.and_eq_true, decide_eq_true_eq] at h1
      rw [h1.1]
      exact List.mem_cons_self _ _
    · exact List.mem_cons_of_mem _ (ih h2)

theorem hasLL_prefix_false (x w : List Char) (h : hasLL (x ++ w) = false) :
    hasLL x = false := by
  by_cases ht : hasLL x = true
  · exfalso
    have hc := containsSub_append_left ['[', '['] x w
      (show containsSub ['[', '['] x = true from ht)
    rw [hasLL] at h
    rw [hc] at h
    cases h
  · simpa using ht

theorem hasLL_suffix_false (x w : List Char) (h : hasLL (w ++ x) = false) :
    hasLL x = false := by
  by_cases ht : hasLL x = true
  · exfalso
    have hc := containsSub_append_right ['[', '['] w x
      (show containsSub ['[', '['] x = true from ht)
    rw [hasLL] at h
    rw [hc] at h
    cases h
  · simpa using ht

theorem beforeLL_cons_ne (c : Char) (cs : List Char)
    (hne : ¬ (c = '[' ∧ ∃ t, cs = '[' :: t)) : beforeLL (c :: cs) = c :: beforeLL cs := by
  by_cases hc : c = '['
  · subst hc
    cases cs with
    | nil => rfl
    | cons d ds =>
      have hd : d ≠ '[' := fun hdd => hne ⟨rfl, ds, by rw [hdd]⟩
      simp [beforeLL, hd]
  · simp [beforeLL, hc]

theorem beforeLL_head (cs : List Char) (x : Char) (xs : List Char)
    (h : beforeLL cs = x :: xs) : ∃ cs', cs = x :: cs' := by
  cases cs with
  | nil => cases h
  | cons a as =>
    by_cases hll : a = '[' ∧ ∃ t, as = '[' :: t
    · obtain ⟨ha, t, ht⟩ := hll
      subst ha; subst ht
      cases h
    · rw [beforeLL_cons_ne a as hll] at h
      injection h with h1 _
      exact ⟨as, by rw [h1]⟩

theorem hasLL_beforeLL (l : List Char) : hasLL (beforeLL l) = false := by
  induction l with
  | nil => rfl
  | cons c cs ih =>
    by_cases hll : c = '[' ∧ ∃ t, cs = '[' :: t
    · obtain ⟨hc, t, ht⟩ := hll
      subst hc; subst ht
      rfl
    · rw [beforeLL_cons_ne c cs hll]
      rw [hasLL, containsSub_cons]
      rw [show containsSub ['[', '['] (beforeLL cs) = hasLL (beforeLL cs) from rfl, ih]
      simp only [Bool.or_false]
      cases hb : beforeLL cs with
      | nil => simp [startsWith]
      | cons x xs =>
        by_cases hc : c = '['
        · subst hc
          have hcs : ∀ t, cs ≠ '[' :: t := fun t ht => hll ⟨rfl, t, ht⟩
          obtain ⟨cs', hcs'⟩ := beforeLL_head cs x xs hb
          have hx : x ≠ '[' := fun hxx => hcs cs' (by rw [← hxx, ← hcs'])
          simp [startsWith, Ne.symm hx]
        · simp [startsWith, Ne.symm hc]

theorem matchLinkAt_not_ll (l : List Char) (h : ∀ t, l ≠ '[' :: '[' :: t) :
    matchLinkAt l = none := by
  cases l with
  | nil => rfl
  | cons c cs =>
    cases cs with
    | nil =>
      by_cases hc : c = '['
      · subst hc; rfl
      · simp [matchLinkAt, hc]
    | cons d ds =>
      by_cases hc : c = '['
      · subst hc
        have hd : d ≠ '[' := fun hdd => h ds (by rw [hdd])
        simp [matchLinkAt, hd]
      · simp [matchLinkAt, hc]

theorem findLink_cons_none (c : Char) (cs : List Char)
    (h : matchLinkAt (c :: cs) = none) : findLink (c :: cs) = findLink cs := by
  simp [findLink, h]

theorem findLink_cons_some (c : Char) (cs : List Char) (r : List Char × Option (List Char))
    (h : matchLinkAt (c :: cs) = some r) : findLink (c :: cs) = some r := by
  simp [findLink, h]

theorem findLink_skip (L P : List Char) (hP : hasLL P = false)
    (hlast : ∀ x, P.getLast? = some x → x ≠ '[') :
    findLink (P ++ L) = findLink L := by
  induction P with
  | nil => rfl
  | cons p P' ih =>
    have hm : matchLinkAt (p :: (P' ++ L)) = none := by
      apply matchLinkAt_not_ll
      intro t ht
      injection ht with h1 h2
      subst h1
      cases P' with
      | nil => exact hlast '[' rfl rfl
      | cons q Q =>
        rw [List.cons_append] at h2
        injection h2 with h3 _
        rw [hasLL, containsSub_cons] at hP
        simp only [Bool.or_eq_false_iff] at hP
        have : startsWith ['[', '['] ('[' :: q :: Q) = true := by
          rw [h3]
          simp [startsWith]
        rw [this] at hP
        cases hP.1
    rw [List.cons_append, findLink_cons_none _ _ hm]
    cases P' with
    | nil => rfl
    | cons q Q =>
      apply ih
      · rw [hasLL, containsSub_cons] at hP
        simp only [Bool.or_eq_false_iff] at hP
        exact hP.2
      · intro x hx
        apply hlast
        rw [getLast?_cons_ne p (q :: Q) (by simp)]
        exact hx

theorem beforeLL_append_ll (X P : List Char) (hP : hasLL P = false)
    (hlast : ∀ x, P.getLast? = some x → x ≠ '[') :
    beforeLL (P ++ '[' :: '[' :: X) = P := by
  induction P with
  | nil => rfl
  | cons p P' ih =>
    have hne : ¬ (p = '[' ∧ ∃ t, (P' ++ '[' :: '[' :: X) = '[' :: t) := by
      rintro ⟨hp, t, ht⟩
      subst hp
      cases P' with
      | nil => exact hlast '[' rfl rfl
      | cons q Q =>
        rw [List.cons_append] at ht
        injection ht with h3 _
        rw [hasLL, containsSub_cons] at hP
        simp only [Bool.or_eq_false_iff] at hP
        have : startsWith ['[', '['] ('[' :: q :: Q) = true := by
          rw [h3]
          simp [startsWith]
        rw [this] at hP
        cases hP.1
    rw [List.cons_append, beforeLL_cons_ne _ _ hne]
    cases P' with
    | nil => rfl
    | cons q Q =>
      rw [ih]
      · rw [hasLL, containsSub_cons] at hP
        simp only [Bool.or_eq_false_iff] at hP
        exact hP.2
      · intro x hx
        apply hlast
        rw [getLast?_cons_ne p (q :: Q) (by simp)]
        exact hx

/- ### Link-pattern match on canonical lines -/

theorem takeWhile_append_stop (p : Char → Bool) (l : List Char) (hl : l.all p = true)
    (x : Char) (hx : p x = false) (rest : List Char) :
    (l ++ x :: rest).takeWhile p = l ∧ (l ++ x :: rest).dropWhile p = x :: rest := by
  induction l with
  | nil =>
    constructor
    · rw [List.nil_append, List.takeWhile_cons, hx]
      simp
    · rw [List.nil_append, List.dropWhile_cons, hx]
      simp
  | cons c cs ih =>
    simp only [List.all_cons, Bool.and_eq_true] at hl
    obtain ⟨ihtake, ihdrop⟩ := ih hl.2
    constructor
    · rw [List.cons_append, List.takeWhile_cons, hl.1]
      simp only [if_true]
      rw [ihtake]
    · rw [List.cons_append, List.dropWhile_cons, hl.1]
      simp only [if_true]
      rw [ihdrop]

theorem matchLinkAt_plain (pn rest : List Char) (h1 : pn ≠ [])
    (h2 : pn.all linkNameChar = true) :
    matchLinkAt ('[' :: '[' :: (pn ++ ']' :: ']' :: rest)) = some (pn, none) := by
  obtain ⟨htake, hdrop⟩ :=
    takeWhile_append_stop linkNameChar pn h2 ']' (by decide) (']' :: rest)
  unfold matchLinkAt
  simp only [htake, hdrop]
  rw [if_neg (by simpa using h1)]

theorem matchLinkAt_alias (pn a rest : List Char) (h1 : pn ≠ [])
    (h2 : pn.all linkNameChar = true) (h3 : a ≠ []) (h4 : a.all linkAliasChar = true) :
    matchLinkAt ('[' :: '[' :: (pn ++ '|' :: (a ++ ']' :: ']' :: rest))) =
      some (pn, some a) := by
  obtain ⟨htake, hdrop⟩ :=
    takeWhile_append_stop linkNameChar pn h2 '|' (by decide) (a ++ ']' :: ']' :: rest)
  obtain ⟨htake2, hdrop2⟩ :=
    takeWhile_append_stop linkAliasChar a h4 ']' (by decide) (']' :: rest)
  unfold matchLinkAt
  simp only [htake, hdrop]
  rw [if_neg (by simpa using h1)]
  simp only [htake2, hdrop2]
  rw [if_neg (by simpa using h3)]

/- ### Well-formedness of parsed documents -/

/-- Well-formed header name: non-empty, all characters plain (no line
terminators), exactly what the header matchers produce. -/
def WFname (n : List Char) : Prop := n ≠ [] ∧ n.all dotOk = true

/-- Well-formed entry: the shape every entry produced by the parser has
(under a tame lookup), and exactly what makes its canonical line re-parse
to itself. -/
def WFentry (fe : EmojiLookup) (e : PriorityEntry) : Prop :=
  e.projectName ≠ [] ∧ e.projectName.all linkNameChar = true ∧ '\n' ∉ e.projectName ∧
  (∀ a, e.displayAlias = some a → a ≠ [] ∧ a.all linkAliasChar = true ∧ '\n' ∉ a) ∧
  '\n' ∉ e.emoji ∧ hasLL e.emoji = false ∧
  ((∃ v, fe e.projectName = some v ∧ v ≠ [] ∧ e.emoji = v) ∨
   ((fe e.projectName = none ∨ fe e.projectName = some []) ∧ trimChars e.emoji = e.emoji))

/-- A lookup is tame when every emoji it supplies contains no newline and
no adjacent pair of opening brackets. -/
def TameLookup (fe : EmojiLookup) : Prop :=
  ∀ pn v, fe pn = some v → '\n' ∉ v ∧ hasLL v = false

theorem getLast?_append_singleton (y : List Char) (c : Char) :
    (y ++ [c]).getLast? = some c := by
  induction y with
  | nil => rfl
  | cons a as ih =>
    rw [List.cons_append, getLast?_cons_ne a (as ++ [c]) (by simp)]
    exact ih

theorem startsWith_ll_false_head (x : Char) (r : List Char) (hx : x ≠ '[') :
    startsWith ['[', '['] (x :: r) = false := by
  cases r with
  | nil => simp [startsWith]
  | cons y ys =>
    simp only [startsWith]
    have hfx : ('[' = x) = False := by
      simp only [eq_iff_iff, iff_false]
      exact fun h => hx h.symm
    simp [hfx]

theorem startsWith_ll_false_snd (x y : Char) (r : List Char) (hy : y ≠ '[') :
    startsWith ['[', '['] (x :: y :: r) = false := by
  simp only [startsWith]
  have hfy : ('[' = y) = False := by
    simp only [eq_iff_iff, iff_false]
    exact fun h => hy h.symm
  simp [hfy]

theorem hasLL_append_false (a b : List Char) (ha : hasLL a = false) (hb : hasLL b = false)
    (hbd : ¬ (a.getLast? = some '[' ∧ b.head? = some '[')) : hasLL (a ++ b) = false := by
  induction a with
  | nil => exact hb
  | cons x a' ih =>
    have ha2 : hasLL a' = false := by
      rw [hasLL, containsSub_cons] at ha
      simp only [Bool.or_eq_false_iff] at ha
      exact ha.2
    rw [hasLL, List.cons_append, containsSub_cons]
    simp only [Bool.or_eq_false_iff]
    constructor
    · cases a' with
      | nil =>
        cases b with
        | nil => simp [startsWith]
        | cons y bs =>
          simp only [List.nil_append]
          by_cases hy : y = '['
          · by_cases hx : x = '['
            · exact absurd ⟨by rw [hx]; rfl, by rw [hy]; rfl⟩ hbd
            · exact startsWith_ll_false_head x (y :: bs) hx
          · exact startsWith_ll_false_snd x y bs hy
      | cons z a'' =>
        by_cases hz : z = '['
        · by_cases hx : x = '['
          · exfalso
            rw [hasLL, containsSub_cons] at ha
            simp only [Bool.or_eq_false_iff] at ha
            have hsw : startsWith ['[', '['] (x :: z :: a'') = true := by
              rw [hx, hz]
              simp [startsWith]
            rw [hsw] at ha
            cases ha.1
          · exact startsWith_ll_false_head x (z :: a'' ++ b) hx
        · exact startsWith_ll_false_snd x z (a'' ++ b) hz
    · apply ih ha2
      intro hcontra
      apply hbd
      refine ⟨?_, hcontra.2⟩
      cases a' with
      | nil => cases hcontra.1
      | cons z a'' =>
        rw [getLast?_cons_ne x (z :: a'') (by simp)]
        exact hcontra.1

/-- The pure prefix of a canonical entry line: the dash, the space, and
the emoji segment. -/
def entryLinePre (e : PriorityEntry) : List Char :=
  '-' :: ' ' :: (if e.emoji.isEmpty then [] else e.emoji ++ [' '])

theorem entryLinePre_facts (e : PriorityEntry) (hll : hasLL e.emoji = false) :
    hasLL (entryLinePre e) = false ∧ (entryLinePre e).getLast? = some ' ' := by
  unfold entryLinePre
  by_cases he : e.emoji.isEmpty
  · simp only [he, if_true]
    exact ⟨by decide, rfl⟩
  · simp only [he, Bool.false_eq_true, if_false]
    constructor
    · have hpart : hasLL (e.emoji ++ [' ']) = false := by
        apply hasLL_append_false _ _ hll (by decide)
        intro hcontra
        cases hcontra.2
      have : ('-' :: ' ' :: (e.emoji ++ [' '])) = ['-', ' '] ++ (e.emoji ++ [' ']) := rfl
      rw [this]
      apply hasLL_append_false _ _ (by decide) hpart
      intro hcontra
      cases hcontra.1
    · rw [show ('-' :: ' ' :: (e.emoji ++ [' '])) = ('-' :: ' ' :: e.emoji) ++ [' '] by simp]
      exact getLast?_append_singleton _ ' '

theorem formatPriorityEntry_decomp (e : PriorityEntry) :
    formatPriorityEntry e = entryLinePre e ++
      (match e.displayAlias with
       | some a => '[' :: '[' :: (e.projectName ++ '|' :: (a ++ ']' :: ']' :: []))
       | none => '[' :: '[' :: (e.projectName ++ ']' :: ']' :: [])) := by
  unfold formatPriorityEntry entryLinePre
  cases e.displayAlias <;> simp

theorem lineEntry_eq (fe : EmojiLookup) (line pn : List Char) (al : Option (List Char))
    (h : findLink line = some (pn, al)) :
    lineEntry fe line = some ⟨pn,
      (match fe pn with
       | some v => if v.isEmpty then lineEmoji line else v
       | none => lineEmoji line), al⟩ := by
  unfold lineEntry
  rw [h]

/-- A canonical entry line of a well-formed entry re-parses to exactly the
same entry. -/
theorem lineEntry_format (fe : EmojiLookup) (e : PriorityEntry) (hWF : WFentry fe e) :
    lineEntry fe (formatPriorityEntry e) = some e := by
  obtain ⟨hpn, hpnc, _, hal, _, hll, hemoji⟩ := hWF
  obtain ⟨hpre_ll, hpre_last⟩ := entryLinePre_facts e hll
  have hlast' : ∀ x, (entryLinePre e).getLast? = some x → x ≠ '[' := by
    intro x hx
    rw [hpre_last] at hx
    injection hx with hx1
    rw [← hx1]
    decide
  have hfind : findLink (formatPriorityEntry e) = some (e.projectName, e.displayAlias) := by
    rw [formatPriorityEntry_decomp]
    cases hda : e.displayAlias with
    | none =>
      rw [findLink_skip _ _ hpre_ll hlast']
      apply findLink_cons_some
      exact matchLinkAt_plain e.projectName [] hpn hpnc
    | some a =>
      obtain ⟨ha1, ha2, _⟩ := hal a hda
      rw [findLink_skip _ _ hpre_ll hlast']
      apply findLink_cons_some
      exact matchLinkAt_alias e.projectName a [] hpn hpnc ha1 ha2
  have hbefore : beforeLL (formatPriorityEntry e) = entryLinePre e := by
    rw [formatPriorityEntry_decomp]
    cases e.displayAlias with
    | none => exact beforeLL_append_ll _ _ hpre_ll hlast'
    | some a => exact beforeLL_append_ll _ _ hpre_ll hlast'
  have hemojiline : e.emoji ≠ [] → trimChars e.emoji = e.emoji →
      lineEmoji (formatPriorityEntry e) = e.emoji := by
    intro hne htrim
    unfold lineEmoji
    rw [hbefore]
    unfold entryLinePre
    have hie : e.emoji.isEmpty = false := by
      cases hemo : e.emoji
      · exact absurd hemo hne
      · rfl
    simp only [hie, Bool.false_eq_true, if_false]
    rw [show stripDash ('-' :: ' ' :: (e.emoji ++ [' '])) =
      (' ' :: (e.emoji ++ [' '])).dropWhile isWsChar from rfl]
    rw [List.dropWhile_cons]
    simp only [show isWsChar ' ' = true from rfl, if_true]
    have hhead : (e.emoji ++ [' ']).dropWhile isWsChar = e.emoji ++ [' '] := by
      apply dropWhile_ws_id
      intro c hc
      cases hemo : e.emoji with
      | nil => exact absurd hemo hne
      | cons x xs =>
        rw [hemo] at hc
        injection hc with hc1
        rw [← hc1]
        apply trimChars_head e.emoji x xs
        rw [htrim, hemo]
    rw [hhead]
    unfold trimChars
    rw [dropWhile_ws_id]
    · rw [dropTrailingWs_append_ws e.emoji [' '] (by decide)]
      rw [← htrim]
      unfold trimChars
      apply dropTrailingWs_id
      intro c hc
      exact dropTrailingWs_last _ c hc
    · intro c hc
      cases hemo : e.emoji with
      | nil => exact absurd hemo hne
      | cons x xs =>
        rw [hemo] at hc
        rw [List.cons_append] at hc
        injection hc with hc1
        rw [← hc1]
        apply trimChars_head e.emoji x xs
        rw [htrim, hemo]
  have hemojiempty : e.emoji = [] → lineEmoji (formatPriorityEntry e) = [] := by
    intro hne
    unfold lineEmoji
    rw [hbefore]
    unfold entryLinePre
    rw [hne]
    rfl
  rw [lineEntry_eq fe _ _ _ hfind]
  have hemoji2 : (match fe e.projectName with
      | some v => if v.isEmpty then lineEmoji (formatPriorityEntry e) else v
      | none => lineEmoji (formatPriorityEntry e)) = e.emoji := by
    rcases hemoji with ⟨v, hfe, hv, hev⟩ | ⟨hfe, htrim⟩
    · rw [hfe]
      have hvne : v.isEmpty = false := by
        cases v
        · exact absurd rfl hv
        · rfl
      simp only [hvne, Bool.false_eq_true, if_false]
      rw [hev]
    · rcases hfe with hfe | hfe
      · rw [hfe]
        by_cases hne : e.emoji = []
        · rw [hemojiempty hne, hne]
        · rw [hemojiline hne htrim]
      · rw [hfe]
        simp only [List.isEmpty_nil, if_true]
        by_cases hne : e.emoji = []
        · rw [hemojiempty hne, hne]
        · rw [hemojiline hne htrim]
  rw [hemoji2]

/- ### Line classification lemmas -/

theorem isStopLine_two (c d : Char) (rest : List Char) (hcws : isWsChar c = false)
    (hne : ¬ (c = '-' ∧ d = '-')) : isStopLine (c :: d :: rest) = false := by
  apply decide_eq_false
  intro h
  unfold trimChars at h
  rw [List.dropWhile_cons, hcws] at h
  simp only [Bool.false_eq_true, if_false] at h
  obtain ⟨w, hw, _⟩ := dropTrailingWs_decomp (c :: d :: rest)
  rw [h] at hw
  injection hw with h1 h2
  injection h2 with h3 _
  exact hne ⟨h1, h3⟩

theorem matchSectionHeader_format (e : PriorityEntry) :
    matchSectionHeader (formatPriorityEntry e) = none := rfl

theorem matchSubsectionHeader_format (e : PriorityEntry) :
    matchSubsectionHeader (formatPriorityEntry e) = none := rfl

theorem isStopLine_format (e : PriorityEntry) :
    isStopLine (formatPriorityEntry e) = false :=
  isStopLine_two '-' ' ' _ (by decide) (by decide)

theorem matchSectionHeader_header (n : List Char) (h : WFname n) :
    matchSectionHeader ('#' :: '#' :: ' ' :: n) = some n := by
  simp [matchSectionHeader, h.1, h.2]

theorem matchSectionHeader_subheader (n : List Char) :
    matchSectionHeader ('#' :: '#' :: '#' :: ' ' :: n) = none := rfl

theorem matchSubsectionHeader_header (n : List Char) :
    matchSubsectionHeader ('#' :: '#' :: ' ' :: n) = none := rfl

theorem matchSubsectionHeader_subheader (n : List Char) (h : WFname n) :
    matchSubsectionHeader ('#' :: '#' :: '#' :: ' ' :: n) = some n := by
  simp [matchSubsectionHeader, h.1, h.2]

theorem isStopLine_hash (rest : List Char) : isStopLine ('#' :: '#' :: rest) = false :=
  isStopLine_two '#' '#' rest (by decide) (by decide)

theorem isStopLine_empty : isStopLine [] = false := by decide

theorem parseStepCore_empty (fe : EmojiLookup) (st : ParseState) :
    parseStepCore fe st [] = st := rfl

/- ### Membership transport lemmas -/

theorem mem_dropTrailingWs (y : List Char) (c : Char) (h : c ∈ dropTrailingWs y) :
    c ∈ y := by
  obtain ⟨w, hw, _⟩ := dropTrailingWs_decomp y
  rw [hw]
  exact List.mem_append_left _ h

theorem mem_trimChars (y : List Char) (c : Char) (h : c ∈ trimChars y) : c ∈ y := by
  unfold trimChars at h
  have h2 := mem_dropTrailingWs _ c h
  exact (List.dropWhile_sublist (p := isWsChar) (l := y)).subset h2

theorem mem_stripDash (y : List Char) (c : Char) (h : c ∈ stripDash y) : c ∈ y := by
  cases y with
  | nil => exact h
  | cons a as =>
    by_cases ha : a = '-'
    · subst ha
      have : stripDash ('-' :: as) = as.dropWhile isWsChar := rfl
      rw [this] at h
      exact List.mem_cons_of_mem _
        ((List.dropWhile_sublist (p := isWsChar) (l := as)).subset h)
    · rwa [show stripDash (a :: as) = a :: as by simp [stripDash, ha]] at h

theorem mem_beforeLL (y : List Char) (c : Char) (h : c ∈ beforeLL y) : c ∈ y := by
  induction y with
  | nil => exact h
  | cons a as ih =>
    by_cases hll : a = '[' ∧ ∃ t, as = '[' :: t
    · obtain ⟨ha, t, ht⟩ := hll
      subst ha; subst ht
      cases h
    · rw [beforeLL_cons_ne a as hll] at h
      rcases List.mem_cons.mp h with h1 | h2
      · exact h1 ▸ List.mem_cons_self _ _
      · exact List.mem_cons_of_mem _ (ih h2)

theorem mem_lineEmoji (line : List Char) (c : Char) (h : c ∈ lineEmoji line) : c ∈ line := by
  unfold lineEmoji at h
  exact mem_beforeLL _ _ (mem_stripDash _ _ (mem_trimChars _ _ h))

theorem hasLL_dropWhile_false (p : Char → Bool) (y : List Char) (h : hasLL y = false) :
    hasLL (y.dropWhile p) = false := by
  have hdecomp : y.takeWhile p ++ y.dropWhile p = y := List.takeWhile_append_dropWhile _ _
  apply hasLL_suffix_false _ (y.takeWhile p)
  rw [hdecomp]
  exact h

theorem hasLL_lineEmoji (line : List Char) : hasLL (lineEmoji line) = false := by
  unfold lineEmoji
  have h1 : hasLL (beforeLL line) = false := hasLL_beforeLL line
  have h2 : hasLL (stripDash (beforeLL line)) = false := by
    cases hb : beforeLL line with
    | nil => rw [show stripDash [] = [] from rfl]; decide
    | cons a as =>
      by_cases ha : a = '-'
      · subst ha
        rw [show stripDash ('-' :: as) = as.dropWhile isWsChar from rfl]
        apply hasLL_dropWhile_false
        apply hasLL_suffix_false as ['-']
        show hasLL ('-' :: as) = false
        rw [← hb]
        exact h1
      · rw [show stripDash (a :: as) = a :: as by simp [stripDash, ha]]
        rw [← hb]
        exact h1
  unfold trimChars
  obtain ⟨w, hw, _⟩ := dropTrailingWs_decomp ((stripDash (beforeLL line)).dropWhile isWsChar)
  apply hasLL_prefix_false _ w
  rw [← hw]
  exact hasLL_dropWhile_false _ _ h2

/- ### Properties of parsed link components -/

theorem matchLinkAt_props (l : List Char) (pn : List Char) (al : Option (List Char))
    (h : matchLinkAt l = some (pn, al)) :
    pn ≠ [] ∧ pn.all linkNameChar = true ∧ (∀ c ∈ pn, c ∈ l) ∧
    (∀ a, al = some a → a ≠ [] ∧ a.all linkAliasChar = true ∧ ∀ c ∈ a, c ∈ l) := by
  unfold matchLinkAt at h
  cases l with
  | nil => cases h
  | cons x xs =>
    cases xs with
    | nil =>
      by_cases hx : x = '['
      · subst hx; cases h
      · simp [hx] at h
    | cons y rest0 =>
      by_cases hx : x = '['
      · subst hx
        by_cases hy : y = '['
        · subst hy
          have hall : ∀ (r : List Char) (p : Char → Bool), (r.takeWhile p).all p = true :=
            fun r p => List.all_eq_true.mpr (fun c hc => List.mem_takeWhile_imp hc)
          have hmemN : ∀ c ∈ rest0.takeWhile linkNameChar, c ∈ '[' :: '[' :: rest0 := by
            intro c hc
            have := (List.takeWhile_sublist (p := linkNameChar) (l := rest0)).subset hc
            exact List.mem_cons_of_mem _ (List.mem_cons_of_mem _ this)
          have hmemA : ∀ r3 : List Char, rest0.dropWhile linkNameChar = '|' :: r3 →
              ∀ c ∈ r3.takeWhile linkAliasChar, c ∈ '[' :: '[' :: rest0 := by
            intro r3 hr3 c hc
            have h1 := (List.takeWhile_sublist (p := linkAliasChar) (l := r3)).subset hc
            have h2 : c ∈ rest0.dropWhile linkNameChar := by
              rw [hr3]
              exact List.mem_cons_of_mem _ h1
            have h3 := (List.dropWhile_sublist (p := linkNameChar) (l := rest0)).subset h2
            exact List.mem_cons_of_mem _ (List.mem_cons_of_mem _ h3)
          simp only at h
          split at h
          · cases h
          · rename_i hni
            split at h
            · rename_i r3 hr3
              split at h
              · split at h
                · cases h
                · rename_i hai
                  injection h with hpair
                  obtain ⟨hpn, hal⟩ := Prod.mk.injEq .. ▸ hpair
                  subst hpn
                  refine ⟨by simpa using hni, hall _ _, hmemN, ?_⟩
                  intro a ha
                  rw [← hal] at ha
                  injection ha with ha2
                  subst ha2
                  exact ⟨by simpa using hai, hall _ _, hmemA r3 hr3⟩
              · cases h
            · injection h with hpair
              obtain ⟨hpn, hal⟩ := Prod.mk.injEq .. ▸ hpair
              subst hpn
              refine ⟨by simpa using hni, hall _ _, hmemN, ?_⟩
              intro a ha
              rw [← hal] at ha
              cases ha
            · cases h
        · simp [hy] at h
      · simp [hx] at h

theorem findLink_props (l : List Char) (pn : List Char) (al : Option (List Char))
    (h : findLink l = some (pn, al)) :
    pn ≠ [] ∧ pn.all linkNameChar = true ∧ (∀ c ∈ pn, c ∈ l) ∧
    (∀ a, al = some a → a ≠ [] ∧ a.all linkAliasChar = true ∧ ∀ c ∈ a, c ∈ l) := by
  induction l with
  | nil => cases h
  | cons c cs ih =>
    by_cases hm : ∃ r, matchLinkAt (c :: cs) = some r
    · obtain ⟨r, hr⟩ := hm
      rw [findLink_cons_some c cs r hr] at h
      rw [h] at hr
      exact matchLinkAt_props _ _ _ hr
    · have hnone : matchLinkAt (c :: cs) = none := by
        cases hmm : matchLinkAt (c :: cs)
        · rfl
        · exact absurd ⟨_, hmm⟩ hm
      rw [findLink_cons_none c cs hnone] at h
      obtain ⟨h1, h2, h3, h4⟩ := ih h
      exact ⟨h1, h2, fun x hx => List.mem_cons_of_mem _ (h3 x hx),
        fun a ha => ⟨(h4 a ha).1, (h4 a ha).2.1,
          fun x hx => List.mem_cons_of_mem _ ((h4 a ha).2.2 x hx)⟩⟩

theorem lineEntry_WF (fe : EmojiLookup) (line : List Char) (e : PriorityEntry)
    (hfe : TameLookup fe) (hnl : '\n' ∉ line) (h : lineEntry fe line = some e) :
    WFentry fe e := by
  unfold lineEntry at h
  cases hfl : findLink line with
  | none => rw [hfl] at h; cases h
  | some r =>
    obtain ⟨pn, al⟩ := r
    rw [hfl] at h
    obtain ⟨h1, h2, h3, h4⟩ := findLink_props line pn al hfl
    injection h with h5
    rw [← h5]
    refine ⟨h1, h2, fun hc => hnl (h3 _ hc), ?_, ?_, ?_, ?_⟩
    · intro a ha
      obtain ⟨ha1, ha2, ha3⟩ := h4 a ha
      exact ⟨ha1, ha2, fun hc => hnl (ha3 _ hc)⟩
    · simp only
      cases hfep : fe pn with
      | none => exact fun hc => hnl (mem_lineEmoji _ _ hc)
      | some v =>
        by_cases hv : v.isEmpty
        · simp only [hv, if_true]
          exact fun hc => hnl (mem_lineEmoji _ _ hc)
        · simp only [hv, Bool.false_eq_true, if_false]
          exact (hfe pn v hfep).1
    · simp only
      cases hfep : fe pn with
      | none => exact hasLL_lineEmoji line
      | some v =>
        by_cases hv : v.isEmpty
        · simp only [hv, if_true]
          exact hasLL_lineEmoji line
        · simp only [hv, Bool.false_eq_true, if_false]
          exact (hfe pn v hfep).2
    · simp only
      cases hfep : fe pn with
      | none =>
        right
        refine ⟨Or.inl rfl, ?_⟩
        unfold lineEmoji
        exact trimChars_idem _
      | some v =>
        by_cases hv : v.isEmpty
        · right
          have hvnil : v = [] := by
            cases v
            · rfl
            · cases hv
          refine ⟨Or.inr (by rw [hvnil]), ?_⟩
          simp only [hv, if_true]
          unfold lineEmoji
          exact trimChars_idem _
        · left
          refine ⟨v, rfl, ?_, ?_⟩
          · intro hc
            rw [hc] at hv
            exact hv rfl
          · simp [hv]

/- ### Well-formed parser state and preservation -/

/-- Items lists the parser can produce: all top-level entries first, then
all subsections. -/
def entriesThenSubs (items : List SectionItem) : Prop :=
  ∃ (es : List PriorityEntry) (ss : List PrioritySubsection),
    items = es.map SectionItem.entryItem ++ ss.map SectionItem.subItem

/-- Well-formed subsection. -/
def WFsub (fe : EmojiLookup) (s : PrioritySubsection) : Prop :=
  WFname s.name ∧ ∀ e ∈ s.entries, WFentry fe e

/-- Well-formed item. -/
def WFitem (fe : EmojiLookup) : SectionItem → Prop
  | .subItem s => WFsub fe s
  | .entryItem e => WFentry fe e

/-- Well-formed section. -/
def WFsection (fe : EmojiLookup) (sec : PrioritySection) : Prop :=
  WFname sec.name ∧ (∀ it ∈ sec.orderedItems, WFitem fe it) ∧
    entriesThenSubs sec.orderedItems

/-- Well-formed document. -/
def WFsections (fe : EmojiLookup) (secs : List PrioritySection) : Prop :=
  ∀ sec ∈ secs, WFsection fe sec

/-- Well-formed open section and subsection of the parser state. -/
def WFcur (fe : EmojiLookup) :
    Option (List Char × List SectionItem) → Option PrioritySubsection → Prop
  | none, sub => sub = none
  | some (n, items), none =>
    WFname n ∧ (∀ it ∈ items, WFitem fe it) ∧
      ∃ es : List PriorityEntry, items = es.map SectionItem.entryItem
  | some (n, items), some s =>
    WFname n ∧ (∀ it ∈ items, WFitem fe it) ∧ entriesThenSubs items ∧ WFsub fe s

/-- Well-formed parser state. -/
def WFstate (fe : EmojiLookup) (st : ParseState) : Prop :=
  WFsections fe st.closed ∧ WFcur fe st.cur st.curSub

theorem entriesThenSubs_nil : entriesThenSubs [] := ⟨[], [], rfl⟩

theorem entriesThenSubs_append_sub (items : List SectionItem) (s : PrioritySubsection)
    (h : entriesThenSubs items) : entriesThenSubs (items ++ [.subItem s]) := by
  obtain ⟨es, ss, hsplit⟩ := h
  exact ⟨es, ss ++ [s], by rw [hsplit]; simp⟩

theorem entriesThenSubs_of_entries (items : List SectionItem)
    (h : ∃ es : List PriorityEntry, items = es.map SectionItem.entryItem) :
    entriesThenSubs items := by
  obtain ⟨es, hsplit⟩ := h
  exact ⟨es, [], by rw [hsplit]; simp⟩

theorem WFsections_closeCur (fe : EmojiLookup)
    (cur : Option (List Char × List SectionItem)) (sub : Option PrioritySubsection)
    (h : WFcur fe cur sub) : WFsections fe (closeCur cur sub) := by
  cases cur with
  | none =>
    intro sec hsec
    cases hsec
  | some p =>
    obtain ⟨n, items⟩ := p
    cases sub with
    | none =>
      obtain ⟨h1, h2, h3⟩ := h
      intro sec hsec
      rcases List.mem_singleton.mp hsec with hx
      rw [hx]
      refine ⟨h1, ?_, ?_⟩
      · intro it hit
        simp only [flushSub, List.append_nil] at hit
        exact h2 it hit
      · simp only [flushSub, List.append_nil]
        exact entriesThenSubs_of_entries items h3
    | some s =>
      obtain ⟨h1, h2, h3, h4⟩ := h
      intro sec hsec
      rcases List.mem_singleton.mp hsec with hx
      rw [hx]
      refine ⟨h1, ?_, ?_⟩
      · intro it hit
        simp only [flushSub] at hit
        rcases List.mem_append.mp hit with hh | hh
        · exact h2 it hh
        · rcases List.mem_singleton.mp hh with hx2
          rw [hx2]
          exact h4
      · exact entriesThenSubs_append_sub items s h3

theorem WFsections_append (fe : EmojiLookup) (a b : List PrioritySection)
    (ha : WFsections fe a) (hb : WFsections fe b) : WFsections fe (a ++ b) := by
  intro sec hsec
  rcases List.mem_append.mp hsec with h | h
  · exact ha sec h
  · exact hb sec h

theorem matchSectionHeader_WFname (l n : List Char) (h : matchSectionHeader l = some n) :
    WFname n := by
  unfold matchSectionHeader at h
  split at h
  · split at h
    · rename_i hcond
      injection h with h1
      rw [← h1]
      simp only [Bool.and_eq_true] at hcond
      exact ⟨by simpa using hcond.1, hcond.2⟩
    · cases h
  · cases h

theorem matchSubsectionHeader_WFname (l n : List Char)
    (h : matchSubsectionHeader l = some n) : WFname n := by
  unfold matchSubsectionHeader at h
  split at h
  · split at h
    · rename_i hcond
      injection h with h1
      rw [← h1]
      simp only [Bool.and_eq_true] at hcond
      exact ⟨by simpa using hcond.1, hcond.2⟩
    · cases h
  · cases h

theorem parseStepCore_WF (fe : EmojiLookup) (st : ParseState) (line : List Char)
    (hfe : TameLookup fe) (hnl : '\n' ∉ line) (hst : WFstate fe st) :
    WFstate fe (parseStepCore fe st line) := by
  obtain ⟨closed, cur, curSub, found⟩ := st
  obtain ⟨hclosed, hcur⟩ := hst
  unfold parseStepCore
  cases hsec : matchSectionHeader line with
  | some n =>
    refine ⟨WFsections_append fe _ _ hclosed (WFsections_closeCur fe _ _ hcur), ?_⟩
    exact ⟨matchSectionHeader_WFname line n hsec, fun it hit => absurd hit (by simp),
      [], rfl⟩
  | none =>
    cases hsub : matchSubsectionHeader line with
    | some n =>
      cases cur with
      | none => exact ⟨hclosed, hcur⟩
      | some p =>
        obtain ⟨nm, items⟩ := p
        refine ⟨hclosed, ?_⟩
        cases curSub with
        | none =>
          obtain ⟨h1, h2, h3⟩ := hcur
          refine ⟨h1, ?_, ?_, matchSubsectionHeader_WFname line n hsub,
            by intro e he; cases he⟩
          · intro it hit
            simp only [flushSub, List.append_nil] at hit
            exact h2 it hit
          · simp only [flushSub, List.append_nil]
            exact entriesThenSubs_of_entries items h3
        | some s =>
          obtain ⟨h1, h2, h3, h4⟩ := hcur
          refine ⟨h1, ?_, ?_, matchSubsectionHeader_WFname line n hsub,
            by intro e he; cases he⟩
          · intro it hit
            simp only [flushSub] at hit
            rcases List.mem_append.mp hit with hh | hh
            · exact h2 it hh
            · rcases List.mem_singleton.mp hh with hx2
              rw [hx2]
              exact h4
          · exact entriesThenSubs_append_sub items s h3
    | none =>
      cases hle : lineEntry fe line with
      | none =>
        cases cur with
        | none => exact ⟨hclosed, hcur⟩
        | some p => exact ⟨hclosed, hcur⟩
      | some e =>
        have hWFe : WFentry fe e := lineEntry_WF fe line e hfe hnl hle
        cases cur with
        | none => exact ⟨hclosed, hcur⟩
        | some p =>
          obtain ⟨nm, items⟩ := p
          cases curSub with
          | none =>
            obtain ⟨h1, h2, h3⟩ := hcur
            refine ⟨hclosed, h1, ?_, ?_⟩
            · intro it hit
              rcases List.mem_append.mp hit with hh | hh
              · exact h2 it hh
              · rcases List.mem_singleton.mp hh with hx2
                rw [hx2]
                exact hWFe
            · obtain ⟨es, hes⟩ := h3
              exact ⟨es ++ [e], by rw [hes]; simp⟩
          | some s =>
            obtain ⟨h1, h2, h3, h4⟩ := hcur
            refine ⟨hclosed, h1, h2, h3, h4.1, ?_⟩
            intro x hx
            rcases List.mem_append.mp hx with hh | hh
            · exact h4.2 x hh
            · rcases List.mem_singleton.mp hh with hx2
              rw [hx2]
              exact hWFe

/- ### Serializer round-trip: step lemmas -/

/-- Project names contributed to the found set by one item. -/
def itemFound : SectionItem → List (List Char)
  | .entryItem e => [e.projectName]
  | .subItem s => s.entries.map (fun e => e.projectName)

/-- Project names contributed by one section, in scan order. -/
def secFound (sec : PrioritySection) : List (List Char) :=
  (sec.orderedItems.map itemFound).flatten

/-- Project names contributed by a subsection list. -/
def ssFound (ss : List PrioritySubsection) : List (List Char) :=
  (ss.map (fun s => s.entries.map (fun e => e.projectName))).flatten

/-- Project names contributed by a whole document. -/
def allFound (secs : List PrioritySection) : List (List Char) :=
  (secs.map secFound).flatten

theorem parseNoStop_append (fe : EmojiLookup) (a b : List (List Char)) :
    ∀ st, parseNoStop fe (a ++ b) st = parseNoStop fe b (parseNoStop fe a st) := by
  induction a with
  | nil => intro st; rfl
  | cons l ls ih => intro st; exact ih (parseStepCore fe st l)

theorem parseStepCore_header (fe : EmojiLookup) (st : ParseState) (m : List Char)
    (h : WFname m) :
    parseStepCore fe st ('#' :: '#' :: ' ' :: m) =
      ⟨st.closed ++ closeCur st.cur st.curSub, some (m, []), none, st.found⟩ := by
  unfold parseStepCore
  rw [matchSectionHeader_header m h]

theorem parseStepCore_subheader (fe : EmojiLookup) (C : List PrioritySection)
    (n : List Char) (I : List SectionItem) (sub : Option PrioritySubsection)
    (F : List (List Char)) (m : List Char) (h : WFname m) :
    parseStepCore fe ⟨C, some (n, I), sub, F⟩ ('#' :: '#' :: '#' :: ' ' :: m) =
      ⟨C, some (n, I ++ flushSub sub), some ⟨m, []⟩, F⟩ := by
  unfold parseStepCore
  rw [matchSectionHeader_subheader m, matchSubsectionHeader_subheader m h]

theorem parseStepCore_entry (fe : EmojiLookup) (C : List PrioritySection)
    (n : List Char) (I : List SectionItem) (F : List (List Char))
    (e : PriorityEntry) (hWF : WFentry fe e) :
    parseStepCore fe ⟨C, some (n, I), none, F⟩ (formatPriorityEntry e) =
      ⟨C, some (n, I ++ [.entryItem e]), none, F ++ [e.projectName]⟩ := by
  unfold parseStepCore
  rw [matchSectionHeader_format e, matchSubsectionHeader_format e,
    lineEntry_format fe e hWF]

theorem parseStepCore_entry_sub (fe : EmojiLookup) (C : List PrioritySection)
    (n : List Char) (I : List SectionItem) (t : PrioritySubsection)
    (F : List (List Char)) (e : PriorityEntry) (hWF : WFentry fe e) :
    parseStepCore fe ⟨C, some (n, I), some t, F⟩ (formatPriorityEntry e) =
      ⟨C, some (n, I), some ⟨t.name, t.entries ++ [e]⟩, F ++ [e.projectName]⟩ := by
  unfold parseStepCore
  rw [matchSectionHeader_format e, matchSubsectionHeader_format e,
    lineEntry_format fe e hWF]

theorem entriesRun (fe : EmojiLookup) (es : List PriorityEntry)
    (hWF : ∀ e ∈ es, WFentry fe e) :
    ∀ C n I F, parseNoStop fe (es.map formatPriorityEntry) ⟨C, some (n, I), none, F⟩ =
      ⟨C, some (n, I ++ es.map SectionItem.entryItem), none,
        F ++ es.map (fun e => e.projectName)⟩ := by
  induction es with
  | nil => intro C n I F; simp [parseNoStop]
  | cons e es ih =>
    intro C n I F
    simp only [List.map_cons, parseNoStop]
    rw [parseStepCore_entry fe C n I F e (hWF e (List.mem_cons_self _ _))]
    rw [ih (fun x hx => hWF x (List.mem_cons_of_mem _ hx)) C n _ _]
    simp

theorem subEntriesRun (fe : EmojiLookup) (es : List PriorityEntry)
    (hWF : ∀ e ∈ es, WFentry fe e) :
    ∀ C n I tn te F,
      parseNoStop fe (es.map formatPriorityEntry) ⟨C, some (n, I), some ⟨tn, te⟩, F⟩ =
        ⟨C, some (n, I), some ⟨tn, te ++ es⟩, F ++ es.map (fun e => e.projectName)⟩ := by
  induction es with
  | nil => intro C n I tn te F; simp [parseNoStop]
  | cons e es ih =>
    intro C n I tn te F
    simp only [List.map_cons, parseNoStop]
    rw [parseStepCore_entry_sub fe C n I ⟨tn, te⟩ F e (hWF e (List.mem_cons_self _ _))]
    rw [ih (fun x hx => hWF x (List.mem_cons_of_mem _ hx)) C n I tn _ _]
    simp

theorem subsRun (fe : EmojiLookup) (ss : List PrioritySubsection)
    (hWF : ∀ s ∈ ss, WFsub fe s) :
    ∀ C n I sub F, ∃ I' sub',
      parseNoStop fe ((ss.map (fun s => itemLines (.subItem s))).flatten)
          ⟨C, some (n, I), sub, F⟩ =
        ⟨C, some (n, I'), sub', F ++ ssFound ss⟩ ∧
      I' ++ flushSub sub' = I ++ flushSub sub ++ ss.map SectionItem.subItem := by
  induction ss with
  | nil =>
    intro C n I sub F
    exact ⟨I, sub, by simp [parseNoStop, ssFound], by simp⟩
  | cons s ss ih =>
    intro C n I sub F
    have hname : WFname s.name := (hWF s (List.mem_cons_self _ _)).1
    have hes : ∀ e ∈ s.entries, WFentry fe e := (hWF s (List.mem_cons_self _ _)).2
    rw [List.map_cons, List.flatten_cons]
    have hhead : itemLines (SectionItem.subItem s) =
        ('#' :: '#' :: '#' :: ' ' :: s.name) :: s.entries.map formatPriorityEntry := rfl
    rw [hhead, List.cons_append, parseNoStop]
    rw [parseStepCore_subheader fe C n I sub F s.name hname]
    rw [parseNoStop_append]
    rw [subEntriesRun fe s.entries hes C n _ s.name [] F]
    obtain ⟨I', sub', heq, hitems⟩ :=
      ih (fun x hx => hWF x (List.mem_cons_of_mem _ hx)) C n
        (I ++ flushSub sub) (some ⟨s.name, [] ++ s.entries⟩)
        (F ++ s.entries.map (fun e => e.projectName))
    refine ⟨I', sub', ?_, ?_⟩
    · rw [heq]
      simp [ssFound]
    · rw [hitems]
      simp [flushSub]

theorem flatten_entryItems (es : List PriorityEntry) :
    ((es.map SectionItem.entryItem).map itemLines).flatten = es.map formatPriorityEntry := by
  induction es with
  | nil => rfl
  | cons e es ih => simp only [List.map_cons, List.flatten_cons, itemLines, ih]; rfl

theorem itemFound_entryItems (es : List PriorityEntry) :
    ((es.map SectionItem.entryItem).map itemFound).flatten =
      es.map (fun e => e.projectName) := by
  induction es with
  | nil => rfl
  | cons e es ih => simp only [List.map_cons, List.flatten_cons, itemFound, ih]; rfl

theorem itemFound_subItems (ss : List PrioritySubsection) :
    ((ss.map SectionItem.subItem).map itemFound).flatten = ssFound ss := by
  rw [List.map_map]
  rfl

theorem secFound_split (sec : PrioritySection) (es : List PriorityEntry)
    (ss : List PrioritySubsection)
    (hsplit : sec.orderedItems =
      es.map SectionItem.entryItem ++ ss.map SectionItem.subItem) :
    secFound sec = es.map (fun e => e.projectName) ++ ssFound ss := by
  unfold secFound
  rw [hsplit, List.map_append, List.flatten_append, itemFound_entryItems,
    itemFound_subItems]

theorem sectionRun (fe : EmojiLookup) (sec : PrioritySection)
    (hWF : WFsection fe sec) (st : ParseState) :
    ∃ cur' sub', parseNoStop fe (sectionLines sec) st =
      ⟨st.closed ++ closeCur st.cur st.curSub, cur', sub', st.found ++ secFound sec⟩ ∧
      closeCur cur' sub' = [sec] := by
  obtain ⟨hname, hitems, es, ss, hsplit⟩ := hWF
  have hWFe : ∀ e ∈ es, WFentry fe e := by
    intro e he
    have : SectionItem.entryItem e ∈ sec.orderedItems := by
      rw [hsplit]
      exact List.mem_append_left _ (List.mem_map_of_mem _ he)
    exact hitems _ this
  have hWFs : ∀ s ∈ ss, WFsub fe s := by
    intro s hs
    have : SectionItem.subItem s ∈ sec.orderedItems := by
      rw [hsplit]
      exact List.mem_append_right _ (List.mem_map_of_mem _ hs)
    exact hitems _ this
  unfold sectionLines
  rw [parseNoStop]
  rw [parseStepCore_header fe st sec.name hname]
  rw [hsplit, List.map_append, List.flatten_append, flatten_entryItems]
  have hmm : List.map itemLines (ss.map SectionItem.subItem) =
      ss.map (fun s => itemLines (.subItem s)) := by
    rw [List.map_map]
    rfl
  rw [hmm]
  rw [List.append_assoc, parseNoStop_append]
  rw [entriesRun fe es hWFe _ sec.name [] st.found]
  rw [parseNoStop_append]
  obtain ⟨I', sub', heq, hI⟩ :=
    subsRun fe ss hWFs _ sec.name (List.map SectionItem.entryItem es) none
      (st.found ++ es.map (fun e => e.projectName))
  simp only [List.nil_append]
  rw [heq]
  refine ⟨some (sec.name, I'), sub', ?_, ?_⟩
  · rw [secFound_split sec es ss hsplit, ← List.append_assoc]
    rfl
  · show [(⟨sec.name, I' ++ flushSub sub'⟩ : PrioritySection)] = [sec]
    rw [hI]
    have h2 : List.map SectionItem.entryItem es ++ flushSub none ++
        List.map SectionItem.subItem ss = sec.orderedItems := by
      rw [hsplit]
      simp [flushSub]
    rw [h2]

theorem allRun (fe : EmojiLookup) (secs : List PrioritySection)
    (hWF : WFsections fe secs) :
    ∀ st, finalizeParse (parseNoStop fe (writeLines secs) st) = finalizeParse st ++ secs ∧
      (parseNoStop fe (writeLines secs) st).found = st.found ++ allFound secs := by
  induction secs with
  | nil =>
    intro st
    constructor
    · show finalizeParse st = finalizeParse st ++ []
      rw [List.append_nil]
    · show st.found = st.found ++ []
      rw [List.append_nil]
  | cons sec rest ih =>
    intro st
    have hlines : writeLines (sec :: rest) = sectionLines sec ++ writeLines rest := by
      unfold writeLines
      rw [List.map_cons, List.flatten_cons]
    rw [hlines, parseNoStop_append]
    obtain ⟨cur', sub', heq, hclose⟩ := sectionRun fe sec (hWF sec (List.mem_cons_self _ _)) st
    rw [heq]
    obtain ⟨ih1, ih2⟩ := ih (fun x hx => hWF x (List.mem_cons_of_mem _ hx))
      ⟨st.closed ++ closeCur st.cur st.curSub, cur', sub', st.found ++ secFound sec⟩
    constructor
    · rw [ih1]
      show st.closed ++ closeCur st.cur st.curSub ++ closeCur cur' sub' ++ rest =
        finalizeParse st ++ sec :: rest
      rw [hclose]
      show finalizeParse st ++ [sec] ++ rest = finalizeParse st ++ sec :: rest
      simp
    · rw [ih2]
      show st.found ++ secFound sec ++ allFound rest = st.found ++ allFound (sec :: rest)
      have : allFound (sec :: rest) = secFound sec ++ allFound rest := by
        unfold allFound
        rw [List.map_cons, List.flatten_cons]
      rw [this, List.append_assoc]

/- ### The parsed document is well formed -/

theorem parseNoStop_WF (fe : EmojiLookup) (hfe : TameLookup fe) :
    ∀ (ls : List (List Char)), (∀ l ∈ ls, '\n' ∉ l) → ∀ st, WFstate fe st →
      WFstate fe (parseNoStop fe ls st) := by
  intro ls
  induction ls with
  | nil => intro _ st h; exact h
  | cons l rest ih =>
    intro hnl st h
    exact ih (fun x hx => hnl x (List.mem_cons_of_mem _ hx)) _
      (parseStepCore_WF fe st l hfe (hnl l (List.mem_cons_self _ _)) h)

theorem initState_WF (fe : EmojiLookup) : WFstate fe initState :=
  ⟨fun sec h => absurd h (List.not_mem_nil sec), rfl⟩

theorem finalizeParse_WF (fe : EmojiLookup) (st : ParseState) (h : WFstate fe st) :
    WFsections fe (finalizeParse st) :=
  WFsections_append fe _ _ h.1 (WFsections_closeCur fe _ _ h.2)

theorem mem_takeWhile_mem {α : Type} (p : α → Bool) :
    ∀ (l : List α) (a : α), a ∈ l.takeWhile p → a ∈ l := by
  intro l
  induction l with
  | nil => intro a h; cases h
  | cons x xs ih =>
    intro a h
    rw [List.takeWhile_cons] at h
    by_cases hp : p x = true
    · rw [hp] at h
      simp only [if_true] at h
      rcases List.mem_cons.mp h with h1 | h1
      · exact h1 ▸ List.mem_cons_self _ _
      · exact List.mem_cons_of_mem _ (ih a h1)
    · rw [Bool.not_eq_true] at hp
      rw [hp] at h
      simp only [Bool.false_eq_true, if_false] at h
      cases h

theorem parseSections_WF (fe : EmojiLookup) (hfe : TameLookup fe) (text : List Char) :
    WFsections fe (parseSections fe text) := by
  unfold parseSections
  rw [parseLines_eq_takeWhile]
  apply finalizeParse_WF
  apply parseNoStop_WF fe hfe _ _ _ (initState_WF fe)
  intro l hl
  exact splitLines_no_newline text l (mem_takeWhile_mem _ _ l hl)

/- ### The serialized lines are newline-free and stop-free -/

theorem no_newline_of_dotOk (n : List Char) (h : n.all dotOk = true) : '\n' ∉ n := by
  intro hm
  have := List.all_eq_true.mp h '\n' hm
  simp [dotOk] at this

theorem formatPriorityEntry_no_newline (fe : EmojiLookup) (e : PriorityEntry)
    (hWF : WFentry fe e) : '\n' ∉ formatPriorityEntry e := by
  obtain ⟨_, _, hpn, hal, hem, _, _⟩ := hWF
  intro hm
  unfold formatPriorityEntry at hm
  simp only [List.mem_cons, List.mem_append] at hm
  rcases hm with h | h | h | h
  · exact absurd h (by decide)
  · exact absurd h (by decide)
  · by_cases he : e.emoji.isEmpty
    · rw [if_pos he] at h
      cases h
    · rw [if_neg he] at h
      rcases List.mem_append.mp h with h2 | h2
      · exact hem h2
      · rcases List.mem_singleton.mp h2 with h3
        exact absurd h3 (by decide)
  · cases hals : e.displayAlias with
    | none =>
      rw [hals] at h
      simp only [List.mem_cons, List.mem_append] at h
      rcases h with h2 | h2 | h2 | h2 | h2 | h2
      · exact absurd h2 (by decide)
      · exact absurd h2 (by decide)
      · exact hpn h2
      · exact absurd h2 (by decide)
      · exact absurd h2 (by decide)
      · cases h2
    | some a =>
      rw [hals] at h
      simp only [List.mem_cons, List.mem_append] at h
      rcases h with h2 | h2 | (h2 | h2 | h2) | h2 | h2 | h2
      · exact absurd h2 (by decide)
      · exact absurd h2 (by decide)
      · exact hpn h2
      · exact absurd h2 (by decide)
      · exact (hal a hals).2.2 h2
      · exact absurd h2 (by decide)
      · exact absurd h2 (by decide)
      · cases h2

theorem mem_writeLines (secs : List PrioritySection) (l : List Char)
    (h : l ∈ writeLines secs) :
    ∃ sec ∈ secs,
      l = '#' :: '#' :: ' ' :: sec.name ∨ l = [] ∨
      ∃ it ∈ sec.orderedItems,
        (∃ s, it = .subItem s ∧ (l = '#' :: '#' :: '#' :: ' ' :: s.name ∨
          ∃ e ∈ s.entries, l = formatPriorityEntry e)) ∨
        (∃ e, it = .entryItem e ∧ l = formatPriorityEntry e) := by
  unfold writeLines at h
  rw [List.mem_flatten] at h
  obtain ⟨ls, hls, hl⟩ := h
  rw [List.mem_map] at hls
  obtain ⟨sec, hsec, hrest⟩ := hls
  refine ⟨sec, hsec, ?_⟩
  rw [← hrest] at hl
  unfold sectionLines at hl
  rcases List.mem_cons.mp hl with h1 | h1
  · exact Or.inl h1
  · rcases List.mem_append.mp h1 with h2 | h2
    · rw [List.mem_flatten] at h2
      obtain ⟨ls2, hls2, hl2⟩ := h2
      rw [List.mem_map] at hls2
      obtain ⟨it, hit, hrest2⟩ := hls2
      refine Or.inr (Or.inr ⟨it, hit, ?_⟩)
      cases it with
      | subItem s =>
        left
        refine ⟨s, rfl, ?_⟩
        rw [← hrest2] at hl2
        unfold itemLines at hl2
        rcases List.mem_cons.mp hl2 with h3 | h3
        · exact Or.inl h3
        · rw [List.mem_map] at h3
          obtain ⟨e, he, hfe⟩ := h3
          exact Or.inr ⟨e, he, hfe.symm⟩
      | entryItem e =>
        right
        refine ⟨e, rfl, ?_⟩
        rw [← hrest2] at hl2
        unfold itemLines at hl2
        rcases List.mem_singleton.mp hl2 with h3
        exact h3
    · exact Or.inr (Or.inl (List.mem_singleton.mp h2))

theorem writeLines_no_newline (fe : EmojiLookup) (secs : List PrioritySection)
    (hWF : WFsections fe secs) : ∀ l ∈ writeLines secs, '\n' ∉ l := by
  intro l hl
  obtain ⟨sec, hsec, hform⟩ := mem_writeLines secs l hl
  obtain ⟨hname, hitems, _⟩ := hWF sec hsec
  rcases hform with h | h | ⟨it, hit, hform⟩
  · rw [h]
    intro hm
    rcases List.mem_cons.mp hm with h1 | h1
    · exact absurd h1 (by decide)
    · rcases List.mem_cons.mp h1 with h2 | h2
      · exact absurd h2 (by decide)
      · rcases List.mem_cons.mp h2 with h3 | h3
        · exact absurd h3 (by decide)
        · exact no_newline_of_dotOk sec.name hname.2 h3
  · rw [h]
    exact List.not_mem_nil _
  · rcases hform with ⟨s, hits, hform2⟩ | ⟨e, hite, hform2⟩
    · have hWFs : WFsub fe s := by
        have := hitems it hit
        rw [hits] at this
        exact this
      rcases hform2 with h2 | ⟨e, he, h2⟩
      · rw [h2]
        intro hm
        rcases List.mem_cons.mp hm with h1 | h1
        · exact absurd h1 (by decide)
        · rcases List.mem_cons.mp h1 with h3 | h3
          · exact absurd h3 (by decide)
          · rcases List.mem_cons.mp h3 with h4 | h4
            · exact absurd h4 (by decide)
            · rcases List.mem_cons.mp h4 with h5 | h5
              · exact absurd h5 (by decide)
              · exact no_newline_of_dotOk s.name hWFs.1.2 h5
      · rw [h2]
        exact formatPriorityEntry_no_newline fe e (hWFs.2 e he)
    · have hWFe : WFentry fe e := by
        have := hitems it hit
        rw [hite] at this
        exact this
      rw [hform2]
      exact formatPriorityEntry_no_newline fe e hWFe

theorem writeLines_no_stop (secs : List PrioritySection) :
    ∀ l ∈ writeLines secs, isStopLine l = false := by
  intro l hl
  obtain ⟨sec, _, hform⟩ := mem_writeLines secs l hl
  rcases hform with h | h | ⟨it, _, hform⟩
  · rw [h]; exact isStopLine_hash _
  · rw [h]; exact isStopLine_empty
  · rcases hform with ⟨s, _, hform2⟩ | ⟨e, _, hform2⟩
    · rcases hform2 with h2 | ⟨e, _, h2⟩
      · rw [h2]; exact isStopLine_hash _
      · rw [h2]; exact isStopLine_format e
    · rw [hform2]; exact isStopLine_format e

theorem takeWhile_all_eq {α : Type} (p : α → Bool) :
    ∀ (l : List α), (∀ x ∈ l, p x = true) → l.takeWhile p = l := by
  intro l
  induction l with
  | nil => intro _; rfl
  | cons x xs ih =>
    intro h
    rw [List.takeWhile_cons, h x (List.mem_cons_self _ _)]
    simp only [if_true]
    rw [ih (fun y hy => h y (List.mem_cons_of_mem _ hy))]

/- ### Assembling the serializer round trip -/

theorem splitLines_head (t : List Char) : ∃ r, splitLines t = headLine t :: r := by
  induction t with
  | nil => exact ⟨[], rfl⟩
  | cons c cs ih =>
    by_cases hc : c = '\n'
    · subst hc
      refine ⟨splitLines cs, ?_⟩
      show splitOnChar '\n' ('\n' :: cs) = headLine ('\n' :: cs) :: splitLines cs
      simp [splitOnChar, headLine, splitLines]
    · obtain ⟨r, hr⟩ := ih
      refine ⟨r, ?_⟩
      show splitOnChar '\n' (c :: cs) = headLine (c :: cs) :: r
      have h2 : headLine (c :: cs) = c :: headLine cs := by
        unfold headLine
        rw [List.takeWhile_cons]
        simp [hc]
      rw [h2]
      unfold splitOnChar
      rw [if_neg hc]
      rw [show splitOnChar '\n' cs = headLine cs :: r from hr]

theorem parseLines_stop_head (fe : EmojiLookup) (l : List Char) (rest : List (List Char))
    (st : ParseState) (h : isStopLine l = true) : parseLines fe (l :: rest) st = st := by
  simp [parseLines, h]

theorem parseLines_no_stop_append (fe : EmojiLookup) :
    ∀ (a b : List (List Char)) (st : ParseState), (∀ l ∈ a, isStopLine l = false) →
      parseLines fe (a ++ b) st = parseLines fe b (parseNoStop fe a st) := by
  intro a
  induction a with
  | nil => intro b st _; rfl
  | cons l ls ih =>
    intro b st h
    rw [List.cons_append]
    show parseLines fe (l :: (ls ++ b)) st = _
    rw [show parseLines fe (l :: (ls ++ b)) st =
      if isStopLine l then st else parseLines fe (ls ++ b) (parseStepCore fe st l) from rfl]
    rw [h l (List.mem_cons_self _ _)]
    simp only [Bool.false_eq_true, if_false]
    exact ih b (parseStepCore fe st l) (fun x hx => h x (List.mem_cons_of_mem _ hx))

theorem parseLines_all_no_stop (fe : EmojiLookup) (a : List (List Char)) (st : ParseState)
    (h : ∀ l ∈ a, isStopLine l = false) : parseLines fe a st = parseNoStop fe a st := by
  have := parseLines_no_stop_append fe a [] st h
  rw [List.append_nil] at this
  exact this

theorem writeLines_cons_ne_nil (s0 : PrioritySection) (rest : List PrioritySection) :
    writeLines (s0 :: rest) ≠ [] := by
  unfold writeLines sectionLines
  rw [List.map_cons, List.flatten_cons]
  simp

theorem parseSections_roundtrip (fe : EmojiLookup) (secs : List PrioritySection)
    (hWF : WFsections fe secs) (suffix : List Char)
    (hsuf : suffix = [] ∨ ∃ t, suffix = '\n' :: t ∧ isStopLine (headLine t) = true) :
    parseSections fe (joinLines (writeLines secs) ++ suffix) = secs := by
  have hnl := writeLines_no_newline fe secs hWF
  have hns := writeLines_no_stop secs
  cases secs with
  | nil =>
    rcases hsuf with h | ⟨t, ht, hstop⟩
    · rw [h]
      rfl
    · rw [ht]
      show parseSections fe (([] : List Char) ++ '\n' :: t) = []
      unfold parseSections
      have h1 : splitLines (([] : List Char) ++ '\n' :: t) = [] :: splitLines t :=
        splitLines_append_newline [] t (by simp)
      rw [h1]
      rw [show parseLines fe ([] :: splitLines t) initState =
        parseLines fe (splitLines t) initState from by
          simp [parseLines, isStopLine_empty, parseStepCore_empty]]
      obtain ⟨r, hr⟩ := splitLines_head t
      rw [hr, parseLines_stop_head fe _ r initState hstop]
      rfl
  | cons s0 rest =>
    have hlsne : writeLines (s0 :: rest) ≠ [] := writeLines_cons_ne_nil s0 rest
    rcases hsuf with h | ⟨t, ht, hstop⟩
    · rw [h, List.append_nil]
      unfold parseSections
      rw [splitLines_joinLines _ hnl hlsne]
      rw [parseLines_all_no_stop fe _ initState hns]
      rw [(allRun fe (s0 :: rest) hWF initState).1]
      rfl
    · rw [ht]
      unfold parseSections
      rw [splitLines_join_append _ t hnl hlsne]
      rw [parseLines_no_stop_append fe _ (splitLines t) initState hns]
      obtain ⟨r, hr⟩ := splitLines_head t
      rw [hr, parseLines_stop_head fe _ r _ hstop]
      rw [(allRun fe (s0 :: rest) hWF initState).1]
      rfl

/- ### The found set tracks the parsed document -/

theorem allFound_append (a b : List PrioritySection) :
    allFound (a ++ b) = allFound a ++ allFound b := by
  unfold allFound
  rw [List.map_append, List.flatten_append]

theorem parseStepCore_found (fe : EmojiLookup) (st : ParseState) (line : List Char)
    (h : st.found = allFound (finalizeParse st)) :
    (parseStepCore fe st line).found =
      allFound (finalizeParse (parseStepCore fe st line)) := by
  obtain ⟨closed, cur, curSub, found⟩ := st
  have h' : found = allFound (closed ++ closeCur cur curSub) := h
  unfold parseStepCore
  cases hsec : matchSectionHeader line with
  | some n =>
    show found = allFound ((closed ++ closeCur cur curSub) ++
      closeCur (some (n, [])) none)
    rw [allFound_append, ← h']
    simp [closeCur, flushSub, allFound, secFound]
  | none =>
    cases hsub : matchSubsectionHeader line with
    | some n =>
      cases cur with
      | none => exact h
      | some p =>
        obtain ⟨nm, items⟩ := p
        show found = allFound (closed ++
          closeCur (some (nm, items ++ flushSub curSub)) (some ⟨n, []⟩))
        rw [h']
        simp [closeCur, flushSub, allFound_append, allFound, secFound,
          itemFound, List.map_append, List.flatten_append]
    | none =>
      cases hle : lineEntry fe line with
      | none =>
        cases cur with
        | none => exact h
        | some p => exact h
      | some e =>
        cases cur with
        | none => exact h
        | some p =>
          obtain ⟨nm, items⟩ := p
          cases curSub with
          | none =>
            show found ++ [e.projectName] = allFound (closed ++
              closeCur (some (nm, items ++ [.entryItem e])) none)
            rw [h']
            simp [closeCur, flushSub, allFound_append, allFound, secFound,
              itemFound, List.map_append, List.flatten_append]
          | some s =>
            show found ++ [e.projectName] = allFound (closed ++
              closeCur (some (nm, items)) (some ⟨s.name, s.entries ++ [e]⟩))
            rw [h']
            simp [closeCur, flushSub, allFound_append, allFound, secFound,
              itemFound, List.map_append, List.flatten_append]

theorem parseLines_found (fe : EmojiLookup) :
    ∀ (ls : List (List Char)) (st : ParseState),
      st.found = allFound (finalizeParse st) →
      (parseLines fe ls st).found = allFound (finalizeParse (parseLines fe ls st)) := by
  intro ls
  induction ls with
  | nil => intro st h; exact h
  | cons l rest ih =>
    intro st h
    rw [show parseLines fe (l :: rest) st =
      if isStopLine l then st else parseLines fe rest (parseStepCore fe st l) from rfl]
    by_cases hl : isStopLine l = true
    · rw [hl]
      simpa using h
    · rw [Bool.not_eq_true] at hl
      rw [hl]
      simp only [Bool.false_eq_true, if_false]
      exact ih (parseStepCore fe st l) (parseStepCore_found fe st l h)

theorem parseFound_eq (fe : EmojiLookup) (text : List Char) :
    parseFound fe text = allFound (parseSections fe text) := by
  unfold parseFound parseSections
  exact parseLines_found fe (splitLines text) initState rfl

/-- Claim C1, amended: under a tame emoji lookup, and whenever the first
occurrence of a newline followed by three dashes in the original text (if
any) begins a line whose trimmed content is the three-dash delimiter,
serializing the parsed document against the original text and re-parsing
the result yields exactly the same parsed data: the same sections,
subsections and entries in the same order, and the same unlisted set. -/
theorem parse_write_roundtrip (fe : EmojiLookup) (tagged : List (List Char))
    (text : List Char) (hfe : TameLookup fe)
    (hsuf : suffixFrom text = [] ∨
      ∃ t, suffixFrom text = '\n' :: t ∧ isStopLine (headLine t) = true) :
    parsePrioritiesFile fe tagged
        (writePrioritiesFile (parsePrioritiesFile fe tagged text) text) =
      parsePrioritiesFile fe tagged text := by
  set W := writePrioritiesFile (parsePrioritiesFile fe tagged text) text with hW
  have hsecs : parseSections fe W = parseSections fe text := by
    rw [hW]
    show parseSections fe
      (joinLines (writeLines (parseSections fe text)) ++ suffixFrom text) = _
    exact parseSections_roundtrip fe _ (parseSections_WF fe hfe text) _ hsuf
  have hfound : parseFound fe W = parseFound fe text := by
    rw [parseFound_eq, parseFound_eq, hsecs]
  unfold parsePrioritiesFile
  rw [hsecs, hfound]

/-- Claim C1, counterexample to the claim as stated: a text whose trailing
region starts with a line that trims to the delimiter but does not begin
one (three dashes followed by a letter).  The serializer re-emits the
modeled region and appends the trailing region verbatim; on re-parse the
scanner does not stop at the `---x` line and parses the trailing copy of
the section again, duplicating it. -/
theorem parse_write_roundtrip_counterexample :
    parsePrioritiesFile emptyLookup []
        (writePrioritiesFile
          (parsePrioritiesFile emptyLookup [] "a\n---x\n## T\n- [[B]]".data)
          "a\n---x\n## T\n- [[B]]".data) ≠
      parsePrioritiesFile emptyLookup [] "a\n---x\n## T\n- [[B]]".data := by
  decide

theorem parse_write_roundtrip_witness :
    TameLookup emptyLookup ∧
    parsePrioritiesFile emptyLookup ["Gamma".data]
        (writePrioritiesFile
          (parsePrioritiesFile emptyLookup ["Gamma".data]
            "## Active\n- [[Alpha]]\n\n---\nnotes".data)
          "## Active\n- [[Alpha]]\n\n---\nnotes".data) =
      parsePrioritiesFile emptyLookup ["Gamma".data]
        "## Active\n- [[Alpha]]\n\n---\nnotes".data :=
  ⟨(fun pn v h => nomatch h),
    parse_write_roundtrip emptyLookup ["Gamma".data]
      "## Active\n- [[Alpha]]\n\n---\nnotes".data (fun pn v h => nomatch h)
      (Or.inr ⟨"---\nnotes".data, by decide, by decide⟩)⟩

/- ### Newline-collapse analysis (for claims C6 and C3) -/

/-- No run of more than two newlines, with `k` newlines already pending. -/
def noTripleAux : Nat → List Char → Bool
  | k, [] => decide (k ≤ 2)
  | k, '\n' :: r => noTripleAux (k + 1) r
  | k, c :: r => (decide (k ≤ 2) && noTripleAux 0 r) || (decide (c = '\n') && false)

/-- The nonempty lines, i.e. the lines the parser can act on. -/
def filterNE (ls : List (List Char)) : List (List Char) :=
  ls.filter (fun x => x ≠ [])

theorem collapseNlAux_newline (k : Nat) (r : List Char) :
    collapseNlAux k ('\n' :: r) = collapseNlAux (k + 1) r := rfl

theorem collapseNlAux_other (k : Nat) (c : Char) (r : List Char) (hc : c ≠ '\n') :
    collapseNlAux k (c :: r) =
      List.replicate (min k 2) '\n' ++ c :: collapseNlAux 0 r := by
  simp [collapseNlAux, hc]

theorem noTripleAux_newline (k : Nat) (r : List Char) :
    noTripleAux k ('\n' :: r) = noTripleAux (k + 1) r := rfl

theorem noTripleAux_other (k : Nat) (c : Char) (r : List Char) (hc : c ≠ '\n') :
    noTripleAux k (c :: r) = (decide (k ≤ 2) && noTripleAux 0 r) := by
  simp [noTripleAux, hc]

theorem noTripleAux_replicate (m : Nat) :
    ∀ (j : Nat) (y : List Char),
      noTripleAux j (List.replicate m '\n' ++ y) = noTripleAux (j + m) y := by
  induction m with
  | zero => intro j y; rfl
  | succ m ih =>
    intro j y
    rw [List.replicate_succ, List.cons_append, noTripleAux_newline, ih]
    congr 1
    omega

theorem collapseNlAux_noTriple (l : List Char) :
    ∀ k, noTripleAux k l = true → collapseNlAux k l = List.replicate k '\n' ++ l := by
  induction l with
  | nil =>
    intro k h
    show List.replicate (min k 2) '\n' = List.replicate k '\n' ++ []
    have hk : k ≤ 2 := by
      have : decide (k ≤ 2) = true := h
      exact of_decide_eq_true this
    rw [Nat.min_eq_left hk, List.append_nil]
  | cons c r ih =>
    intro k h
    by_cases hc : c = '\n'
    · subst hc
      rw [collapseNlAux_newline]
      rw [noTripleAux_newline] at h
      rw [ih (k + 1) h]
      rw [List.replicate_succ' k '\n']
      simp
    · rw [collapseNlAux_other k c r hc]
      rw [noTripleAux_other k c r hc] at h
      simp only [Bool.and_eq_true, decide_eq_true_eq] at h
      rw [Nat.min_eq_left h.1, ih 0 h.2]
      rfl

theorem collapseNlAux_output_noTriple (l : List Char) :
    ∀ k, noTripleAux 0 (collapseNlAux k l) = true := by
  induction l with
  | nil =>
    intro k
    show noTripleAux 0 (List.replicate (min k 2) '\n') = true
    rw [show List.replicate (min k 2) '\n' =
      List.replicate (min k 2) '\n' ++ [] from (List.append_nil _).symm]
    rw [noTripleAux_replicate]
    show decide (0 + min k 2 ≤ 2) = true
    rw [decide_eq_true_eq]
    omega
  | cons c r ih =>
    intro k
    by_cases hc : c = '\n'
    · subst hc
      rw [collapseNlAux_newline]
      exact ih (k + 1)
    · rw [collapseNlAux_other k c r hc]
      rw [noTripleAux_replicate]
      rw [noTripleAux_other _ c _ hc]
      simp only [Bool.and_eq_true, decide_eq_true_eq]
      exact ⟨by omega, ih 0⟩

theorem collapseNewlines_idem (x : List Char) :
    collapseNewlines (collapseNewlines x) = collapseNewlines x := by
  unfold collapseNewlines
  rw [collapseNlAux_noTriple (collapseNlAux 0 x) 0 (collapseNlAux_output_noTriple x 0)]
  rfl

theorem splitLines_replicate_newline (m : Nat) :
    ∀ y, splitLines (List.replicate m '\n' ++ y) =
      List.replicate m [] ++ splitLines y := by
  induction m with
  | zero => intro y; rfl
  | succ m ih =>
    intro y
    rw [List.replicate_succ, List.cons_append]
    show splitOnChar '\n' ('\n' :: (List.replicate m '\n' ++ y)) = _
    unfold splitOnChar
    rw [if_pos rfl]
    rw [show splitOnChar '\n' (List.replicate m '\n' ++ y) =
      List.replicate m [] ++ splitLines y from ih y]
    rw [List.replicate_succ]
    rfl

theorem filterNE_replicate_nil (m : Nat) :
    ∀ (ls : List (List Char)), filterNE (List.replicate m [] ++ ls) = filterNE ls := by
  induction m with
  | zero => intro ls; rfl
  | succ m ih =>
    intro ls
    rw [List.replicate_succ, List.cons_append]
    unfold filterNE
    rw [List.filter_cons_of_neg (by simp)]
    exact ih ls

theorem filterNE_cons_nil (ls : List (List Char)) : filterNE ([] :: ls) = filterNE ls := by
  unfold filterNE
  rw [List.filter_cons_of_neg (by simp)]

theorem filterNE_cons_ne (l : List Char) (ls : List (List Char)) (h : l ≠ []) :
    filterNE (l :: ls) = l :: filterNE ls := by
  unfold filterNE
  rw [List.filter_cons_of_pos (by simp [h])]

theorem splitLines_cons_ne (c : Char) (y : List Char) (hc : c ≠ '\n')
    (L : List Char) (tl : List (List Char)) (hsp : splitLines y = L :: tl) :
    splitLines (c :: y) = (c :: L) :: tl := by
  show splitOnChar '\n' (c :: y) = _
  unfold splitOnChar
  rw [if_neg hc]
  rw [show splitOnChar '\n' y = L :: tl from hsp]

theorem collapseNlAux_pos_head (r : List Char) :
    ∀ k, collapseNlAux (k + 1) r = [] ∨
      ∃ t, collapseNlAux (k + 1) r = '\n' :: t := by
  induction r with
  | nil =>
    intro k
    right
    show ∃ t, List.replicate (min (k + 1) 2) '\n' = '\n' :: t
    have h1 : min (k + 1) 2 = Nat.succ (min k 1) := by omega
    rw [h1, List.replicate_succ]
    exact ⟨_, rfl⟩
  | cons c cs ih =>
    intro k
    by_cases hc : c = '\n'
    · subst hc
      rw [collapseNlAux_newline]
      exact ih (k + 1)
    · rw [collapseNlAux_other _ c _ hc]
      right
      have h1 : min (k + 1) 2 = Nat.succ (min k 1) := by omega
      rw [h1, List.replicate_succ]
      exact ⟨_, rfl⟩

theorem collapse_lines_headline (l : List Char) :
    (∀ k, filterNE (splitLines (collapseNlAux k l)) = filterNE (splitLines l)) ∧
    headLine (collapseNlAux 0 l) = headLine l := by
  induction l with
  | nil =>
    constructor
    · intro k
      show filterNE (splitLines (List.replicate (min k 2) '\n')) = filterNE (splitLines [])
      rw [show List.replicate (min k 2) '\n' =
        List.replicate (min k 2) '\n' ++ [] from (List.append_nil _).symm]
      rw [splitLines_replicate_newline]
      rw [filterNE_replicate_nil]
    · rfl
  | cons c r ih =>
    by_cases hc : c = '\n'
    · subst hc
      constructor
      · intro k
        rw [collapseNlAux_newline, ih.1 (k + 1)]
        rw [show splitLines ('\n' :: r) = [] :: splitLines r from rfl]
        rw [filterNE_cons_nil]
      · rw [collapseNlAux_newline]
        rcases collapseNlAux_pos_head r 0 with h | ⟨t, ht⟩
        · rw [h]; rfl
        · rw [ht]; rfl
    · obtain ⟨tl, hsp⟩ := splitLines_head (collapseNlAux 0 r)
      obtain ⟨tl2, hsp2⟩ := splitLines_head r
      have hhd : headLine (collapseNlAux 0 r) = headLine r := ih.2
      have htl : filterNE tl = filterNE tl2 := by
        have h1 : filterNE (splitLines (collapseNlAux 0 r)) = filterNE (splitLines r) :=
          ih.1 0
        rw [hsp, hsp2, hhd] at h1
        by_cases hne : headLine r = []
        · rw [hne, filterNE_cons_nil, filterNE_cons_nil] at h1
          exact h1
        · rw [filterNE_cons_ne _ _ hne, filterNE_cons_ne _ _ hne] at h1
          exact List.tail_eq_of_cons_eq h1
      constructor
      · intro k
        rw [collapseNlAux_other k c r hc]
        rw [splitLines_replicate_newline]
        rw [filterNE_replicate_nil]
        rw [splitLines_cons_ne c _ hc _ tl hsp]
        rw [splitLines_cons_ne c r hc _ tl2 hsp2]
        rw [filterNE_cons_ne _ _ (by simp), filterNE_cons_ne _ _ (by simp)]
        rw [hhd, htl]
      · rw [collapseNlAux_other 0 c r hc]
        show headLine (c :: collapseNlAux 0 r) = headLine (c :: r)
        unfold headLine
        rw [List.takeWhile_cons, List.takeWhile_cons]
        simp only [hc, ne_eq, not_false_eq_true, decide_True, if_true]
        rw [show (collapseNlAux 0 r).takeWhile (· ≠ '\n') =
          headLine (collapseNlAux 0 r) from rfl]
        rw [show r.takeWhile (· ≠ '\n') = headLine r from rfl]
        rw [hhd]

theorem filterNE_collapse (x : List Char) :
    filterNE (splitLines (collapseNewlines x)) = filterNE (splitLines x) :=
  (collapse_lines_headline x).1 0

/- ### Link-line lemmas -/

theorem lineHasLink_nil (pn : List Char) : lineHasLink pn [] = false := rfl

theorem containsSub_head_mem (c : Char) (cs : List Char) :
    ∀ l, containsSub (c :: cs) l = true → c ∈ l := by
  intro l
  induction l with
  | nil => intro h; cases h
  | cons x xs ih =>
    intro h
    rw [containsSub_cons] at h
    rcases Bool.or_eq_true_iff.mp h with h1 | h1
    · simp only [startsWith, Bool.and_eq_true, decide_eq_true_eq] at h1
      rw [h1.1]
      exact List.mem_cons_self _ _
    · exact List.mem_cons_of_mem _ (ih h1)

theorem hasAliasLink_bracket (pn : List Char) :
    ∀ l, hasAliasLink pn l = true → '[' ∈ l := by
  intro l
  induction l with
  | nil => intro h; cases h
  | cons x xs ih =>
    intro h
    rw [show hasAliasLink pn (x :: xs) =
      ((startsWith ('[' :: '[' :: (pn ++ ['|'])) (x :: xs) &&
        aliasTailOk ((x :: xs).drop (pn.length + 3))) || hasAliasLink pn xs) from rfl] at h
    rcases Bool.or_eq_true_iff.mp h with h1 | h1
    · rw [Bool.and_eq_true] at h1
      have h2 := h1.1
      simp only [startsWith, Bool.and_eq_true, decide_eq_true_eq] at h2
      rw [h2.1]
      exact List.mem_cons_self _ _
    · exact List.mem_cons_of_mem _ (ih h1)

theorem lineHasLink_no_bracket (pn l : List Char) (h : '[' ∉ l) :
    lineHasLink pn l = false := by
  cases hA : hasPlainLink pn l with
  | true =>
    have hA' : containsSub ('[' :: '[' :: (pn ++ [']', ']'])) l = true := hA
    exact absurd (containsSub_head_mem '[' _ l hA') h
  | false =>
    cases hB : hasAliasLink pn l with
    | true => exact absurd (hasAliasLink_bracket pn l hB) h
    | false =>
      unfold lineHasLink
      rw [hA, hB]
      rfl

theorem startsWith_self : ∀ (p : List Char), startsWith p p = true := by
  intro p
  induction p with
  | nil => rfl
  | cons c cs ih => simp [startsWith, ih]

theorem containsSub_of_startsWith (pat l : List Char) (h : startsWith pat l = true) :
    containsSub pat l = true := by
  cases l with
  | nil => exact h
  | cons x xs =>
    rw [containsSub_cons, h]
    rfl

theorem lineHasLink_newEntry (pn : List Char) :
    lineHasLink pn ('-' :: ' ' :: ('[' :: '[' :: (pn ++ [']', ']']))) = true := by
  unfold lineHasLink
  have hp : hasPlainLink pn ('-' :: ' ' :: ('[' :: '[' :: (pn ++ [']', ']']))) = true := by
    show containsSub ('[' :: '[' :: (pn ++ [']', ']']))
      (['-', ' '] ++ ('[' :: '[' :: (pn ++ [']', ']']))) = true
    exact containsSub_append_right _ _ _
      (containsSub_of_startsWith _ _ (startsWith_self _))
  rw [hp]
  rfl

theorem blankLink_of_no_link (pn l : List Char) (h : lineHasLink pn l = false) :
    blankLink pn l = l := by
  unfold blankLink
  rw [h]
  rfl

theorem blankLink_of_link (pn l : List Char) (h : lineHasLink pn l = true) :
    blankLink pn l = [] := by
  unfold blankLink
  rw [h]
  rfl

theorem map_blankLink_no_link (pn : List Char) (ls : List (List Char))
    (h : ∀ l ∈ ls, lineHasLink pn l = false) : ls.map (blankLink pn) = ls := by
  induction ls with
  | nil => rfl
  | cons l rest ih =>
    rw [List.map_cons, blankLink_of_no_link pn l (h l (List.mem_cons_self _ _)),
      ih (fun x hx => h x (List.mem_cons_of_mem _ hx))]

theorem blankLink_mem_no_link (pn : List Char) (ls : List (List Char)) (l : List Char)
    (hl : l ∈ ls.map (blankLink pn)) (hne : l ≠ []) : lineHasLink pn l = false := by
  rw [List.mem_map] at hl
  obtain ⟨x, _, hx⟩ := hl
  by_cases hlk : lineHasLink pn x = true
  · rw [blankLink_of_link pn x hlk] at hx
    exact absurd hx.symm hne
  · rw [Bool.not_eq_true] at hlk
    rw [blankLink_of_no_link pn x hlk] at hx
    rw [← hx]
    exact hlk

theorem find?_append_cons {α : Type} (p : α → Bool) :
    ∀ (A : List α) (x : α) (B : List α), (∀ a ∈ A, p a = false) → p x = true →
      (A ++ x :: B).find? p = some x := by
  intro A
  induction A with
  | nil =>
    intro x B _ hx
    rw [List.nil_append, List.find?_cons_of_pos _ hx]
  | cons a as ih =>
    intro x B hA hx
    rw [List.cons_append, List.find?_cons_of_neg]
    · exact ih x B (fun y hy => hA y (List.mem_cons_of_mem _ hy)) hx
    · rw [hA a (List.mem_cons_self _ _)]
      simp

theorem first_split_unique {α : Type} (h : α) :
    ∀ (P1 P2 Q1 Q2 : List α), h ∉ P1 → h ∉ P2 → P1 ++ h :: Q1 = P2 ++ h :: Q2 →
      P1 = P2 ∧ Q1 = Q2 := by
  intro P1
  induction P1 with
  | nil =>
    intro P2 Q1 Q2 _ hP2 heq
    cases P2 with
    | nil =>
      rw [List.nil_append, List.nil_append] at heq
      injection heq with _ h2
      exact ⟨rfl, h2⟩
    | cons p ps =>
      rw [List.nil_append, List.cons_append] at heq
      injection heq with h1 _
      exact absurd (h1 ▸ List.mem_cons_self p ps) hP2
  | cons p ps ih =>
    intro P2 Q1 Q2 hP1 hP2 heq
    cases P2 with
    | nil =>
      rw [List.nil_append, List.cons_append] at heq
      injection heq with h1 _
      exact ((hP1 (by rw [h1]; exact List.mem_cons_self _ _)).elim)
    | cons q qs =>
      rw [List.cons_append, List.cons_append] at heq
      injection heq with h1 h2
      obtain ⟨hl, hr⟩ := ih qs Q1 Q2 (fun hm => hP1 (List.mem_cons_of_mem _ hm))
        (fun hm => hP2 (List.mem_cons_of_mem _ hm)) h2
      exact ⟨by rw [h1, hl], hr⟩

theorem parseLines_filterNE (fe : EmojiLookup) :
    ∀ (ls : List (List Char)) (st : ParseState),
      parseLines fe ls st = parseLines fe (filterNE ls) st := by
  intro ls
  induction ls with
  | nil => intro st; rfl
  | cons l rest ih =>
    intro st
    by_cases hl : l = []
    · subst hl
      rw [filterNE_cons_nil]
      rw [show parseLines fe ([] :: rest) st =
        if isStopLine [] then st
        else parseLines fe rest (parseStepCore fe st []) from rfl]
      rw [isStopLine_empty]
      simp only [Bool.false_eq_true, if_false]
      rw [parseStepCore_empty]
      exact ih st
    · rw [filterNE_cons_ne l rest hl]
      rw [show parseLines fe (l :: rest) st =
        if isStopLine l then st
        else parseLines fe rest (parseStepCore fe st l) from rfl]
      rw [show parseLines fe (l :: filterNE rest) st =
        if isStopLine l then st
        else parseLines fe (filterNE rest) (parseStepCore fe st l) from rfl]
      by_cases hs : isStopLine l = true
      · rw [hs]
        rfl
      · rw [Bool.not_eq_true] at hs
        rw [hs]
        simp only [Bool.false_eq_true, if_false]
        exact ih _

theorem mem_takeWhile_ne (h : List Char) :
    ∀ (ls : List (List Char)) (y : List Char),
      y ∈ ls.takeWhile (fun x => x ≠ h) → y ≠ h := by
  intro ls
  induction ls with
  | nil => intro y hy; cases hy
  | cons a as ih =>
    intro y hy
    rw [List.takeWhile_cons] at hy
    by_cases ha : a = h
    · simp only [ha, ne_eq, not_true_eq_false, decide_False, Bool.false_eq_true, if_false] at hy
      cases hy
    · simp only [ne_eq, ha, not_false_eq_true, decide_True, if_true] at hy
      rcases List.mem_cons.mp hy with h1 | h1
      · rw [h1]; exact ha
      · exact ih y h1

theorem dropWhile_ne_cons (h : List Char) (ls : List (List Char)) (hm : h ∈ ls) :
    ls.dropWhile (fun x => x ≠ h) = h :: (ls.dropWhile (fun x => x ≠ h)).tail := by
  cases hd : ls.dropWhile (fun x => x ≠ h) with
  | nil =>
    exfalso
    have := List.dropWhile_eq_nil_iff.mp hd h hm
    simp at this
  | cons x xs =>
    have := dropWhile_head_false (fun x => x ≠ h) ls x xs hd
    simp only [ne_eq, decide_eq_false_iff_not, not_not] at this
    rw [this]
    rfl

/- ### Status-section facts and the move-shape lemma -/

theorem getStatusSection_props (s T : List Char) (h : getStatusSection s = some T) :
    '[' ∉ T ∧ '\n' ∉ T ∧ T ≠ [] ∧ T.all dotOk = true := by
  unfold getStatusSection at h
  split at h
  · injection h with h1
    rw [← h1]
    refine ⟨by decide, by decide, by decide, by decide⟩
  · split at h
    · injection h with h1
      rw [← h1]
      refine ⟨by decide, by decide, by decide, by decide⟩
    · split at h
      · injection h with h1
        rw [← h1]
        refine ⟨by decide, by decide, by decide, by decide⟩
      · split at h
        · injection h with h1
          rw [← h1]
          refine ⟨by decide, by decide, by decide, by decide⟩
        · cases h

theorem headerLine_ne_nil (T : List Char) : headerLine T ≠ [] := by
  unfold headerLine
  simp

theorem headerLine_no_newline (T : List Char) (h : '\n' ∉ T) : '\n' ∉ headerLine T := by
  unfold headerLine
  intro hm
  rcases List.mem_cons.mp hm with h1 | h1
  · exact absurd h1 (by decide)
  · rcases List.mem_cons.mp h1 with h2 | h2
    · exact absurd h2 (by decide)
    · rcases List.mem_cons.mp h2 with h3 | h3
      · exact absurd h3 (by decide)
      · exact h h3

theorem headerLine_no_bracket (T : List Char) (h : '[' ∉ T) : '[' ∉ headerLine T := by
  unfold headerLine
  intro hm
  rcases List.mem_cons.mp hm with h1 | h1
  · exact absurd h1 (by decide)
  · rcases List.mem_cons.mp h1 with h2 | h2
    · exact absurd h2 (by decide)
    · rcases List.mem_cons.mp h2 with h3 | h3
      · exact absurd h3 (by decide)
      · exact h h3

theorem mem_map_blankLink (pn : List Char) (ls : List (List Char)) (l : List Char)
    (h : l ∈ ls.map (blankLink pn)) : l = [] ∨ l ∈ ls := by
  rw [List.mem_map] at h
  obtain ⟨x, hx, hbl⟩ := h
  by_cases hlk : lineHasLink pn x = true
  · rw [blankLink_of_link pn x hlk] at hbl
    exact Or.inl hbl.symm
  · rw [Bool.not_eq_true] at hlk
    rw [blankLink_of_no_link pn x hlk] at hbl
    exact Or.inr (hbl ▸ hx)

theorem contains_iff_mem (ls : List (List Char)) (a : List Char) :
    ls.contains a = true ↔ a ∈ ls := by
  induction ls with
  | nil => simp
  | cons x xs ih => simp

theorem mem_dropWhile_tail {α : Type} (p : α → Bool) :
    ∀ (ls : List α) (y : α), y ∈ (ls.dropWhile p).tail → y ∈ ls := by
  intro ls
  induction ls with
  | nil => intro y hy; cases hy
  | cons a as ih =>
    intro y hy
    rw [List.dropWhile_cons] at hy
    by_cases ha : p a = true
    · rw [ha] at hy
      simp only [if_true] at hy
      exact List.mem_cons_of_mem _ (ih y hy)
    · rw [Bool.not_eq_true] at ha
      rw [ha] at hy
      simp only [Bool.false_eq_true, if_false, List.tail_cons] at hy
      exact List.mem_cons_of_mem _ hy

theorem mem_filterNE (ls : List (List Char)) (l : List Char) (h : l ∈ filterNE ls) :
    l ∈ ls :=
  List.mem_of_mem_filter h

theorem filterNE_mem (ls : List (List Char)) (l : List Char) (hl : l ∈ ls)
    (hne : l ≠ []) : l ∈ filterNE ls := by
  unfold filterNE
  rw [List.mem_filter]
  exact ⟨hl, by simp [hne]⟩

theorem removeFromPriorities_lines (pn content : List Char) :
    filterNE (splitLines (removeFromPriorities pn content)) =
      filterNE ((splitLines content).map (blankLink pn)) := by
  unfold removeFromPriorities
  rw [filterNE_collapse]
  rw [splitLines_joinLines]
  · intro l hl
    rcases mem_map_blankLink pn _ l hl with h | h
    · rw [h]
      exact List.not_mem_nil _
    · exact splitLines_no_newline content l h
  · intro hc
    exact splitLines_ne_nil content (List.map_eq_nil_iff.mp hc)

theorem removeFromPriorities_no_link (pn content : List Char) :
    ∀ l ∈ splitLines (removeFromPriorities pn content), lineHasLink pn l = false := by
  intro l hl
  by_cases hne : l = []
  · rw [hne]
    exact lineHasLink_nil pn
  · have h1 : l ∈ filterNE (splitLines (removeFromPriorities pn content)) :=
      filterNE_mem _ l hl hne
    rw [removeFromPriorities_lines pn content] at h1
    exact blankLink_mem_no_link pn _ l (mem_filterNE _ l h1) hne

theorem moveProject_shape (pn T content x : List Char)
    (hfind : (splitLines content).find? (lineHasLink pn) = some x)
    (hhdr : headerLine T ∈ splitLines content)
    (hbr : '[' ∉ T) :
    ∃ A B : List (List Char),
      splitLines (moveProjectInPriorities pn T content) =
        A ++ headerLine T :: x :: B ∧
      headerLine T ∉ A ∧
      (∀ l ∈ A, lineHasLink pn l = false) ∧
      (∀ l ∈ B, lineHasLink pn l = false) ∧
      filterNE A ++ headerLine T :: filterNE B =
        filterNE ((splitLines content).map (blankLink pn)) := by
  have hhl : lineHasLink pn (headerLine T) = false :=
    lineHasLink_no_bracket pn _ (headerLine_no_bracket T hbr)
  have hhne : headerLine T ≠ [] := headerLine_ne_nil T
  have hCL1ne : headerLine T ∈ splitLines (removeFromPriorities pn content) := by
    apply mem_filterNE
    rw [removeFromPriorities_lines pn content]
    apply filterNE_mem _ _ _ hhne
    rw [List.mem_map]
    exact ⟨headerLine T, hhdr, blankLink_of_no_link pn _ hhl⟩
  have hcont : (splitLines (removeFromPriorities pn content)).contains (headerLine T)
      = true := (contains_iff_mem _ _).mpr hCL1ne
  have hres : moveProjectInPriorities pn T content =
      joinLines (insertAfterFirst (headerLine T) x
        (splitLines (removeFromPriorities pn content))) := by
    unfold moveProjectInPriorities
    rw [hfind]
    show (if (splitLines (removeFromPriorities pn content)).contains (headerLine T) then
        joinLines (insertAfterFirst (headerLine T) x
          (splitLines (removeFromPriorities pn content)))
      else
        match lastIdxDashes (removeFromPriorities pn content) with
        | some i =>
          if i > 0 then
            (removeFromPriorities pn content).take i ++
              (headerLine T ++ '\n' :: x ++ ['\n', '\n']) ++
              (removeFromPriorities pn content).drop i
          else removeFromPriorities pn content ++
            ('\n' :: headerLine T ++ '\n' :: x ++ ['\n'])
        | none => removeFromPriorities pn content ++
            ('\n' :: headerLine T ++ '\n' :: x ++ ['\n'])) = _
    rw [if_pos hcont]
  refine ⟨(splitLines (removeFromPriorities pn content)).takeWhile
      (fun l => l ≠ headerLine T),
    ((splitLines (removeFromPriorities pn content)).dropWhile
      (fun l => l ≠ headerLine T)).tail, ?_, ?_, ?_, ?_, ?_⟩
  · rw [hres]
    unfold insertAfterFirst
    rw [splitLines_joinLines]
    · intro l hl
      rcases List.mem_append.mp hl with h1 | h1
      · have : l ∈ splitLines (removeFromPriorities pn content) :=
          mem_takeWhile_mem _ _ l h1
        exact splitLines_no_newline _ l this
      · rcases List.mem_cons.mp h1 with h2 | h2
        · rw [h2]
          exact headerLine_no_newline T (fun hm => by
            have := splitLines_no_newline content _ hhdr
            exact this (by
              unfold headerLine
              exact List.mem_cons_of_mem _ (List.mem_cons_of_mem _
                (List.mem_cons_of_mem _ hm))))
        · rcases List.mem_cons.mp h2 with h3 | h3
          · rw [h3]
            exact splitLines_no_newline content x (List.mem_of_find?_eq_some hfind)
          · exact splitLines_no_newline _ l (mem_dropWhile_tail _ _ l h3)
    · simp
  · intro hm
    exact (mem_takeWhile_ne (headerLine T) _ _ hm) rfl
  · intro l hl
    exact removeFromPriorities_no_link pn content l (mem_takeWhile_mem _ _ l hl)
  · intro l hl
    exact removeFromPriorities_no_link pn content l (mem_dropWhile_tail _ _ l hl)
  · rw [← filterNE_cons_ne _ _ hhne]
    unfold filterNE
    rw [← List.filter_append]
    rw [show (headerLine T ::
        ((splitLines (removeFromPriorities pn content)).dropWhile
          (fun l => l ≠ headerLine T)).tail) =
      (splitLines (removeFromPriorities pn content)).dropWhile
        (fun l => l ≠ headerLine T) from
      (dropWhile_ne_cons (headerLine T) _ hCL1ne).symm]
    rw [List.takeWhile_append_dropWhile]
    exact removeFromPriorities_lines pn content

theorem newEntry_no_newline (pn : List Char) (hpn : '\n' ∉ pn) :
    '\n' ∉ ('-' :: ' ' :: ('[' :: '[' :: (pn ++ [']', ']']))) := by
  intro hm
  rcases List.mem_cons.mp hm with h1 | h1
  · exact absurd h1 (by decide)
  rcases List.mem_cons.mp h1 with h2 | h2
  · exact absurd h2 (by decide)
  rcases List.mem_cons.mp h2 with h3 | h3
  · exact absurd h3 (by decide)
  rcases List.mem_cons.mp h3 with h4 | h4
  · exact absurd h4 (by decide)
  rcases List.mem_append.mp h4 with h5 | h5
  · exact hpn h5
  · rcases List.mem_cons.mp h5 with h6 | h6
    · exact absurd h6 (by decide)
    · rcases List.mem_singleton.mp h6 with h7
      exact absurd h7 (by decide)

theorem parsePrioritiesFile_state_eq (fe : EmojiLookup) (tagged : List (List Char))
    (X Y : List Char)
    (h : parseLines fe (splitLines X) initState = parseLines fe (splitLines Y) initState) :
    parsePrioritiesFile fe tagged X = parsePrioritiesFile fe tagged Y := by
  unfold parsePrioritiesFile parseSections parseFound
  rw [h]

theorem move_idem_core (fe : EmojiLookup) (pn T : List Char)
    (A B : List (List Char)) (x : List Char)
    (hnlA : ∀ l ∈ A, '\n' ∉ l) (hnlB : ∀ l ∈ B, '\n' ∉ l)
    (hnlx : '\n' ∉ x) (hnlh : '\n' ∉ headerLine T)
    (hAnol : ∀ l ∈ A, lineHasLink pn l = false)
    (hBnol : ∀ l ∈ B, lineHasLink pn l = false)
    (hxl : lineHasLink pn x = true)
    (hAnh : headerLine T ∉ A)
    (hbr : '[' ∉ T) :
    parseLines fe (splitLines (moveProjectInPriorities pn T
        (joinLines (A ++ headerLine T :: x :: B)))) initState =
      parseLines fe (A ++ headerLine T :: x :: B) initState := by
  have hhl : lineHasLink pn (headerLine T) = false :=
    lineHasLink_no_bracket pn _ (headerLine_no_bracket T hbr)
  have hxne : x ≠ [] := by
    intro hx
    rw [hx, lineHasLink_nil] at hxl
    cases hxl
  have hnlall : ∀ l ∈ A ++ headerLine T :: x :: B, '\n' ∉ l := by
    intro l hl
    rcases List.mem_append.mp hl with h1 | h1
    · exact hnlA l h1
    rcases List.mem_cons.mp h1 with h2 | h2
    · rw [h2]; exact hnlh
    rcases List.mem_cons.mp h2 with h3 | h3
    · rw [h3]; exact hnlx
    · exact hnlB l h3
  have hsp1 : splitLines (joinLines (A ++ headerLine T :: x :: B)) =
      A ++ headerLine T :: x :: B :=
    splitLines_joinLines _ hnlall (by simp)
  have hfind1 : (splitLines (joinLines (A ++ headerLine T :: x :: B))).find?
      (lineHasLink pn) = some x := by
    rw [hsp1, List.append_cons A (headerLine T)]
    apply find?_append_cons
    · intro a ha
      rcases List.mem_append.mp ha with h1 | h1
      · exact hAnol a h1
      · rcases List.mem_singleton.mp h1 with h2
        rw [h2]
        exact hhl
    · exact hxl
  have hhdr1 : headerLine T ∈ splitLines (joinLines (A ++ headerLine T :: x :: B)) := by
    rw [hsp1]
    exact List.mem_append_right _ (List.mem_cons_self _ _)
  obtain ⟨A2, B2, hsplit2, hA2nh, _, _, hfilter2⟩ :=
    moveProject_shape pn T (joinLines (A ++ headerLine T :: x :: B)) x hfind1 hhdr1 hbr
  have hblank : (splitLines (joinLines (A ++ headerLine T :: x :: B))).map
      (blankLink pn) = A ++ headerLine T :: [] :: B := by
    rw [hsp1, List.map_append, List.map_cons, List.map_cons]
    rw [map_blankLink_no_link pn A hAnol, map_blankLink_no_link pn B hBnol]
    rw [blankLink_of_no_link pn _ hhl, blankLink_of_link pn x hxl]
  have hfileq : filterNE A2 ++ headerLine T :: filterNE B2 =
      filterNE A ++ headerLine T :: filterNE B := by
    rw [hfilter2, hblank]
    unfold filterNE
    rw [List.filter_append]
    rw [show List.filter (fun x => decide (x ≠ [])) (headerLine T :: [] :: B) =
      headerLine T :: List.filter (fun x => decide (x ≠ [])) B from by
        rw [List.filter_cons_of_pos (by simp [headerLine_ne_nil T]),
          List.filter_cons_of_neg (by simp)]]
  have hsplitu := first_split_unique (headerLine T) (filterNE A2) (filterNE A)
    (filterNE B2) (filterNE B)
    (fun hm => hA2nh (mem_filterNE _ _ hm))
    (fun hm => hAnh (mem_filterNE _ _ hm)) hfileq
  rw [hsplit2]
  rw [parseLines_filterNE fe (A2 ++ headerLine T :: x :: B2)]
  rw [parseLines_filterNE fe (A ++ headerLine T :: x :: B)]
  have hd1 : filterNE (A2 ++ headerLine T :: x :: B2) =
      filterNE A2 ++ headerLine T :: x :: filterNE B2 := by
    unfold filterNE
    rw [List.filter_append, List.filter_cons_of_pos (by simp [headerLine_ne_nil T]),
      List.filter_cons_of_pos (by simp [hxne])]
  have hd2 : filterNE (A ++ headerLine T :: x :: B) =
      filterNE A ++ headerLine T :: x :: filterNE B := by
    unfold filterNE
    rw [List.filter_append, List.filter_cons_of_pos (by simp [headerLine_ne_nil T]),
      List.filter_cons_of_pos (by simp [hxne])]
  rw [hd1, hd2, hsplitu.1, hsplitu.2]

theorem removeFromPriorities_idem (pn content : List Char) :
    removeFromPriorities pn (removeFromPriorities pn content) =
      removeFromPriorities pn content := by
  have h1 : (splitLines (removeFromPriorities pn content)).map (blankLink pn) =
      splitLines (removeFromPriorities pn content) :=
    map_blankLink_no_link pn _ (removeFromPriorities_no_link pn content)
  show collapseNewlines (joinLines
    ((splitLines (removeFromPriorities pn content)).map (blankLink pn))) =
      removeFromPriorities pn content
  rw [h1, joinLines_splitLines]
  show collapseNewlines (collapseNewlines
    (joinLines ((splitLines content).map (blankLink pn)))) = _
  exact collapseNewlines_idem _

theorem addToPriorities_shape (pn T content : List Char)
    (hhdr : headerLine T ∈ splitLines content) :
    addToPriorities pn T none content =
      joinLines ((splitLines content).takeWhile (fun l => l ≠ headerLine T) ++
        headerLine T :: ('-' :: ' ' :: ('[' :: '[' :: (pn ++ [']', ']']))) ::
        ((splitLines content).dropWhile (fun l => l ≠ headerLine T)).tail) := by
  unfold addToPriorities
  show (if (splitLines content).contains (headerLine T) then
      joinLines (insertAfterFirst (headerLine T)
        ('-' :: ' ' :: ('[' :: '[' :: (pn ++ [']', ']']))) (splitLines content))
    else
      match lastIdxDashes content with
      | some i =>
        if i > 0 then
          content.take i ++ (headerLine T ++ '\n' ::
            ('-' :: ' ' :: ('[' :: '[' :: (pn ++ [']', ']']))) ++ ['\n', '\n']) ++
            content.drop i
        else content
      | none => content) = _
  rw [if_pos ((contains_iff_mem _ _).mpr hhdr)]
  rfl

/-- Claim C6, amended: provided the project name contains no newline and
the mapped status section's header line is present in the content (no
hypothesis is needed for the `complete` status or for unmapped statuses),
applying syncProjectStatusToPriorities twice with the same status yields
the same parsed document (same sections, subsections, entries and
unlisted set) as applying it once. -/
theorem syncStatus_idempotent (fe : EmojiLookup) (tagged : List (List Char))
    (pn s content : List Char) (hpn : '\n' ∉ pn)
    (hdr : ∀ T, getStatusSection s = some T → headerLine T ∈ splitLines content) :
    parsePrioritiesFile fe tagged
        (syncProjectStatusToPriorities pn s
          (syncProjectStatusToPriorities pn s content)) =
      parsePrioritiesFile fe tagged (syncProjectStatusToPriorities pn s content) := by
  by_cases hc : s = "complete".data
  · have h1 : syncProjectStatusToPriorities pn s content =
        removeFromPriorities pn content := by
      unfold syncProjectStatusToPriorities
      rw [if_pos hc]
    have h2 : syncProjectStatusToPriorities pn s (removeFromPriorities pn content) =
        removeFromPriorities pn (removeFromPriorities pn content) := by
      unfold syncProjectStatusToPriorities
      rw [if_pos hc]
    rw [h1, h2, removeFromPriorities_idem]
  · have hsync : ∀ c, syncProjectStatusToPriorities pn s c =
        match getStatusSection s with
        | some T => moveProjectInPriorities pn T c
        | none => c := by
      intro c
      unfold syncProjectStatusToPriorities
      rw [if_neg hc]
    cases hT : getStatusSection s with
    | none =>
      have h1 : syncProjectStatusToPriorities pn s content = content := by
        rw [hsync content, hT]
      rw [h1, h1]
    | some T =>
      obtain ⟨hbr, hTnl, _⟩ := getStatusSection_props s T hT
      have hhdrC : headerLine T ∈ splitLines content := hdr T hT
      have hmv : ∀ c, syncProjectStatusToPriorities pn s c =
          moveProjectInPriorities pn T c := by
        intro c
        rw [hsync c, hT]
      rw [hmv content, hmv]
      apply parsePrioritiesFile_state_eq
      by_cases hfind : ∃ x, (splitLines content).find? (lineHasLink pn) = some x
      · obtain ⟨x, hfx⟩ := hfind
        obtain ⟨A, B, hsplit, hAnh, hAnol, hBnol, _⟩ :=
          moveProject_shape pn T content x hfx hhdrC hbr
        have hnlall : ∀ l ∈ A ++ headerLine T :: x :: B, '\n' ∉ l := by
          intro l hl
          rw [← hsplit] at hl
          exact splitLines_no_newline _ l hl
        have hmv1 : moveProjectInPriorities pn T content =
            joinLines (A ++ headerLine T :: x :: B) := by
          rw [← hsplit, joinLines_splitLines]
        rw [hmv1]
        rw [splitLines_joinLines _ hnlall (by simp)]
        exact move_idem_core fe pn T A B x
          (fun l hl => hnlall l (List.mem_append_left _ hl))
          (fun l hl => hnlall l (List.mem_append_right _
            (List.mem_cons_of_mem _ (List.mem_cons_of_mem _ hl))))
          (splitLines_no_newline content x (List.mem_of_find?_eq_some hfx))
          (headerLine_no_newline T hTnl)
          hAnol hBnol (List.find?_some hfx) hAnh hbr
      · have hfn : (splitLines content).find? (lineHasLink pn) = none := by
          cases hq : (splitLines content).find? (lineHasLink pn) with
          | none => rfl
          | some y => exact absurd ⟨y, hq⟩ hfind
        have hall : ∀ l ∈ splitLines content, lineHasLink pn l = false := by
          intro l hl
          have := List.find?_eq_none.mp hfn l hl
          simpa using this
        have hmv0 : moveProjectInPriorities pn T content =
            joinLines ((splitLines content).takeWhile (fun l => l ≠ headerLine T) ++
              headerLine T :: ('-' :: ' ' :: ('[' :: '[' :: (pn ++ [']', ']']))) ::
              ((splitLines content).dropWhile (fun l => l ≠ headerLine T)).tail) := by
          unfold moveProjectInPriorities
          rw [hfn]
          exact addToPriorities_shape pn T content hhdrC
        have hnlall : ∀ l ∈ (splitLines content).takeWhile (fun l => l ≠ headerLine T) ++
            headerLine T :: ('-' :: ' ' :: ('[' :: '[' :: (pn ++ [']', ']']))) ::
            ((splitLines content).dropWhile (fun l => l ≠ headerLine T)).tail,
            '\n' ∉ l := by
          intro l hl
          rcases List.mem_append.mp hl with h1 | h1
          · exact splitLines_no_newline content l (mem_takeWhile_mem _ _ l h1)
          rcases List.mem_cons.mp h1 with h2 | h2
          · rw [h2]
            exact headerLine_no_newline T hTnl
          rcases List.mem_cons.mp h2 with h3 | h3
          · rw [h3]
            exact newEntry_no_newline pn hpn
          · exact splitLines_no_newline content l (mem_dropWhile_tail _ _ l h3)
        rw [hmv0]
        rw [splitLines_joinLines _ hnlall (by simp)]
        exact move_idem_core fe pn T
          ((splitLines content).takeWhile (fun l => l ≠ headerLine T))
          (((splitLines content).dropWhile (fun l => l ≠ headerLine T)).tail)
          ('-' :: ' ' :: ('[' :: '[' :: (pn ++ [']', ']'])))
          (fun l hl => splitLines_no_newline content l (mem_takeWhile_mem _ _ l hl))
          (fun l hl => splitLines_no_newline content l (mem_dropWhile_tail _ _ l hl))
          (newEntry_no_newline pn hpn)
          (headerLine_no_newline T hTnl)
          (fun l hl => hall l (mem_takeWhile_mem _ _ l hl))
          (fun l hl => hall l (mem_dropWhile_tail _ _ l hl))
          (lineHasLink_newEntry pn)
          (fun hm => (mem_takeWhile_ne (headerLine T) _ _ hm) rfl)
          hbr

/-- Claim C6, counterexample to the claim as stated: on a text whose only
three-dash occurrence sits in the middle of a line, the first sync splices
the new section header into the middle of that line; the second sync then
finds the entry line, rebuilds it, and this time inserts a well-formed
header, so the parsed documents after one and after two applications
differ (no section at all versus one On Hold section). -/
theorem syncStatus_idempotent_counterexample :
    parsePrioritiesFile emptyLookup []
        (syncProjectStatusToPriorities "A".data "on-hold".data
          (syncProjectStatusToPriorities "A".data "on-hold".data "a\nbx---y".data)) ≠
      parsePrioritiesFile emptyLookup []
        (syncProjectStatusToPriorities "A".data "on-hold".data "a\nbx---y".data) := by
  decide

theorem syncStatus_idempotent_witness :
    ('\n' ∉ "A".data) ∧
    parsePrioritiesFile emptyLookup []
        (syncProjectStatusToPriorities "A".data "active".data
          (syncProjectStatusToPriorities "A".data "active".data
            "## Active\n- [[B]]\n\n---\nnotes".data)) =
      parsePrioritiesFile emptyLookup []
        (syncProjectStatusToPriorities "A".data "active".data
          "## Active\n- [[B]]\n\n---\nnotes".data) :=
  ⟨by decide,
    syncStatus_idempotent emptyLookup [] "A".data "active".data
      "## Active\n- [[B]]\n\n---\nnotes".data (by decide)
      (fun T hT => (Option.some.inj hT) ▸ (by decide))⟩

/- ### The parse-side link and the removal-side link patterns agree -/

theorem findLink_split (l : List Char) (r : List Char × Option (List Char))
    (h : findLink l = some r) :
    ∃ pre suf, l = pre ++ suf ∧ matchLinkAt suf = some r := by
  induction l with
  | nil => cases h
  | cons c cs ih =>
    cases hm : matchLinkAt (c :: cs) with
    | some r2 =>
      rw [findLink_cons_some c cs r2 hm] at h
      injection h with h2
      exact ⟨[], c :: cs, rfl, by rw [hm, h2]⟩
    | none =>
      rw [findLink_cons_none c cs hm] at h
      obtain ⟨pre, suf, hsplit, hmat⟩ := ih h
      exact ⟨c :: pre, suf, by rw [List.cons_append, hsplit], hmat⟩

theorem hasAliasLink_append_left (pn : List Char) (l : List Char)
    (h : hasAliasLink pn l = true) :
    ∀ pre, hasAliasLink pn (pre ++ l) = true := by
  intro pre
  induction pre with
  | nil => exact h
  | cons c cs ih =>
    rw [List.cons_append]
    cases hcs : cs ++ l with
    | nil =>
      exfalso
      cases hl0 : l with
      | nil => rw [hl0] at h; cases h
      | cons a as =>
        rw [hl0] at hcs
        exact absurd hcs (by simp)
    | cons a as =>
      rw [show hasAliasLink pn (c :: a :: as) =
        ((startsWith ('[' :: '[' :: (pn ++ ['|'])) (c :: a :: as) &&
          aliasTailOk ((c :: a :: as).drop (pn.length + 3))) ||
          hasAliasLink pn (a :: as)) from rfl]
      rw [← hcs, ih]
      simp

theorem matchLinkAt_hasLink (l0 : List Char) (name : List Char)
    (al : Option (List Char)) (h : matchLinkAt l0 = some (name, al)) :
    lineHasLink name l0 = true := by
  unfold matchLinkAt at h
  cases l0 with
  | nil => cases h
  | cons x xs =>
    cases xs with
    | nil =>
      by_cases hx : x = '['
      · subst hx; cases h
      · simp [hx] at h
    | cons y rest0 =>
      by_cases hx : x = '['
      · subst hx
        by_cases hy : y = '['
        · subst hy
          simp only at h
          split at h
          · cases h
          · rename_i hni
            split at h
            · rename_i r3 hr3
              split at h
              · rename_i r6 hr4
                split at h
                · cases h
                · rename_i hai
                  injection h with hpair
                  obtain ⟨hpn, hal⟩ := Prod.mk.injEq .. ▸ hpair
                  unfold lineHasLink
                  have hA : hasAliasLink name ('[' :: '[' :: rest0) = true := by
                    have hshape : '[' :: '[' :: rest0 =
                        ('[' :: '[' :: (name ++ ['|'])) ++ r3 := by
                      rw [show ('[' :: '[' :: (name ++ ['|'])) ++ r3 =
                        '[' :: '[' :: (name ++ '|' :: r3) from by simp]
                      rw [← hpn, ← hr3]
                      rw [show '[' :: '[' :: (rest0.takeWhile linkNameChar ++
                        rest0.dropWhile linkNameChar) = '[' :: '[' :: rest0 from by
                          rw [List.takeWhile_append_dropWhile]]
                    rw [show hasAliasLink name ('[' :: '[' :: rest0) =
                      ((startsWith ('[' :: '[' :: (name ++ ['|'])) ('[' :: '[' :: rest0) &&
                        aliasTailOk (('[' :: '[' :: rest0).drop (name.length + 3))) ||
                        hasAliasLink name ('[' :: rest0)) from rfl]
                    rw [hshape]
                    have h1 : startsWith ('[' :: '[' :: (name ++ ['|']))
                        (('[' :: '[' :: (name ++ ['|'])) ++ r3) = true :=
                      startsWith_append _ _ r3 (startsWith_self _)
                    rw [h1]
                    have h2 : (('[' :: '[' :: (name ++ ['|'])) ++ r3).drop
                        (name.length + 3) = r3 := by
                      rw [show ('[' :: '[' :: (name ++ ['|'])) ++ r3 =
                        '[' :: '[' :: (name ++ '|' :: r3) from by simp]
                      rw [List.drop_succ_cons, List.drop_succ_cons]
                      rw [show name ++ '|' :: r3 = (name ++ ['|']) ++ r3 from by simp]
                      rw [show name.length + 1 = (name ++ ['|']).length from by simp]
                      exact List.drop_left _ _
                    rw [h2]
                    have h3 : aliasTailOk r3 = true := by
                      unfold aliasTailOk
                      simp only [Bool.and_eq_true]
                      constructor
                      · simpa using hai
                      · rw [hr4]
                        rfl
                    rw [h3]
                    rfl
                  rw [hA]
                  simp
              · cases h
            · rename_i r6 hr2
              injection h with hpair
              obtain ⟨hpn, hal⟩ := Prod.mk.injEq .. ▸ hpair
              unfold lineHasLink
              have hP : hasPlainLink name ('[' :: '[' :: rest0) = true := by
                show containsSub ('[' :: '[' :: (name ++ [']', ']']))
                  ('[' :: '[' :: rest0) = true
                apply containsSub_of_startsWith
                have hshape : '[' :: '[' :: rest0 =
                    ('[' :: '[' :: (name ++ [']', ']'])) ++ r6 := by
                  rw [show ('[' :: '[' :: (name ++ [']', ']'])) ++ r6 =
                    '[' :: '[' :: (name ++ ']' :: ']' :: r6) from by simp]
                  rw [← hpn, ← hr2]
                  rw [show '[' :: '[' :: (rest0.takeWhile linkNameChar ++
                    rest0.dropWhile linkNameChar) = '[' :: '[' :: rest0 from by
                      rw [List.takeWhile_append_dropWhile]]
                rw [hshape]
                exact startsWith_append _ _ r6 (startsWith_self _)
              rw [hP]
              rfl
            · cases h
        · simp [hy] at h
      · simp [hx] at h

theorem hasPlainLink_append_left (pn : List Char) (pre l : List Char)
    (h : hasPlainLink pn l = true) : hasPlainLink pn (pre ++ l) = true :=
  containsSub_append_right _ pre l h

theorem lineHasLink_append_left (pn : List Char) (pre l : List Char)
    (h : lineHasLink pn l = true) : lineHasLink pn (pre ++ l) = true := by
  unfold lineHasLink at h ⊢
  rcases Bool.or_eq_true_iff.mp h with h1 | h1
  · rw [hasPlainLink_append_left pn pre l h1]
    rfl
  · rw [hasAliasLink_append_left pn l h1 pre]
    simp

theorem lineEntry_hasLink (fe : EmojiLookup) (l : List Char) (e : PriorityEntry)
    (h : lineEntry fe l = some e) : lineHasLink e.projectName l = true := by
  unfold lineEntry at h
  cases hf : findLink l with
  | none => rw [hf] at h; cases h
  | some r =>
    obtain ⟨pn, al⟩ := r
    rw [hf] at h
    simp only at h
    injection h with h2
    have hname : e.projectName = pn := by rw [← h2]
    rw [hname]
    obtain ⟨pre, suf, hsplit, hmat⟩ := findLink_split l (pn, al) hf
    rw [hsplit]
    exact lineHasLink_append_left pn pre suf (matchLinkAt_hasLink suf pn al hmat)

theorem isStopLine_no_bracket (l : List Char) (h : isStopLine l = true) : '[' ∉ l := by
  intro hm
  have htc : trimChars l = ['-', '-', '-'] := of_decide_eq_true h
  obtain ⟨w, hw, hws⟩ := dropTrailingWs_decomp (l.dropWhile isWsChar)
  have hw2 : l.dropWhile isWsChar = trimChars l ++ w := hw
  have hl : l = l.takeWhile isWsChar ++ (trimChars l ++ w) := by
    rw [← hw2, List.takeWhile_append_dropWhile]
  rw [hl] at hm
  rcases List.mem_append.mp hm with h1 | h1
  · have := List.mem_takeWhile_imp h1
    exact absurd this (by decide)
  · rcases List.mem_append.mp h1 with h2 | h2
    · rw [htc] at h2
      exact absurd h2 (by decide)
    · have := List.all_eq_true.mp hws '[' h2
      exact absurd this (by decide)

theorem link_line_not_stop (pn l : List Char) (h : lineHasLink pn l = true) :
    isStopLine l = false := by
  cases hs : isStopLine l with
  | false => rfl
  | true =>
    exfalso
    have hbr := isStopLine_no_bracket l hs
    unfold lineHasLink at h
    rcases Bool.or_eq_true_iff.mp h with h1 | h1
    · exact hbr (containsSub_head_mem '[' _ l h1)
    · exact hbr (hasAliasLink_bracket pn l h1)

theorem findLink_newEntry (pn : List Char) (h1 : pn ≠ [])
    (h2 : pn.all linkNameChar = true) :
    findLink ('-' :: ' ' :: ('[' :: '[' :: (pn ++ [']', ']']))) = some (pn, none) := by
  have hm1 : matchLinkAt ('-' :: ' ' :: ('[' :: '[' :: (pn ++ [']', ']']))) = none := rfl
  have hm2 : matchLinkAt (' ' :: ('[' :: '[' :: (pn ++ [']', ']']))) = none := rfl
  rw [findLink_cons_none _ _ hm1, findLink_cons_none _ _ hm2]
  have hmain : matchLinkAt ('[' :: '[' :: (pn ++ [']', ']'])) = some (pn, none) := by
    unfold matchLinkAt
    obtain ⟨ht, hd⟩ := takeWhile_append_stop linkNameChar pn h2 ']' (by decide) [']']
    simp only [ht, hd]
    have hne : pn.isEmpty = false := by
      cases pn with
      | nil => exact absurd rfl h1
      | cons a as => rfl
    rw [hne]
    rfl
  cases hp : pn with
  | nil => exact absurd hp h1
  | cons a as =>
    rw [← hp]
    rw [findLink_cons_some _ _ _ hmain]

theorem lineEntry_newEntry (fe : EmojiLookup) (pn : List Char) (h1 : pn ≠ [])
    (h2 : pn.all linkNameChar = true) :
    ∃ e, lineEntry fe ('-' :: ' ' :: ('[' :: '[' :: (pn ++ [']', ']']))) = some e ∧
      e.projectName = pn := by
  unfold lineEntry
  rw [findLink_newEntry pn h1 h2]
  exact ⟨_, rfl, rfl⟩

theorem matchSectionHeader_newEntry (pn : List Char) :
    matchSectionHeader ('-' :: ' ' :: ('[' :: '[' :: (pn ++ [']', ']']))) = none := rfl

theorem matchSubsectionHeader_newEntry (pn : List Char) :
    matchSubsectionHeader ('-' :: ' ' :: ('[' :: '[' :: (pn ++ [']', ']']))) = none := rfl

theorem newEntry_bracket (pn : List Char) :
    '[' ∈ ('-' :: ' ' :: ('[' :: '[' :: (pn ++ [']', ']']))) := by
  exact List.mem_cons_of_mem _ (List.mem_cons_of_mem _ (List.mem_cons_self _ _))

theorem parseStepCore_entry_line (fe : EmojiLookup) (C : List PrioritySection)
    (n : List Char) (I : List SectionItem) (F : List (List Char))
    (line : List Char) (e : PriorityEntry)
    (h1 : matchSectionHeader line = none) (h2 : matchSubsectionHeader line = none)
    (h3 : lineEntry fe line = some e) :
    parseStepCore fe ⟨C, some (n, I), none, F⟩ line =
      ⟨C, some (n, I ++ [.entryItem e]), none, F ++ [e.projectName]⟩ := by
  unfold parseStepCore
  rw [h1, h2, h3]

/- ### Entry-name invariants of the scan -/

theorem any_false {α : Type} (p : α → Bool) :
    ∀ l : List α, (∀ x ∈ l, p x = false) → l.any p = false := by
  intro l
  induction l with
  | nil => intro _; rfl
  | cons a as ih =>
    intro h
    rw [List.any_cons, h a (List.mem_cons_self _ _),
      ih (fun x hx => h x (List.mem_cons_of_mem _ hx))]
    rfl

theorem any_false_mem {α : Type} (p : α → Bool) (l : List α) (h : l.any p = false) :
    ∀ x ∈ l, p x = false := by
  intro x hx
  cases hp : p x with
  | false => rfl
  | true =>
    exfalso
    have : l.any p = true := List.any_eq_true.mpr ⟨x, hx, hp⟩
    rw [h] at this
    cases this

/-- No entry named `pn` anywhere in the parser state. -/
def NoPnState (pn : List Char) (st : ParseState) : Prop :=
  (∀ sec ∈ st.closed, sectionHasEntryName pn sec = false) ∧
  (∀ n items, st.cur = some (n, items) →
    items.any (itemHasEntryName pn) = false) ∧
  (∀ s, st.curSub = some s →
    s.entries.any (fun x => x.projectName = pn) = false)

theorem closeCur_noPn (pn : List Char) (cur : Option (List Char × List SectionItem))
    (sub : Option PrioritySubsection)
    (hCur : ∀ n items, cur = some (n, items) → items.any (itemHasEntryName pn) = false)
    (hSub : ∀ s, sub = some s → s.entries.any (fun x => x.projectName = pn) = false) :
    ∀ sec ∈ closeCur cur sub, sectionHasEntryName pn sec = false := by
  intro sec hsec
  cases cur with
  | none => cases hsec
  | some p =>
    obtain ⟨n, items⟩ := p
    rcases List.mem_singleton.mp hsec with hx
    rw [hx]
    show (items ++ flushSub sub).any (itemHasEntryName pn) = false
    rw [List.any_append, hCur n items rfl]
    cases sub with
    | none => rfl
    | some s =>
      show (false || (itemHasEntryName pn (.subItem s) || List.any [] _)) = false
      rw [show itemHasEntryName pn (.subItem s) =
        s.entries.any (fun x => x.projectName = pn) from rfl]
      rw [hSub s rfl]
      rfl

theorem parseStepCore_noPn (fe : EmojiLookup) (pn : List Char) (st : ParseState)
    (line : List Char)
    (hline : ∀ e, lineEntry fe line = some e → ¬ e.projectName = pn)
    (h : NoPnState pn st) : NoPnState pn (parseStepCore fe st line) := by
  obtain ⟨closed, cur, curSub, found⟩ := st
  obtain ⟨hC, hCur, hSub⟩ := h
  unfold parseStepCore
  cases hsec : matchSectionHeader line with
  | some m =>
    refine ⟨?_, ?_, ?_⟩
    · intro sec hsec2
      rcases List.mem_append.mp hsec2 with hh | hh
      · exact hC sec hh
      · exact closeCur_noPn pn cur curSub hCur hSub sec hh
    · intro n items hcur
      injection hcur with hp
      obtain ⟨_, h2⟩ := Prod.mk.injEq .. ▸ hp
      rw [← h2]
      rfl
    · intro s hs
      cases hs
  | none =>
    cases hsub : matchSubsectionHeader line with
    | some m =>
      cases cur with
      | none => exact ⟨hC, hCur, hSub⟩
      | some p =>
        obtain ⟨n, items⟩ := p
        refine ⟨hC, ?_, ?_⟩
        · intro n2 items2 hcur
          injection hcur with hp
          obtain ⟨_, h2⟩ := Prod.mk.injEq .. ▸ hp
          rw [← h2]
          rw [List.any_append, hCur n items rfl]
          cases curSub with
          | none => rfl
          | some s =>
            show (false || (itemHasEntryName pn (.subItem s) || List.any [] _)) = false
            rw [show itemHasEntryName pn (.subItem s) =
              s.entries.any (fun x => x.projectName = pn) from rfl]
            rw [hSub s rfl]
            rfl
        · intro s hs
          injection hs with hp
          rw [← hp]
          rfl
    | none =>
      cases hle : lineEntry fe line with
      | none =>
        cases cur with
        | none => exact ⟨hC, hCur, hSub⟩
        | some p => exact ⟨hC, hCur, hSub⟩
      | some e =>
        have hne : (decide (e.projectName = pn) : Bool) = false := by
          simp [hline e hle]
        cases cur with
        | none => exact ⟨hC, hCur, hSub⟩
        | some p =>
          obtain ⟨n, items⟩ := p
          cases curSub with
          | none =>
            refine ⟨hC, ?_, ?_⟩
            · intro n2 items2 hcur
              injection hcur with hp
              obtain ⟨_, h2⟩ := Prod.mk.injEq .. ▸ hp
              rw [← h2]
              rw [List.any_append, hCur n items rfl]
              show (false || (itemHasEntryName pn (.entryItem e) || List.any [] _)) = false
              rw [show itemHasEntryName pn (.entryItem e) =
                decide (e.projectName = pn) from rfl]
              rw [hne]
              rfl
            · intro s hs
              cases hs
          | some s =>
            refine ⟨hC, hCur, ?_⟩
            intro s2 hs
            injection hs with hp
            rw [← hp]
            show (s.entries ++ [e]).any (fun x => decide (x.projectName = pn)) = false
            rw [List.any_append, hSub s rfl]
            show (false || (decide (e.projectName = pn) || List.any [] _)) = false
            rw [hne]
            rfl

theorem parseLines_noPn (fe : EmojiLookup) (pn : List Char) :
    ∀ (ls : List (List Char)) (st : ParseState),
      (∀ l ∈ ls, ∀ e, lineEntry fe l = some e → ¬ e.projectName = pn) →
      NoPnState pn st → NoPnState pn (parseLines fe ls st) := by
  intro ls
  induction ls with
  | nil => intro st _ h; exact h
  | cons l rest ih =>
    intro st hls h
    rw [show parseLines fe (l :: rest) st =
      if isStopLine l then st
      else parseLines fe rest (parseStepCore fe st l) from rfl]
    by_cases hs : isStopLine l = true
    · rw [hs]
      exact h
    · rw [Bool.not_eq_true] at hs
      rw [hs]
      simp only [Bool.false_eq_true, if_false]
      exact ih (parseStepCore fe st l)
        (fun x hx => hls x (List.mem_cons_of_mem _ hx))
        (parseStepCore_noPn fe pn st l (hls l (List.mem_cons_self _ _)) h)

theorem finalize_noPn (pn : List Char) (st : ParseState) (h : NoPnState pn st) :
    ∀ sec ∈ finalizeParse st, sectionHasEntryName pn sec = false := by
  intro sec hsec
  rcases List.mem_append.mp hsec with hh | hh
  · exact h.1 sec hh
  · exact closeCur_noPn pn st.cur st.curSub h.2.1 h.2.2 sec hh

theorem initState_noPn (pn : List Char) : NoPnState pn initState := by
  refine ⟨?_, ?_, ?_⟩
  · intro sec h
    cases h
  · intro n items h
    cases h
  · intro s h
    cases h

/-- Entries named `pn` occur in no section named other than `T`. -/
def AbsentOutsideT (pn T : List Char) (st : ParseState) : Prop :=
  (∀ sec ∈ st.closed, sec.name ≠ T → sectionHasEntryName pn sec = false) ∧
  (∀ n items, st.cur = some (n, items) → n ≠ T →
    (items.any (itemHasEntryName pn) = false ∧
     ∀ s, st.curSub = some s → s.entries.any (fun x => x.projectName = pn) = false))

theorem closeCur_absent (pn T : List Char) (cur : Option (List Char × List SectionItem))
    (sub : Option PrioritySubsection)
    (hCur : ∀ n items, cur = some (n, items) → n ≠ T →
      (items.any (itemHasEntryName pn) = false ∧
       ∀ s, sub = some s → s.entries.any (fun x => x.projectName = pn) = false)) :
    ∀ sec ∈ closeCur cur sub, sec.name ≠ T → sectionHasEntryName pn sec = false := by
  intro sec hsec hname
  cases cur with
  | none => cases hsec
  | some p =>
    obtain ⟨n, items⟩ := p
    rcases List.mem_singleton.mp hsec with hx
    have hnT : n ≠ T := by
      rw [hx] at hname
      exact hname
    obtain ⟨h1, h2⟩ := hCur n items rfl hnT
    rw [hx]
    show (items ++ flushSub sub).any (itemHasEntryName pn) = false
    rw [List.any_append, h1]
    cases sub with
    | none => rfl
    | some s =>
      show (false || (itemHasEntryName pn (.subItem s) || List.any [] _)) = false
      rw [show itemHasEntryName pn (.subItem s) =
        s.entries.any (fun x => x.projectName = pn) from rfl]
      rw [h2 s rfl]
      rfl

theorem parseStepCore_absent (fe : EmojiLookup) (pn T : List Char) (st : ParseState)
    (line : List Char)
    (hline : ∀ e, lineEntry fe line = some e → ¬ e.projectName = pn)
    (h : AbsentOutsideT pn T st) : AbsentOutsideT pn T (parseStepCore fe st line) := by
  obtain ⟨closed, cur, curSub, found⟩ := st
  obtain ⟨hC, hCur⟩ := h
  unfold parseStepCore
  cases hsec : matchSectionHeader line with
  | some m =>
    refine ⟨?_, ?_⟩
    · intro sec hsec2 hname
      rcases List.mem_append.mp hsec2 with hh | hh
      · exact hC sec hh hname
      · exact closeCur_absent pn T cur curSub hCur sec hh hname
    · intro n items hcur _
      injection hcur with hp
      obtain ⟨_, h2⟩ := Prod.mk.injEq .. ▸ hp
      refine ⟨by rw [← h2]; rfl, ?_⟩
      intro s hs
      cases hs
  | none =>
    cases hsub : matchSubsectionHeader line with
    | some m =>
      cases cur with
      | none => exact ⟨hC, hCur⟩
      | some p =>
        obtain ⟨n, items⟩ := p
        refine ⟨hC, ?_⟩
        intro n2 items2 hcur hnT
        injection hcur with hp
        obtain ⟨h1, h2⟩ := Prod.mk.injEq .. ▸ hp
        have hnT2 : n ≠ T := by rw [h1]; exact hnT
        obtain ⟨ho1, ho2⟩ := hCur n items rfl hnT2
        refine ⟨?_, ?_⟩
        · rw [← h2]
          rw [List.any_append, ho1]
          cases curSub with
          | none => rfl
          | some s =>
            show (false || (itemHasEntryName pn (.subItem s) || List.any [] _)) = false
            rw [show itemHasEntryName pn (.subItem s) =
              s.entries.any (fun x => x.projectName = pn) from rfl]
            rw [ho2 s rfl]
            rfl
        · intro s hs
          injection hs with hp2
          rw [← hp2]
          rfl
    | none =>
      cases hle : lineEntry fe line with
      | none =>
        cases cur with
        | none => exact ⟨hC, hCur⟩
        | some p => exact ⟨hC, hCur⟩
      | some e =>
        have hne : (decide (e.projectName = pn) : Bool) = false := by
          simp [hline e hle]
        cases cur with
        | none => exact ⟨hC, hCur⟩
        | some p =>
          obtain ⟨n, items⟩ := p
          cases curSub with
          | none =>
            refine ⟨hC, ?_⟩
            intro n2 items2 hcur hnT
            injection hcur with hp
            obtain ⟨h1, h2⟩ := Prod.mk.injEq .. ▸ hp
            have hnT2 : n ≠ T := by rw [h1]; exact hnT
            obtain ⟨ho1, _⟩ := hCur n items rfl hnT2
            refine ⟨?_, ?_⟩
            · rw [← h2]
              rw [List.any_append, ho1]
              show (false || (itemHasEntryName pn (.entryItem e) || List.any [] _)) = false
              rw [show itemHasEntryName pn (.entryItem e) =
                decide (e.projectName = pn) from rfl]
              rw [hne]
              rfl
            · intro s hs
              cases hs
          | some s =>
            refine ⟨hC, ?_⟩
            intro n2 items2 hcur hnT
            injection hcur with hp
            obtain ⟨h1, h2⟩ := Prod.mk.injEq .. ▸ hp
            have hnT2 : n ≠ T := by rw [h1]; exact hnT
            obtain ⟨ho1, ho2⟩ := hCur n items rfl hnT2
            refine ⟨by rw [← h2]; exact ho1, ?_⟩
            intro s2 hs
            injection hs with hp2
            rw [← hp2]
            show (s.entries ++ [e]).any (fun x => decide (x.projectName = pn)) = false
            rw [List.any_append, ho2 s rfl]
            show (false || (decide (e.projectName = pn) || List.any [] _)) = false
            rw [hne]
            rfl

theorem parseLines_absent (fe : EmojiLookup) (pn T : List Char) :
    ∀ (ls : List (List Char)) (st : ParseState),
      (∀ l ∈ ls, ∀ e, lineEntry fe l = some e → ¬ e.projectName = pn) →
      AbsentOutsideT pn T st → AbsentOutsideT pn T (parseLines fe ls st) := by
  intro ls
  induction ls with
  | nil => intro st _ h; exact h
  | cons l rest ih =>
    intro st hls h
    rw [show parseLines fe (l :: rest) st =
      if isStopLine l then st
      else parseLines fe rest (parseStepCore fe st l) from rfl]
    by_cases hs : isStopLine l = true
    · rw [hs]
      exact h
    · rw [Bool.not_eq_true] at hs
      rw [hs]
      simp only [Bool.false_eq_true, if_false]
      exact ih (parseStepCore fe st l)
        (fun x hx => hls x (List.mem_cons_of_mem _ hx))
        (parseStepCore_absent fe pn T st l (hls l (List.mem_cons_self _ _)) h)

theorem finalize_absent (pn T : List Char) (st : ParseState)
    (h : AbsentOutsideT pn T st) :
    ∀ sec ∈ finalizeParse st, sec.name ≠ T → sectionHasEntryName pn sec = false := by
  intro sec hsec hname
  rcases List.mem_append.mp hsec with hh | hh
  · exact h.1 sec hh hname
  · exact closeCur_absent pn T st.cur st.curSub h.2 sec hh hname

/-- Some section named `T` in the parser state holds an entry named `pn`. -/
def HasPnInT (pn T : List Char) (st : ParseState) : Prop :=
  (∃ sec ∈ st.closed, sec.name = T ∧ sectionHasEntryName pn sec = true) ∨
  (∃ items, st.cur = some (T, items) ∧ items.any (itemHasEntryName pn) = true)

theorem parseStepCore_hasPn (fe : EmojiLookup) (pn T : List Char) (st : ParseState)
    (line : List Char) (h : HasPnInT pn T st) :
    HasPnInT pn T (parseStepCore fe st line) := by
  obtain ⟨closed, cur, curSub, found⟩ := st
  unfold parseStepCore
  cases hsec : matchSectionHeader line with
  | some m =>
    rcases h with ⟨sec, hsec2, hn, hhas⟩ | ⟨items, hcur, hany⟩
    · exact Or.inl ⟨sec, List.mem_append_left _ hsec2, hn, hhas⟩
    · left
      refine ⟨⟨T, items ++ flushSub curSub⟩, ?_, rfl, ?_⟩
      · apply List.mem_append_right
        rw [show cur = some (T, items) from hcur]
        exact List.mem_singleton.mpr rfl
      · show (items ++ flushSub curSub).any (itemHasEntryName pn) = true
        rw [List.any_append, hany]
        rfl
  | none =>
    cases hsub : matchSubsectionHeader line with
    | some m =>
      cases hcur0 : cur with
      | none =>
        rw [hcur0] at h
        exact h
      | some p =>
        obtain ⟨n, items0⟩ := p
        rcases h with ⟨sec, hsec2, hn, hhas⟩ | ⟨items, hcur, hany⟩
        · exact Or.inl ⟨sec, hsec2, hn, hhas⟩
        · right
          rw [hcur0] at hcur
          injection hcur with hp
          obtain ⟨h1, h2⟩ := Prod.mk.injEq .. ▸ hp
          refine ⟨items0 ++ flushSub curSub, by rw [h1], ?_⟩
          rw [List.any_append, h2, hany]
          rfl
    | none =>
      cases hle : lineEntry fe line with
      | none =>
        cases cur with
        | none => exact h
        | some p => exact h
      | some e =>
        cases hcur0 : cur with
        | none =>
          rw [hcur0] at h
          exact h
        | some p =>
          obtain ⟨n, items0⟩ := p
          rcases h with ⟨sec, hsec2, hn, hhas⟩ | ⟨items, hcur, hany⟩
          · cases curSub with
            | none => exact Or.inl ⟨sec, hsec2, hn, hhas⟩
            | some s => exact Or.inl ⟨sec, hsec2, hn, hhas⟩
          · rw [hcur0] at hcur
            injection hcur with hp
            obtain ⟨h1, h2⟩ := Prod.mk.injEq .. ▸ hp
            cases curSub with
            | none =>
              right
              refine ⟨items0 ++ [.entryItem e], by rw [h1], ?_⟩
              rw [List.any_append, h2, hany]
              rfl
            | some s =>
              right
              refine ⟨items0, by rw [h1], by rw [h2]; exact hany⟩

theorem parseLines_hasPn (fe : EmojiLookup) (pn T : List Char) :
    ∀ (ls : List (List Char)) (st : ParseState),
      HasPnInT pn T st → HasPnInT pn T (parseLines fe ls st) := by
  intro ls
  induction ls with
  | nil => intro st h; exact h
  | cons l rest ih =>
    intro st h
    rw [show parseLines fe (l :: rest) st =
      if isStopLine l then st
      else parseLines fe rest (parseStepCore fe st l) from rfl]
    by_cases hs : isStopLine l = true
    · rw [hs]
      exact h
    · rw [Bool.not_eq_true] at hs
      rw [hs]
      simp only [Bool.false_eq_true, if_false]
      exact ih (parseStepCore fe st l) (parseStepCore_hasPn fe pn T st l h)

theorem finalize_hasPn (pn T : List Char) (st : ParseState) (h : HasPnInT pn T st) :
    ∃ sec ∈ finalizeParse st, sec.name = T ∧ sectionHasEntryName pn sec = true := by
  rcases h with ⟨sec, hsec, hn, hhas⟩ | ⟨items, hcur, hany⟩
  · exact ⟨sec, List.mem_append_left _ hsec, hn, hhas⟩
  · refine ⟨⟨T, items ++ flushSub st.curSub⟩, ?_, rfl, ?_⟩
    · apply List.mem_append_right
      rw [show st.cur = some (T, items) from hcur]
      exact List.mem_singleton.mpr rfl
    · show (items ++ flushSub st.curSub).any (itemHasEntryName pn) = true
      rw [List.any_append, hany]
      rfl

theorem parseLines_cons_no_stop (fe : EmojiLookup) (l : List Char)
    (rest : List (List Char)) (st : ParseState) (h : isStopLine l = false) :
    parseLines fe (l :: rest) st = parseLines fe rest (parseStepCore fe st l) := by
  rw [show parseLines fe (l :: rest) st =
    if isStopLine l then st
    else parseLines fe rest (parseStepCore fe st l) from rfl]
  rw [h]
  simp

theorem find?_split {α : Type} (p : α → Bool) :
    ∀ (ls : List α) (x : α), ls.find? p = some x →
      ∃ A B, ls = A ++ x :: B ∧ (∀ a ∈ A, p a = false) ∧ p x = true := by
  intro ls
  induction ls with
  | nil => intro x h; cases h
  | cons a as ih =>
    intro x h
    by_cases hp : p a = true
    · rw [List.find?_cons_of_pos _ hp] at h
      injection h with h2
      exact ⟨[], as, by rw [h2]; rfl, fun y hy => absurd hy (List.not_mem_nil y),
        h2 ▸ hp⟩
    · rw [Bool.not_eq_true] at hp
      rw [List.find?_cons_of_neg _ (by rw [hp]; simp)] at h
      obtain ⟨A, B, hsplit, hA, hx⟩ := ih x h
      exact ⟨a :: A, B, by rw [List.cons_append, hsplit],
        fun y hy => by
          rcases List.mem_cons.mp hy with h1 | h1
          · rw [h1]; exact hp
          · exact hA y h1, hx⟩

theorem scan_exact (fe : EmojiLookup) (pn T : List Char)
    (A B : List (List Char)) (x : List Char) (e : PriorityEntry)
    (hTname : WFname T)
    (hhl : lineHasLink pn (headerLine T) = false)
    (hAstop : ∀ l ∈ A, isStopLine l = false)
    (hAent : ∀ l ∈ A, ∀ e2, lineEntry fe l = some e2 → ¬ e2.projectName = pn)
    (hBent : ∀ l ∈ B, ∀ e2, lineEntry fe l = some e2 → ¬ e2.projectName = pn)
    (hxsec : matchSectionHeader x = none) (hxsub : matchSubsectionHeader x = none)
    (hxent : lineEntry fe x = some e) (hxname : e.projectName = pn)
    (hxstop : isStopLine x = false) :
    (∃ sec ∈ finalizeParse (parseLines fe (A ++ headerLine T :: x :: B) initState),
      sec.name = T ∧ sectionHasEntryName pn sec = true) ∧
    (∀ sec ∈ finalizeParse (parseLines fe (A ++ headerLine T :: x :: B) initState),
      sec.name ≠ T → sectionHasEntryName pn sec = false) := by
  have hheaderent : ∀ e2, lineEntry fe (headerLine T) = some e2 →
      ¬ e2.projectName = pn := by
    intro e2 he2 hname
    have h2 := lineEntry_hasLink fe _ e2 he2
    rw [hname, hhl] at h2
    cases h2
  have hhstop : isStopLine (headerLine T) = false := isStopLine_hash _
  have hchain : parseLines fe (A ++ headerLine T :: x :: B) initState =
      parseLines fe B (parseStepCore fe
        (parseStepCore fe (parseNoStop fe A initState) (headerLine T)) x) := by
    rw [parseLines_no_stop_append fe A _ initState hAstop]
    rw [parseLines_cons_no_stop fe _ _ _ hhstop]
    rw [parseLines_cons_no_stop fe _ _ _ hxstop]
  have hst2 : parseStepCore fe (parseNoStop fe A initState) (headerLine T) =
      ⟨(parseNoStop fe A initState).closed ++
        closeCur (parseNoStop fe A initState).cur (parseNoStop fe A initState).curSub,
        some (T, []), none, (parseNoStop fe A initState).found⟩ :=
    parseStepCore_header fe _ T hTname
  have hst3 : parseStepCore fe
      (⟨(parseNoStop fe A initState).closed ++
        closeCur (parseNoStop fe A initState).cur (parseNoStop fe A initState).curSub,
        some (T, []), none, (parseNoStop fe A initState).found⟩ : ParseState) x =
      ⟨(parseNoStop fe A initState).closed ++
        closeCur (parseNoStop fe A initState).cur (parseNoStop fe A initState).curSub,
        some (T, [] ++ [.entryItem e]), none,
        (parseNoStop fe A initState).found ++ [e.projectName]⟩ :=
    parseStepCore_entry_line fe _ T [] _ x e hxsec hxsub hxent
  rw [hchain, hst2, hst3]
  have habs0 : AbsentOutsideT pn T initState := by
    refine ⟨?_, ?_⟩
    · intro sec h _
      cases h
    · intro n items h _
      cases h
  have habs1 : AbsentOutsideT pn T (parseNoStop fe A initState) := by
    rw [← parseLines_all_no_stop fe A initState hAstop]
    exact parseLines_absent fe pn T A initState hAent habs0
  have habs2 := parseStepCore_absent fe pn T _ (headerLine T) hheaderent habs1
  rw [hst2] at habs2
  constructor
  · apply finalize_hasPn
    apply parseLines_hasPn
    right
    refine ⟨[] ++ [.entryItem e], rfl, ?_⟩
    simp [itemHasEntryName, hxname]
  · apply finalize_absent
    apply parseLines_absent fe pn T B _ hBent
    refine ⟨habs2.1, ?_⟩
    intro n items hcur hnT
    injection hcur with hp
    obtain ⟨h1, _⟩ := Prod.mk.injEq .. ▸ hp
    exact absurd h1.symm hnT

/-- Claim C3, amended: assume the project name is non-empty, newline-free
and consists of link-name characters; assume that for a mapped status the
first line of the content that is either the target header or a stop
delimiter is the target header (the section exists and lies in the modeled
region); and assume the project is cleanly listed (every line carrying its
link is a plain entry line whose leftmost link names this project).  Then
after syncProjectStatusToPriorities: for a mapped status the project has an
entry in a section with the mapped name and in no section with another
name; for `complete` it has an entry in no section; for any other status
the text is returned unchanged. -/
theorem syncStatus_section_placement (fe : EmojiLookup) (pn s content : List Char)
    (hpn1 : pn ≠ []) (hpn2 : pn.all linkNameChar = true) (hpn3 : '\n' ∉ pn)
    (hH1 : ∀ T, getStatusSection s = some T →
      (splitLines content).find?
        (fun l => decide (l = headerLine T) || isStopLine l) = some (headerLine T))
    (hclean : ∀ l ∈ splitLines content, lineHasLink pn l = true →
      matchSectionHeader l = none ∧ matchSubsectionHeader l = none ∧
      ∃ e, lineEntry fe l = some e ∧ e.projectName = pn) :
    (∀ T, getStatusSection s = some T →
      (∃ sec ∈ parseSections fe (syncProjectStatusToPriorities pn s content),
        sec.name = T ∧ sectionHasEntryName pn sec = true) ∧
      (∀ sec ∈ parseSections fe (syncProjectStatusToPriorities pn s content),
        sec.name ≠ T → sectionHasEntryName pn sec = false)) ∧
    (s = "complete".data →
      ∀ sec ∈ parseSections fe (syncProjectStatusToPriorities pn s content),
        sectionHasEntryName pn sec = false) ∧
    (s ≠ "complete".data → getStatusSection s = none →
      syncProjectStatusToPriorities pn s content = content) := by
  refine ⟨?_, ?_, ?_⟩
  · intro T hT
    obtain ⟨hbr, hTnl, hTne, hTdot⟩ := getStatusSection_props s T hT
    have hcS : ¬ s = "complete".data := by
      intro h
      rw [h] at hT
      have h2 : getStatusSection "complete".data = none := by decide
      rw [h2] at hT
      cases hT
    have hmv : syncProjectStatusToPriorities pn s content =
        moveProjectInPriorities pn T content := by
      unfold syncProjectStatusToPriorities
      rw [if_neg hcS, hT]
    rw [hmv]
    obtain ⟨A0, B0, hls0, hA0, _⟩ :=
      find?_split _ (splitLines content) (headerLine T) (hH1 T hT)
    have hA0h : ∀ a ∈ A0, a ≠ headerLine T := by
      intro a ha hc
      have h2 := hA0 a ha
      rw [hc] at h2
      simp at h2
    have hA0s : ∀ a ∈ A0, isStopLine a = false := by
      intro a ha
      exact (Bool.or_eq_false_iff.mp (hA0 a ha)).2
    have hhdrC : headerLine T ∈ splitLines content := by
      rw [hls0]
      exact List.mem_append_right _ (List.mem_cons_self _ _)
    have hhl : lineHasLink pn (headerLine T) = false :=
      lineHasLink_no_bracket pn _ (headerLine_no_bracket T hbr)
    by_cases hfind : ∃ x, (splitLines content).find? (lineHasLink pn) = some x
    · obtain ⟨x, hfx⟩ := hfind
      have hxmem : x ∈ splitLines content := List.mem_of_find?_eq_some hfx
      have hxlink : lineHasLink pn x = true := List.find?_some hfx
      obtain ⟨hxsec, hxsub, e, hxent, hxname⟩ := hclean x hxmem hxlink
      obtain ⟨A, B, hsplitO, hAnh, hAnol, hBnol, hfil⟩ :=
        moveProject_shape pn T content x hfx hhdrC hbr
      have hblank0 : (splitLines content).map (blankLink pn) =
          A0.map (blankLink pn) ++ headerLine T :: B0.map (blankLink pn) := by
        rw [hls0, List.map_append, List.map_cons, blankLink_of_no_link pn _ hhl]
      have hfil2 : filterNE ((splitLines content).map (blankLink pn)) =
          filterNE (A0.map (blankLink pn)) ++
            headerLine T :: filterNE (B0.map (blankLink pn)) := by
        rw [hblank0]
        unfold filterNE
        rw [List.filter_append,
          List.filter_cons_of_pos (by simp [headerLine_ne_nil T])]
      have hsplitu := first_split_unique (headerLine T)
        (filterNE A) (filterNE (A0.map (blankLink pn)))
        (filterNE B) (filterNE (B0.map (blankLink pn)))
        (fun hm => hAnh (mem_filterNE _ _ hm))
        (fun hm => by
          rcases mem_map_blankLink pn A0 _ (mem_filterNE _ _ hm) with h1 | h1
          · exact headerLine_ne_nil T h1
          · exact hA0h _ h1 rfl)
        (hfil.trans hfil2)
      have hAstop : ∀ l ∈ A, isStopLine l = false := by
        intro l hl
        by_cases hne : l = []
        · rw [hne]
          exact isStopLine_empty
        · have h1 : l ∈ filterNE A := filterNE_mem A l hl hne
          rw [hsplitu.1] at h1
          rcases mem_map_blankLink pn A0 l (mem_filterNE _ _ h1) with h2 | h2
          · exact absurd h2 hne
          · exact hA0s l h2
      have hAent : ∀ l ∈ A, ∀ e2, lineEntry fe l = some e2 →
          ¬ e2.projectName = pn := by
        intro l hl e2 he2 hname
        have h2 := lineEntry_hasLink fe l e2 he2
        rw [hname, hAnol l hl] at h2
        cases h2
      have hBent : ∀ l ∈ B, ∀ e2, lineEntry fe l = some e2 →
          ¬ e2.projectName = pn := by
        intro l hl e2 he2 hname
        have h2 := lineEntry_hasLink fe l e2 he2
        rw [hname, hBnol l hl] at h2
        cases h2
      have hps : parseSections fe (moveProjectInPriorities pn T content) =
          finalizeParse (parseLines fe (A ++ headerLine T :: x :: B) initState) := by
        unfold parseSections
        rw [hsplitO]
      rw [hps]
      exact scan_exact fe pn T A B x e ⟨hTne, hTdot⟩ hhl hAstop hAent hBent
        hxsec hxsub hxent hxname (link_line_not_stop pn x hxlink)
    · have hfn : (splitLines content).find? (lineHasLink pn) = none := by
        cases hq : (splitLines content).find? (lineHasLink pn) with
        | none => rfl
        | some y => exact absurd ⟨y, hq⟩ hfind
      have hall : ∀ l ∈ splitLines content, lineHasLink pn l = false := by
        intro l hl
        have h2 := List.find?_eq_none.mp hfn l hl
        simpa using h2
      have hdw : (splitLines content).dropWhile (fun l => l ≠ headerLine T) =
          headerLine T ::
            ((splitLines content).dropWhile (fun l => l ≠ headerLine T)).tail :=
        dropWhile_ne_cons _ _ hhdrC
      have hsplit2 : (splitLines content).takeWhile (fun l => l ≠ headerLine T) ++
          (splitLines content).dropWhile (fun l => l ≠ headerLine T) =
          splitLines content := List.takeWhile_append_dropWhile _ _
      rw [hdw] at hsplit2
      have huniq := first_split_unique (headerLine T)
        ((splitLines content).takeWhile (fun l => l ≠ headerLine T)) A0
        (((splitLines content).dropWhile (fun l => l ≠ headerLine T)).tail) B0
        (fun hm => mem_takeWhile_ne _ _ _ hm rfl)
        (fun hm => hA0h _ hm rfl)
        (hsplit2.trans hls0)
      obtain ⟨e, hxent, hxname⟩ := lineEntry_newEntry fe pn hpn1 hpn2
      have hxlink := lineHasLink_newEntry pn
      have hmv0 : moveProjectInPriorities pn T content =
          joinLines ((splitLines content).takeWhile (fun l => l ≠ headerLine T) ++
            headerLine T :: ('-' :: ' ' :: ('[' :: '[' :: (pn ++ [']', ']']))) ::
            ((splitLines content).dropWhile (fun l => l ≠ headerLine T)).tail) := by
        unfold moveProjectInPriorities
        rw [hfn]
        exact addToPriorities_shape pn T content hhdrC
      have hnlall : ∀ l ∈
          (splitLines content).takeWhile (fun l => l ≠ headerLine T) ++
            headerLine T :: ('-' :: ' ' :: ('[' :: '[' :: (pn ++ [']', ']']))) ::
            ((splitLines content).dropWhile (fun l => l ≠ headerLine T)).tail,
          '\n' ∉ l := by
        intro l hl
        rcases List.mem_append.mp hl with h1 | h1
        · exact splitLines_no_newline content l (mem_takeWhile_mem _ _ l h1)
        rcases List.mem_cons.mp h1 with h2 | h2
        · rw [h2]
          exact headerLine_no_newline T hTnl
        rcases List.mem_cons.mp h2 with h3 | h3
        · rw [h3]
          exact newEntry_no_newline pn hpn3
        · exact splitLines_no_newline content l (mem_dropWhile_tail _ _ l h3)
      have hps : parseSections fe (moveProjectInPriorities pn T content) =
          finalizeParse (parseLines fe
            ((splitLines content).takeWhile (fun l => l ≠ headerLine T) ++
              headerLine T :: ('-' :: ' ' :: ('[' :: '[' :: (pn ++ [']', ']']))) ::
              ((splitLines content).dropWhile (fun l => l ≠ headerLine T)).tail)
            initState) := by
        unfold parseSections
        rw [hmv0, splitLines_joinLines _ hnlall (by simp)]
      rw [hps]
      exact scan_exact fe pn T
        ((splitLines content).takeWhile (fun l => l ≠ headerLine T))
        (((splitLines content).dropWhile (fun l => l ≠ headerLine T)).tail)
        ('-' :: ' ' :: ('[' :: '[' :: (pn ++ [']', ']']))) e
        ⟨hTne, hTdot⟩ hhl
        (fun l hl => hA0s l (huniq.1 ▸ hl))
        (fun l hl e2 he2 hname => by
          have h2 := lineEntry_hasLink fe l e2 he2
          rw [hname, hall l (mem_takeWhile_mem _ _ l hl)] at h2
          cases h2)
        (fun l hl e2 he2 hname => by
          have h2 := lineEntry_hasLink fe l e2 he2
          rw [hname, hall l (mem_dropWhile_tail _ _ l hl)] at h2
          cases h2)
        (matchSectionHeader_newEntry pn) (matchSubsectionHeader_newEntry pn)
        hxent hxname (link_line_not_stop pn _ hxlink)
  · intro hcS
    have h1 : syncProjectStatusToPriorities pn s content =
        removeFromPriorities pn content := by
      unfold syncProjectStatusToPriorities
      rw [if_pos hcS]
    rw [h1]
    have hent : ∀ l ∈ splitLines (removeFromPriorities pn content), ∀ e,
        lineEntry fe l = some e → ¬ e.projectName = pn := by
      intro l hl e he hname
      have h2 := lineEntry_hasLink fe l e he
      rw [hname, removeFromPriorities_no_link pn content l hl] at h2
      cases h2
    exact finalize_noPn pn _
      (parseLines_noPn fe pn _ initState hent (initState_noPn pn))
  · intro hcS hnone
    unfold syncProjectStatusToPriorities
    rw [if_neg hcS, hnone]

/-- Claim C3, counterexample to the claim as stated: with the mapped
status `active` but a document that has no `## Active` header and no
dash delimiter, the insertion silently does nothing, so the entry is not
present in the mapped section after the sync. -/
theorem syncStatus_section_placement_counterexample :
    ¬ ∃ sec ∈ parseSections emptyLookup
        (syncProjectStatusToPriorities "A".data "active".data "## Other\n- [[B]]".data),
      sec.name = "Active".data ∧ sectionHasEntryName "A".data sec = true := by
  decide

theorem syncStatus_section_placement_witness :
    (∃ sec ∈ parseSections emptyLookup
        (syncProjectStatusToPriorities "A".data "active".data
          "## Active\n- [[A]]\n---\nnotes".data),
      sec.name = "Active".data ∧ sectionHasEntryName "A".data sec = true) ∧
    (∀ sec ∈ parseSections emptyLookup
        (syncProjectStatusToPriorities "A".data "active".data
          "## Active\n- [[A]]\n---\nnotes".data),
      sec.name ≠ "Active".data → sectionHasEntryName "A".data sec = false) :=
  (syncStatus_section_placement emptyLookup "A".data "active".data
    "## Active\n- [[A]]\n---\nnotes".data (by decide) (by decide) (by decide)
    (fun T hT => (Option.some.inj hT) ▸ (by decide))
    (by
      intro l hl hlink
      fin_cases hl
      · exact absurd hlink (by decide)
      · exact ⟨by decide, by decide, ⟨"A".data, [], none⟩, by decide, by decide⟩
      · exact absurd hlink (by decide)
      · exact absurd hlink (by decide))).1
    "Active".data (by decide)
